import Mathlib

/-!
Verification of the file-organizer pipeline in `src/main.py`
(scan → organize-by-extension → duplicate detection → retention/removal).

The program is embedded shallowly over an explicit filesystem snapshot:

* a file is a path (list of segments), a byte content (`List Nat`), a
  modification time, and two permission flags (`readable` gates opening the
  file for hashing, `removable` gates `os.remove`);
* a filesystem is a list of such files plus a list of directory paths,
  listed in `os.walk` visiting order (the walk of the real tree);
* SHA-256 is modelled as the byte stream itself: the spec's data model
  declares the digest collision-free ("invariant: every pair in the group is
  byte-for-byte identical"), so the digest of a content is the content;
* every fallible operation returns `Option`/`Except`; an uncaught Python
  exception is an `Except.error`.

Python string/path operations (`Path.suffix`, `Path.stem`, `str.lower`,
`str.lstrip('.')`, substring tests) are reimplemented character by character
below, following CPython/pathlib semantics.
-/

/-! ## Character and string helpers (pathlib / str semantics) -/

/-- `str.lower`, ASCII as produced by `Char.toLower`. -/
def strLower (s : String) : String := ⟨s.data.map Char.toLower⟩

/-- `str.lstrip('.')`: drop every leading dot. -/
def stripDots (s : String) : String := ⟨s.data.dropWhile (fun c => c == '.')⟩

/-- Index of the last `'.'` in a character list (`str.rfind('.')`), if any. -/
def lastDotIdx : List Char → Option Nat
  | [] => none
  | c :: cs =>
    match lastDotIdx cs with
    | some i => some (i + 1)
    | none => if c == '.' then some 0 else none

/-- `pathlib` split of a file name into `(stem, suffix)`: the suffix starts at
the last dot provided that dot is neither the first nor the last character of
the name; otherwise the suffix is empty and the stem is the whole name. -/
def splitName (name : String) : String × String :=
  match lastDotIdx name.data with
  | some i =>
    if 0 < i ∧ i + 1 < name.data.length then
      (⟨name.data.take i⟩, ⟨name.data.drop i⟩)
    else (name, "")
  | none => (name, "")

/-- `Path.stem`. -/
def stemOf (name : String) : String := (splitName name).1

/-- `Path.suffix`. -/
def suffixOf (name : String) : String := (splitName name).2

/-- `f.suffix.lower().lstrip('.')` — the raw extension key used both by the
already-organized skip test (src/main.py:86) and the folder name
(src/main.py:88). -/
def extKey (name : String) : String := stripDots (strLower (suffixOf name))

/-- Extension category: the raw key, or the literal `"no_ext"` when the key is
empty (src/main.py:88, `... or 'no_ext'`). -/
def extCatOf (name : String) : String :=
  if extKey name = "" then "no_ext" else extKey name

/-- `l₁` is a leading block of `l₂` (list-prefix test). -/
def leadsList : List Char → List Char → Bool
  | [], _ => true
  | _ :: _, [] => false
  | a :: as, b :: bs => a == b && leadsList as bs

/-- Python `needle in hay` on strings: substring occurrence test. -/
def containsSeq (needle hay : List Char) : Bool :=
  match hay with
  | [] => leadsList needle []
  | _ :: t => leadsList needle hay || containsSeq needle t

/-! ## Paths and the filesystem snapshot -/

/-- Render a path (list of segments) the way `str(Path(...))` renders the
absolute paths handled by the program: `/seg1/seg2/...`. -/
def pathStr (p : List String) : String :=
  p.foldl (fun acc s => acc ++ "/" ++ s) ""

/-- `root` is an ancestor-or-self of `d` (segment-wise prefix). -/
def segsLead : List String → List String → Bool
  | [], _ => true
  | _ :: _, [] => false
  | a :: as, b :: bs => a == b && segsLead as bs

/-- One regular file of the snapshot: path, byte content, mtime, and the two
permission bits that decide whether opening it for reading
(`compute_hash`) or unlinking it (`os.remove`) succeeds. -/
structure FEntry where
  path : List String
  content : List Nat
  mtime : Nat
  readable : Bool
  removable : Bool
deriving DecidableEq, Repr

/-- Filesystem snapshot: regular files, plus every directory path, listed in
`os.walk` top-down visiting order. -/
structure FS where
  files : List FEntry
  dirs : List (List String)
deriving DecidableEq, Repr

/-- Look up the file at a path. -/
def findFile (fs : FS) (p : List String) : Option FEntry :=
  fs.files.find? (fun e => e.path == p)

/-- Is there a directory at `p`? -/
def isDirAt (fs : FS) (p : List String) : Bool := fs.dirs.contains p

/-- `Path.exists()`: a file or a directory is present at `p`. -/
def pathExists (fs : FS) (p : List String) : Bool :=
  (findFile fs p).isSome || isDirAt fs p

/-- `os.path.getsize` / `stat().st_size`: byte count for files, the
conventional block size for directories, failure otherwise. -/
def statSize (fs : FS) (p : List String) : Option Nat :=
  match findFile fs p with
  | some e => some e.content.length
  | none => if isDirAt fs p then some 4096 else none

/-- `stat().st_mtime`: stored mtime for files, 0 for directories, failure
otherwise. -/
def statMtime (fs : FS) (p : List String) : Option Nat :=
  match findFile fs p with
  | some e => some e.mtime
  | none => if isDirAt fs p then some 0 else none

/-! ## Utility functions (src/main.py:27-44) -/

/-- `compute_hash` (src/main.py:27-35): stream the file and digest it. The
digest is modelled as the byte stream itself (SHA-256 is deterministic and,
per the spec's DuplicateGroup invariant, collision-free). Fails — an
`IOError` / `IsADirectoryError` in Python — when the path is not a readable
regular file. -/
def compute_hash (fs : FS) (p : List String) : Option (List Nat) :=
  match findFile fs p with
  | some e => if e.readable then some e.content else none
  | none => none

/-- `is_same_file` (src/main.py:40-44): size check first, then full digest
comparison; `none` models an uncaught exception while statting or hashing. -/
def is_same_file (fs : FS) (a b : List String) : Option Bool :=
  match statSize fs a, statSize fs b with
  | some sa, some sb =>
    if sa ≠ sb then some false
    else
      match compute_hash fs a, compute_hash fs b with
      | some ha, some hb => some (ha == hb)
      | _, _ => none
  | _, _ => none

/-- All nonempty leading blocks of a path, shortest first. -/
def pathAncestors (p : List String) : List (List String) :=
  (List.range p.length).map (fun i => p.take (i + 1))

/-- `safe_mkdir` (src/main.py:37-38): `mkdir(parents=True, exist_ok=True)`.
Creates every missing ancestor directory; fails when a regular file occupies
the path or one of its ancestors. -/
def safe_mkdir (fs : FS) (p : List String) : Option FS :=
  if (pathAncestors p).any (fun q => (findFile fs q).isSome) then none
  else some { fs with
    dirs := fs.dirs ++ (pathAncestors p).filter (fun q => !fs.dirs.contains q) }

/-- `shutil.move` onto a fresh destination: unlink the source entry and
re-create it (content, mtime and permissions preserved) at `dest`. -/
def moveFile (fs : FS) (src dest : List String) : Option FS :=
  match findFile fs src with
  | none => none
  | some e => some { fs with
    files := fs.files.filter (fun x => x.path != src) ++ [{ e with path := dest }] }

/-- `shutil.copy2` onto a fresh destination: clone the source entry (copy2
preserves the mtime) at `dest`. -/
def copyFile (fs : FS) (src dest : List String) : Option FS :=
  match findFile fs src with
  | none => none
  | some e => some { fs with files := fs.files ++ [{ e with path := dest }] }

/-! ## Scanner (`scan_files`, src/main.py:50-65) -/

/-- The ignore test of src/main.py:56: some ignore pattern is a substring of
the rendered directory path. -/
def ignoredDir (ignore : List String) (d : List String) : Bool :=
  ignore.any (fun ig => containsSeq ig.data (pathStr d).data)

/-- The regular files directly inside directory `d`, in snapshot order
(`filenames` of one `os.walk` step). -/
def filesUnder (fs : FS) (d : List String) : List (List String) :=
  (fs.files.filter (fun e => e.path.dropLast == d)).map (fun e => e.path)

/-- The directories `os.walk root` visits, root first, then the remaining
recorded directories below `root` in recorded (top-down) order. -/
def walkDirs (fs : FS) (root : List String) : List (List String) :=
  (if fs.dirs.contains root then [root] else []) ++
    fs.dirs.filter (fun d => segsLead root d && d != root)

/-- The body of the walk loop of `scan_files`: an ignored directory is
skipped entirely (`continue`, src/main.py:56-57, which also skips the
non-recursive `break`); otherwise its files are collected and, in
non-recursive mode, the loop breaks (src/main.py:63-64). -/
def scanLoop (fs : FS) (recursive : Bool) (ignore : List String) :
    List (List String) → List (List String)
  | [] => []
  | d :: ds =>
    if ignoredDir ignore d then scanLoop fs recursive ignore ds
    else filesUnder fs d ++ (if recursive then scanLoop fs recursive ignore ds else [])

/-- `scan_files` (src/main.py:50-65). -/
def scan_files (fs : FS) (root : List String) (recursive : Bool)
    (ignore : List String) : List (List String) :=
  scanLoop fs recursive ignore (walkDirs fs root)

/-! ## `categorize_by_extension` (src/main.py:67-72) -/

/-- `defaultdict(list)` accumulation: append `v` to the bucket of `k`,
creating the bucket at the end on first use (Python dicts preserve insertion
order). -/
def addGroup {κ α : Type} [BEq κ] : List (κ × List α) → κ → α → List (κ × List α)
  | [], k, v => [(k, [v])]
  | (k', vs) :: rest, k, v =>
    if k' == k then (k', vs ++ [v]) :: rest else (k', vs) :: addGroup rest k v

/-- Bucket a list by a partial key; elements without a key are dropped (the
`except: continue` arms of `find_duplicates`). -/
def collectBy {κ α : Type} [BEq κ] (key : α → Option κ) (xs : List α) :
    List (κ × List α) :=
  xs.foldl (fun m x => match key x with | some k => addGroup m k x | none => m) []

/-- `categorize_by_extension` (src/main.py:67-72). -/
def categorize_by_extension (files : List (List String)) :
    List (String × List (List String)) :=
  collectBy (fun p => (p.getLast?).map extCatOf) files

/-! ## Organizer (`organize_files`, src/main.py:74-109) -/

/-- The three operation kinds recorded by `organize_files`. -/
inductive ActKind
  | move
  | copy
  | skipSame
deriving DecidableEq, Repr

/-- One recorded operation (`{'action': ..., 'src': ..., 'dest': ...}`). -/
structure Op where
  act : ActKind
  src : List String
  dest : List String
deriving DecidableEq, Repr

/-- The already-organized skip test of src/main.py:86:
`len(rel_path.parts) >= 2 and rel_path.parts[0].lower() == f.suffix.lower().lstrip('.')`. -/
def skipCheck (relp : List String) (name : String) : Bool :=
  match relp with
  | r0 :: _ :: _ => strLower r0 == extKey name
  | _ => false

/-- `skipCheck` applied to a full path: relative parts and file name derived
from `p` below `root`. -/
def skipCheckPath (root p : List String) : Bool :=
  match (p.drop root.length).getLast? with
  | none => true
  | some nm => skipCheck (p.drop root.length) nm

/-- The numbered collision candidate of src/main.py:99:
`f.stem + f"_{counter}" + f.suffix`. -/
def bumpName (stem sfx : String) (k : Nat) : String :=
  stem ++ "_" ++ Nat.repr k ++ sfx

/-- The `k`-th destination candidate for a file named `name` in `folder`:
candidate 0 is `folder/name`, candidate `k ≥ 1` is the `k`-numbered variant. -/
def candAt (folder : List String) (name : String) (k : Nat) : List String :=
  if k = 0 then folder ++ [name]
  else folder ++ [bumpName (stemOf name) (suffixOf name) k]

/-- The `while dest.exists()` loop of src/main.py:93-101, fuelled (the
candidate numbers are strictly increasing, so on a finite snapshot the fuel
computed by `organizeStep` below is never exhausted when the loop would
terminate). Returns the final destination and whether the loop stopped on an
identical file (`skip_same` + `break`) or on a free destination (normal exit
into the `else` arm). -/
def resolveLoop (fs : FS) (folder : List String) (stem sfx : String)
    (src : List String) : Nat → Nat → List String → Except String (List String × Bool)
  | 0, _, _ => .error "nontermination"
  | fuel + 1, counter, dest =>
    if pathExists fs dest then
      match is_same_file fs dest src with
      | none => .error "ioerror"
      | some true => .ok (dest, true)
      | some false =>
        resolveLoop fs folder stem sfx src fuel (counter + 1)
          (folder ++ [stem ++ "_" ++ Nat.repr counter ++ sfx])
    else .ok (dest, false)

/-- Fuel bound for the collision loop: strictly more than the number of paths
the snapshot can possibly occupy. -/
def fuelOf (fs : FS) : Nat := fs.files.length + fs.dirs.length + 2

/-- The per-file body of the `organize_files` loop (src/main.py:83-108):
skip test, folder creation (not gated by dry-run), collision resolution,
record emission, and — unless `dry` — the actual move/copy. -/
def organizeStep (mv dry : Bool) (root target : List String) (fs : FS)
    (p : List String) : Except String (Option Op × FS) :=
  match (p.drop root.length).getLast? with
  | none => .error "relative_to"
  | some name =>
    if skipCheck (p.drop root.length) name then .ok (none, fs)
    else
      let folder := target ++ [extCatOf name]
      match safe_mkdir fs folder with
      | none => .error "mkdir"
      | some fs1 =>
        match resolveLoop fs1 folder (stemOf name) (suffixOf name) p
            (fuelOf fs1) 1 (folder ++ [name]) with
        | .error e => .error e
        | .ok (dest, true) => .ok (some ⟨.skipSame, p, dest⟩, fs1)
        | .ok (dest, false) =>
          let act := if mv then ActKind.move else ActKind.copy
          if dry then .ok (some ⟨act, p, dest⟩, fs1)
          else
            match (if mv then moveFile fs1 p dest else copyFile fs1 p dest) with
            | none => .error "shutil"
            | some fs2 => .ok (some ⟨act, p, dest⟩, fs2)

/-- Fold of `organizeStep` over the scanned files, threading the filesystem. -/
def organizeGo (mv dry : Bool) (root target : List String) :
    FS → List (List String) → Except String (List Op × FS)
  | fs, [] => .ok ([], fs)
  | fs, p :: ps =>
    match organizeStep mv dry root target fs p with
    | .error e => .error e
    | .ok (o?, fs') =>
      match organizeGo mv dry root target fs' ps with
      | .error e => .error e
      | .ok (ops, fs'') => .ok (o?.toList ++ ops, fs'')

/-- `organize_files` (src/main.py:74-109): scan once (recursive, with the
ignore list), then process every scanned file in emission order. -/
def organize_files (fs : FS) (root : List String) (target? : Option (List String))
    (dry mv : Bool) (ignore : List String) : Except String (List Op × FS) :=
  organizeGo mv dry root (target?.getD root) fs (scan_files fs root true ignore)

/-! ## DuplicateDetector (`find_duplicates`, src/main.py:111-134) -/

/-- `find_duplicates` (src/main.py:111-134): scan, partition by size
(stat failures skipped), then within each size class of at least two files
partition by digest (hash failures skipped) and emit every digest class of at
least two files. -/
def find_duplicates (fs : FS) (root : List String) (ignore : List String) :
    List (List Nat × List (List String)) :=
  let files := scan_files fs root true ignore
  let size_map := collectBy (fun p => statSize fs p) files
  size_map.foldl
    (fun acc pr =>
      if pr.2.length < 2 then acc
      else acc ++ (collectBy (fun p => compute_hash fs p) pr.2).filter
        (fun g => 1 < g.2.length))
    []

/-! ## RetentionPolicy (`remove_duplicates`, src/main.py:136-162) -/

/-- One removal record (`{'hash':..., 'removed':..., 'kept':...}`, plus the
`'error'` key set when the deletion raised). -/
structure RemRec where
  hash : List Nat
  removed : List String
  kept : List String
  error : Option String
deriving DecidableEq, Repr

/-- Stable ascending insertion by the first (mtime) component: the new
element goes after every element with a key less than or equal to its own,
matching the stability of Python's `sorted`. -/
def insortPair (x : Nat × List String) :
    List (Nat × List String) → List (Nat × List String)
  | [] => [x]
  | y :: ys => if x.1 < y.1 then x :: y :: ys else y :: insortPair x ys

/-- `sorted(plist, key=lambda p: p.stat().st_mtime)` on an mtime-decorated
list. -/
def sortByMt (xs : List (Nat × List String)) : List (Nat × List String) :=
  xs.foldl (fun acc x => insortPair x acc) []

/-- Decorate a group with mtimes (the key extraction of Python's `sorted`);
`none` when some stat raises (src/main.py:144 has no try/except, so this
aborts `remove_duplicates`). -/
def keyedOf (fs : FS) : List (List String) → Option (List (Nat × List String))
  | [] => some []
  | p :: ps =>
    match statMtime fs p, keyedOf fs ps with
    | some m, some ks => some ((m, p) :: ks)
    | _, _ => none

/-- The removal pass over one group's `to_remove` list (src/main.py:155-161):
append the record, then — unless dry-run — `os.remove`, recording any
exception in the record's error field and continuing. -/
def removeGo (dry : Bool) (h : List Nat) (keeper : List String) :
    FS → List RemRec → List (List String) → List RemRec × FS
  | fs, recs, [] => (recs, fs)
  | fs, recs, p :: ps =>
    if dry then removeGo dry h keeper fs (recs ++ [⟨h, p, keeper, none⟩]) ps
    else
      match findFile fs p with
      | some e =>
        if e.removable then
          removeGo dry h keeper
            { fs with files := fs.files.filter (fun x => x.path != p) }
            (recs ++ [⟨h, p, keeper, none⟩]) ps
        else removeGo dry h keeper fs (recs ++ [⟨h, p, keeper, some "PermissionError"⟩]) ps
      | none => removeGo dry h keeper fs (recs ++ [⟨h, p, keeper, some "FileNotFoundError"⟩]) ps

/-- The per-group loop of `remove_duplicates` (src/main.py:142-161): sort the
group by mtime (unguarded stats — a failure aborts the whole call), select
keeper and `to_remove` by the keep rule (`'first'`, `'latest'`, anything else
falls back to the `'first'` behaviour), then run the removal pass. An empty
group raises `IndexError` at `sorted_list[0]`. -/
def removeDupGo (keep : String) (dry : Bool) :
    FS → List RemRec → List (List Nat × List (List String)) →
    Except String (List RemRec × FS)
  | fs, acc, [] => .ok (acc, fs)
  | fs, acc, (h, plist) :: rest =>
    match keyedOf fs plist with
    | none => .error "stat"
    | some keyed =>
      match sortByMt keyed with
      | [] => .error "IndexError"
      | s0 :: srest =>
        let sorted := s0 :: srest
        let sel :=
          if keep == "first" then (s0.2, srest.map (fun x => x.2))
          else if keep == "latest" then
            ((sorted.getLastD s0).2, (sorted.dropLast).map (fun x => x.2))
          else (s0.2, srest.map (fun x => x.2))
        match removeGo dry h sel.1 fs [] sel.2 with
        | (recs, fs') => removeDupGo keep dry fs' (acc ++ recs) rest

/-- `remove_duplicates` (src/main.py:136-162). -/
def remove_duplicates (fs : FS) (dups : List (List Nat × List (List String)))
    (keep : String) (dry : Bool) : Except String (List RemRec × FS) :=
  removeDupGo keep dry fs [] dups

/-! ## Projections used to state closed theorems -/

/-- The operation list of a successful organize run. -/
def opsOf (r : Except String (List Op × FS)) : Option (List Op) :=
  match r with
  | .ok (ops, _) => some ops
  | .error _ => none

/-- The final snapshot of a successful organize run. -/
def fsOf (r : Except String (List Op × FS)) : Option FS :=
  match r with
  | .ok (_, fs) => some fs
  | .error _ => none

/-- The record list of a successful removal run. -/
def recsOf (r : Except String (List RemRec × FS)) : Option (List RemRec) :=
  match r with
  | .ok (recs, _) => some recs
  | .error _ => none

/-- The final snapshot of a successful removal run. -/
def remFsOf (r : Except String (List RemRec × FS)) : Option FS :=
  match r with
  | .ok (_, fs) => some fs
  | .error _ => none

/-! ## Concrete snapshots used by the fixture theorems -/

/-- The literal fixture of the spec's scenario: root contains `a.txt`
(content "X" = byte 88), `b.txt` (content "X"), `c.txt` (content "Y" = 89). -/
def fxDup : FS :=
  { files := [⟨["root", "a.txt"], [88], 0, true, true⟩,
              ⟨["root", "b.txt"], [88], 1, true, true⟩,
              ⟨["root", "c.txt"], [89], 2, true, true⟩],
    dirs := [["root"]] }

/-- Snapshot with an unreadable file (`z`) among same-size candidates, plus a
second, healthy duplicate pair (`u`,`v`). -/
def fxUnread : FS :=
  { files := [⟨["root", "x"], [7], 0, true, true⟩,
              ⟨["root", "y"], [7], 1, true, true⟩,
              ⟨["root", "z"], [7], 2, false, true⟩,
              ⟨["root", "u"], [9, 9], 3, true, true⟩,
              ⟨["root", "v"], [9, 9], 4, true, true⟩],
    dirs := [["root"]] }

/-- Snapshot with a non-removable duplicate (`p2`) and a healthy second
group (`q1`,`q2`). -/
def fxPerm : FS :=
  { files := [⟨["root", "p1"], [7], 0, true, true⟩,
              ⟨["root", "p2"], [7], 1, true, false⟩,
              ⟨["root", "q1"], [8], 0, true, true⟩,
              ⟨["root", "q2"], [8], 1, true, true⟩],
    dirs := [["root"]] }

/-! ## Specification-side predicates, auxiliary state, and fixtures -/

/-- Ascending by the mtime key. -/
def SortedMt (l : List (Nat × List String)) : Prop :=
  List.Pairwise (fun a b => a.1 ≤ b.1) l

/-- The keeper `remove_duplicates` selects for one group (src/main.py:145-153):
sort the group by mtime; `'first'` keeps the head, `'latest'` the last
element, anything else falls back to the head. -/
def keeperOf (fs : FS) (keep : String) (g : List Nat × List (List String)) :
    Option (List String) :=
  match keyedOf fs g.2 with
  | none => none
  | some ks =>
    match sortByMt ks with
    | [] => none
    | s0 :: srest =>
      if keep == "first" then some s0.2
      else if keep == "latest" then some (((s0 :: srest).getLastD s0).2)
      else some s0.2

/-- What C10 asserts of one `remove_duplicates` batch: one record per
non-keeper group member, every record's kept path is the group's selected
keeper, and no kept path is ever a removed path. -/
def RemovalBatchSpec (fs : FS) (keep : String)
    (dups : List (List Nat × List (List String))) (recs : List RemRec) : Prop :=
  recs.length = (dups.map (fun g => g.2.length - 1)).sum ∧
  (∀ r ∈ recs, ∃ g ∈ dups,
    keeperOf fs keep g = some r.kept ∧ r.removed ∈ g.2 ∧ r.hash = g.1) ∧
  (∀ r ∈ recs, ∀ r' ∈ recs, r.kept ≠ r'.removed)

/-- What C5 asserts of a `keep='first'` run on one group with decorated list
`ks`: the group is ordered by mtime ascending, the removal records cover
exactly the tail of that ordering, and every record keeps the head — an
entry of minimal mtime. -/
def FirstKeepSpec (recs : List RemRec) (ks : List (Nat × List String)) : Prop :=
  SortedMt (sortByMt ks) ∧ List.Perm (sortByMt ks) ks ∧
  recs.map RemRec.removed = ((sortByMt ks).map Prod.snd).drop 1 ∧
  ∀ x, (sortByMt ks).head? = some x →
    (∀ r ∈ recs, r.kept = x.2) ∧ ∀ y ∈ ks, x.1 ≤ y.1

/-- What C5 asserts of a `keep='latest'` run on one group: the removal
records cover everything but the last entry of the mtime-ascending ordering,
and every record keeps that last — most recently modified — entry. -/
def LatestKeepSpec (recs : List RemRec) (ks : List (Nat × List String)) : Prop :=
  recs.map RemRec.removed = ((sortByMt ks).map Prod.snd).dropLast ∧
  ∀ x, (sortByMt ks).getLast? = some x →
    (∀ r ∈ recs, r.kept = x.2) ∧ ∀ y ∈ ks, y.1 ≤ x.1

/-- Invariant of the `defaultdict` accumulation: bucket keys are distinct,
each bucket holds exactly the processed elements with that key (in order),
and every processed element with a key has its bucket. -/
def collectInv {κ α : Type} [BEq κ] (key : α → Option κ) (done : List α)
    (m : List (κ × List α)) : Prop :=
  (m.map Prod.fst).Nodup ∧
  (∀ kv ∈ m, kv.2 = done.filter (fun x => key x == some kv.1)) ∧
  (∀ x ∈ done, ∀ k, key x = some k → k ∈ m.map Prod.fst)

/-- C3's first conclusion: the two paths land in one emitted duplicate group. -/
def InSameDupGroup (fs : FS) (root ig : List String) (p q : List String) : Prop :=
  ∃ g ∈ find_duplicates fs root ig, p ∈ g.2 ∧ q ∈ g.2

/-- C3's group invariant: every emitted group has at least two members, every
member is a readable file whose digest is the group digest, and all members
share one size. -/
def DupGroupsSpec (fs : FS) (root : List String) (ig : List String) : Prop :=
  ∀ g ∈ find_duplicates fs root ig, 2 ≤ g.2.length ∧
    (∀ p ∈ g.2, ∃ e, findFile fs p = some e ∧ e.readable = true ∧ e.content = g.1) ∧
    (∀ p ∈ g.2, ∀ q ∈ g.2, statSize fs p = statSize fs q)

/-- C9's conclusion for one scanned path: no ignore pattern occurs as a
substring of the rendered path of the directory the file sits in. -/
def ScanRespectsIgnores (fs : FS) (root : List String) (rec : Bool)
    (ig : List String) (p : List String) : Prop :=
  ∀ s ∈ ig, containsSeq s.data (pathStr p.dropLast).data = false

/-- C7's conclusion for one file: no recorded operation has it as source. -/
def NoActionFor (ops : List Op) (p : List String) : Prop :=
  ∀ op ∈ ops, op.src ≠ p

/-- The `k`-th destination the collision loop tries, starting from an
arbitrary initial destination. -/
def candFrom (folder : List String) (stem sfx : String) (dest0 : List String)
    (k : Nat) : List String :=
  if k = 0 then dest0 else folder ++ [bumpName stem sfx k]

/-- C8's conclusion: the loop's answer is the first candidate, in the order
original name, `stem_1.ext`, `stem_2.ext`, …, that is free or content-equal;
every earlier candidate existed with different content (so the numeric
suffixes grow strictly from 1 and are never reused). -/
def CollisionResolved (fs : FS) (folder : List String) (name : String)
    (src : List String) (d : List String) (same : Bool) : Prop :=
  ∃ k, d = candAt folder name k ∧
    (∀ j < k, pathExists fs (candAt folder name j) = true ∧
      is_same_file fs (candAt folder name j) src = some false) ∧
    (if same then pathExists fs (candAt folder name k) = true ∧
      is_same_file fs (candAt folder name k) src = some true
    else pathExists fs (candAt folder name k) = false)

/-- C8's link into `organize_files`: a recorded operation comes out of one
collision-loop run, SkipSame exactly when the loop stopped on identical
content, Move/Copy exactly when it stopped on a free destination. -/
def StepUsesLoop (mv : Bool) (root target : List String) (fs : FS)
    (p : List String) (op : Op) : Prop :=
  ∃ name fs1 same, (p.drop root.length).getLast? = some name ∧
    safe_mkdir fs (target ++ [extCatOf name]) = some fs1 ∧
    resolveLoop fs1 (target ++ [extCatOf name]) (stemOf name) (suffixOf name) p
      (fuelOf fs1) 1 ((target ++ [extCatOf name]) ++ [name]) = .ok (op.dest, same) ∧
    op.act = (if same then ActKind.skipSame
      else if mv then ActKind.move else ActKind.copy) ∧
    op.src = p

/-- The destination `organize_files` first tries for a file: the category
folder of its name, then the unchanged file name. -/
def initDest (root target p : List String) : Option (List String) :=
  ((p.drop root.length).getLast?).map (fun name => (target ++ [extCatOf name]) ++ [name])

/-- The snapshot after a successful `safe_mkdir`. -/
def mkdirFS (fs : FS) (q : List String) : FS :=
  { fs with dirs := fs.dirs ++ (pathAncestors q).filter (fun r => !fs.dirs.contains r) }

def fxClash : FS := FS.mk
  [⟨["root", "a", "f.txt"], [1], 0, true, true⟩,
   ⟨["root", "b", "f.txt"], [2, 2], 1, true, true⟩]
  [["root"], ["root", "a"], ["root", "b"]]

def fxW1 : FS := FS.mk [⟨["root", "x.txt"], [5], 0, true, true⟩] [["root"]]

def tailDotFree (nm : String) : Bool := (nm.data.drop 1).all (fun c => c != '.')

def okName (nm : String) : Bool := (extKey nm != "") || tailDotFree nm

def AnchoredPath (root q : List String) : Prop :=
  ∃ nm, (q.drop root.length).getLast? = some nm ∧
    (skipCheck (q.drop root.length) nm = true ∨ q = root ++ [extCatOf nm, nm])

def StuckAt (fs : FS) (folder : List String) (name : String) (src : List String) : Prop :=
  ∃ j, (∀ i < j, pathExists fs (candAt folder name i) = true ∧
      is_same_file fs (candAt folder name i) src = some false) ∧
    pathExists fs (candAt folder name j) = true ∧
    ¬ is_same_file fs (candAt folder name j) src = some false

def StuckSelf (root : List String) (fs : FS) (p : List String) : Prop :=
  ∃ nm, (p.drop root.length).getLast? = some nm ∧ okName nm = true ∧
    StuckAt fs (root ++ [extCatOf nm]) nm p

def UnscannedP (root : List String) (ig : List String) (q : List String) : Prop :=
  ignoredDir ig q.dropLast = true ∨ segsLead root q.dropLast = false

def candName (nm : String) (k : Nat) : String :=
  if k = 0 then nm else bumpName (stemOf nm) (suffixOf nm) k

def DoneE (root : List String) (rem : List (List String)) (fs : FS)
    (p : List String) : Prop :=
  skipCheckPath root p = true ∨ (p ∉ rem ∧ StuckSelf root fs p)

def fxDot : FS := FS.mk
  [⟨["root", "a."], [1], 0, true, true⟩,
   ⟨["root", "no_ext", "a."], [2, 2], 1, true, true⟩,
   ⟨["root", "no_ext", "a._1"], [1], 2, true, true⟩]
  [["root"], ["root", "no_ext"]]

def fxDot1 : FS := FS.mk
  [⟨["root", "a."], [1], 0, true, true⟩,
   ⟨["root", "no_ext", "a."], [2, 2], 1, true, true⟩,
   ⟨["root", "_1", "a._1"], [1], 2, true, true⟩]
  [["root"], ["root", "no_ext"], ["root", "_1"]]

def fxW6 : FS := FS.mk
  [⟨["root", "a", "f.txt"], [7], 0, true, true⟩,
   ⟨["root", "b", "f.txt"], [7], 1, true, true⟩]
  [["root"], ["root", "a"], ["root", "b"]]

def fxW6b : FS := FS.mk
  [⟨["root", "b", "f.txt"], [7], 1, true, true⟩,
   ⟨["root", "txt", "f.txt"], [7], 0, true, true⟩]
  [["root"], ["root", "a"], ["root", "b"], ["root", "txt"]]

def specSkip (relp : List String) (name : String) : Bool :=
  match relp with
  | r0 :: _ :: _ => r0 == extCatOf name
  | _ => false

def fxNoExt : FS := FS.mk
  [⟨["root", "no_ext", "data"], [3], 0, true, true⟩]
  [["root"], ["root", "no_ext"]]

def fxC8 : FS := FS.mk
  [⟨["root", "txt", "f.txt"], [1], 0, true, true⟩,
   ⟨["root", "x", "f.txt"], [2, 2], 1, true, true⟩]
  [["root"], ["root", "txt"], ["root", "x"]]

def fxLib : FS := FS.mk
  [⟨["root", "library_docs", "doc.txt"], [1], 0, true, true⟩,
   ⟨["root", "keep", "data.txt"], [2], 1, true, true⟩]
  [["root"], ["root", "library_docs"], ["root", "keep"]]

/-! ## C2 — the literal three-file fixture -/

/-- C2, counterexample: on the spec's own fixture the organize pass succeeds
and emits no SkipSame record at all — in particular none for `b.txt`, whose
destination `txt/b.txt` is distinct from `txt/a.txt` and therefore free. The
claimed "SkipSame action for b.txt" does not exist. -/
theorem claim2_cex :
    (opsOf (organize_files fxDup ["root"] none false true [])).isSome = true ∧
    ((opsOf (organize_files fxDup ["root"] none false true [])).getD []).all
      (fun op => op.act != ActKind.skipSame) = true := by
  exact ⟨rfl, rfl⟩

/-- C2, amended: `find_duplicates` returns exactly one group, of size 2,
holding `a.txt` and `b.txt`; `organize` with move=true emits a Move into the
`txt/` category folder for each of the three files (no SkipSame: the three
destination filenames are pairwise distinct). -/
theorem claim2_thm :
    find_duplicates fxDup ["root"] [] =
      [([88], [["root", "a.txt"], ["root", "b.txt"]])] ∧
    opsOf (organize_files fxDup ["root"] none false true []) =
      some [⟨.move, ["root", "a.txt"], ["root", "txt", "a.txt"]⟩,
            ⟨.move, ["root", "b.txt"], ["root", "txt", "b.txt"]⟩,
            ⟨.move, ["root", "c.txt"], ["root", "txt", "c.txt"]⟩] := by
  exact ⟨rfl, rfl⟩

/-! ## C4 — per-file error isolation -/

/-- C4, counterexample: a stat failure on a single group member (a path that
is no longer present) is a per-file error arising inside `remove_duplicates`,
yet it aborts the entire call — the healthy sibling group
(`q1`,`q2`) is never processed and no record is returned, because the
`sorted(..., key=lambda p: p.stat().st_mtime)` of src/main.py:144 is outside
any try/except. -/
theorem claim4_cex :
    recsOf (remove_duplicates fxPerm
      [([7], [["root", "gone"], ["root", "p1"]]),
       ([8], [["root", "q1"], ["root", "q2"]])] "first" false) = none := by
  exact rfl

/-- C4, amended: the isolation that does hold. A hash failure inside
`find_duplicates` silently drops the failing file (`z`) and the surviving
members of its size class and the sibling size class are still grouped; a
deletion failure inside `remove_duplicates` is captured in the record's error
field and the next group is still processed. -/
theorem claim4_thm :
    find_duplicates fxUnread ["root"] [] =
      [([7], [["root", "x"], ["root", "y"]]),
       ([9, 9], [["root", "u"], ["root", "v"]])] ∧
    recsOf (remove_duplicates fxPerm
      [([7], [["root", "p1"], ["root", "p2"]]),
       ([8], [["root", "q1"], ["root", "q2"]])] "first" false) =
      some [⟨[7], ["root", "p2"], ["root", "p1"], some "PermissionError"⟩,
            ⟨[8], ["root", "q2"], ["root", "q1"], none⟩] := by
  exact ⟨rfl, rfl⟩

/-! ## Verification -/

theorem insortPair_perm (x : Nat × List String) :
    ∀ l, List.Perm (insortPair x l) (x :: l)
  | [] => List.Perm.refl _
  | y :: ys => by
    unfold insortPair
    split
    · exact List.Perm.refl _
    · exact ((insortPair_perm x ys).cons y).trans (List.Perm.swap x y ys)

theorem sortByMtGo_perm :
    ∀ (l acc : List (Nat × List String)),
      List.Perm (l.foldl (fun a x => insortPair x a) acc) (acc ++ l)
  | [], acc => by simp
  | x :: xs, acc => by
    simp only [List.foldl_cons]
    exact (sortByMtGo_perm xs (insortPair x acc)).trans
      (((insortPair_perm x acc).append_right xs).trans List.perm_middle.symm)

theorem sortByMt_perm (l : List (Nat × List String)) :
    List.Perm (sortByMt l) l := by
  simpa using sortByMtGo_perm l []

theorem insortPair_pairwise (x : Nat × List String) :
    ∀ l, SortedMt l → SortedMt (insortPair x l)
  | [], _ => List.pairwise_singleton _ _
  | y :: ys, h => by
    rcases List.pairwise_cons.mp h with ⟨hy, hys⟩
    unfold insortPair
    split
    · rename_i hlt
      refine List.pairwise_cons.mpr ⟨?_, h⟩
      intro z hz
      rcases List.mem_cons.mp hz with rfl | hz
      · exact Nat.le_of_lt hlt
      · exact Nat.le_trans (Nat.le_of_lt hlt) (hy z hz)
    · rename_i hge
      refine List.pairwise_cons.mpr ⟨?_, insortPair_pairwise x ys hys⟩
      intro z hz
      rcases List.mem_cons.mp ((insortPair_perm x ys).mem_iff.mp hz) with rfl | hz'
      · exact Nat.le_of_not_lt hge
      · exact hy z hz'

theorem sortByMtGo_pairwise :
    ∀ (l acc : List (Nat × List String)), SortedMt acc →
      SortedMt (l.foldl (fun a x => insortPair x a) acc)
  | [], _, h => h
  | x :: xs, acc, h => by
    simp only [List.foldl_cons]
    exact sortByMtGo_pairwise xs (insortPair x acc) (insortPair_pairwise x acc h)

theorem sortByMt_sorted (l : List (Nat × List String)) : SortedMt (sortByMt l) :=
  sortByMtGo_pairwise l [] List.Pairwise.nil

theorem mem_of_getLastSome {α : Type} {l : List α} {a : α}
    (h : l.getLast? = some a) : a ∈ l := by
  rcases List.getLast?_eq_some_iff.mp h with ⟨ys, rfl⟩
  simp

theorem sortedMt_head_min {x : Nat × List String} {l : List (Nat × List String)}
    (h : SortedMt (x :: l)) : ∀ y ∈ x :: l, x.1 ≤ y.1 := by
  intro y hy
  rcases List.mem_cons.mp hy with rfl | hy
  · exact Nat.le_refl _
  · exact (List.pairwise_cons.mp h).1 y hy

theorem sortedMt_getLast_max :
    ∀ (l : List (Nat × List String)), SortedMt l →
      ∀ x ∈ l, ∀ z, l.getLast? = some z → x.1 ≤ z.1 := by
  intro l
  induction l with
  | nil => intro _ x hx; cases hx
  | cons a t ih =>
    intro h x hx z hz
    cases t with
    | nil =>
      rcases List.mem_singleton.mp hx with rfl
      simp only [List.getLast?_singleton, Option.some_inj] at hz
      exact hz ▸ Nat.le_refl _
    | cons b t' =>
      rw [List.getLast?_cons_cons] at hz
      have htail : SortedMt (b :: t') := (List.pairwise_cons.mp h).2
      rcases List.mem_cons.mp hx with rfl | hx
      · exact (List.pairwise_cons.mp h).1 z (mem_of_getLastSome hz)
      · exact ih htail x hx z hz

theorem keyedOf_spec (fs : FS) :
    ∀ pl ks, keyedOf fs pl = some ks →
      ks.map Prod.snd = pl ∧ ∀ x ∈ ks, statMtime fs x.2 = some x.1 := by
  intro pl
  induction pl with
  | nil => intro ks h; simp only [keyedOf, Option.some_inj] at h; subst h; simp
  | cons p ps ih =>
    intro ks h
    simp only [keyedOf] at h
    cases hm : statMtime fs p with
    | none => rw [hm] at h; exact absurd h (by simp)
    | some m =>
      rw [hm] at h
      cases hks : keyedOf fs ps with
      | none => rw [hks] at h; exact absurd h (by simp)
      | some ks' =>
        rw [hks] at h
        simp only [Option.some_inj] at h
        subst h
        rcases ih ks' hks with ⟨h1, h2⟩
        refine ⟨by simp [h1], ?_⟩
        intro x hx
        rcases List.mem_cons.mp hx with rfl | hx
        · exact hm
        · exact h2 x hx

theorem removeGo_records (dry : Bool) (h : List Nat) (keeper : List String) :
    ∀ (ps : List (List String)) (fs : FS) (recs : List RemRec),
      ∃ newr, (removeGo dry h keeper fs recs ps).1 = recs ++ newr ∧
        newr.map RemRec.removed = ps ∧
        ∀ r ∈ newr, r.kept = keeper ∧ r.hash = h := by
  intro ps
  induction ps with
  | nil => intro fs recs; exact ⟨[], by simp [removeGo], rfl, by simp⟩
  | cons p ps ih =>
    intro fs recs
    cases dry with
    | true =>
      rcases ih fs (recs ++ [⟨h, p, keeper, none⟩]) with ⟨newr, h1, h2, h3⟩
      refine ⟨⟨h, p, keeper, none⟩ :: newr, ?_, by simp [h2], ?_⟩
      · have hstep : removeGo true h keeper fs recs (p :: ps) =
          removeGo true h keeper fs (recs ++ [⟨h, p, keeper, none⟩]) ps := rfl
        rw [hstep, h1, List.append_assoc]
        rfl
      · intro r hr
        rcases List.mem_cons.mp hr with rfl | hr
        · exact ⟨rfl, rfl⟩
        · exact h3 r hr
    | false =>
      cases hf : findFile fs p with
      | some e =>
        cases hrm : e.removable with
        | true =>
          rcases ih { fs with files := fs.files.filter (fun x => x.path != p) }
            (recs ++ [⟨h, p, keeper, none⟩]) with ⟨newr, h1, h2, h3⟩
          refine ⟨⟨h, p, keeper, none⟩ :: newr, ?_, by simp [h2], ?_⟩
          · have hstep : (removeGo false h keeper fs recs (p :: ps)).1 =
              (removeGo false h keeper { fs with files := fs.files.filter (fun x => x.path != p) }
                (recs ++ [⟨h, p, keeper, none⟩]) ps).1 := by
              simp [removeGo, hf, hrm]
            rw [hstep, h1, List.append_assoc]
            rfl
          · intro r hr
            rcases List.mem_cons.mp hr with rfl | hr
            · exact ⟨rfl, rfl⟩
            · exact h3 r hr
        | false =>
          rcases ih fs (recs ++ [⟨h, p, keeper, some "PermissionError"⟩]) with ⟨newr, h1, h2, h3⟩
          refine ⟨⟨h, p, keeper, some "PermissionError"⟩ :: newr, ?_, by simp [h2], ?_⟩
          · have hstep : (removeGo false h keeper fs recs (p :: ps)).1 =
              (removeGo false h keeper fs (recs ++ [⟨h, p, keeper, some "PermissionError"⟩]) ps).1 := by
              simp [removeGo, hf, hrm]
            rw [hstep, h1, List.append_assoc]
            rfl
          · intro r hr
            rcases List.mem_cons.mp hr with rfl | hr
            · exact ⟨rfl, rfl⟩
            · exact h3 r hr
      | none =>
        rcases ih fs (recs ++ [⟨h, p, keeper, some "FileNotFoundError"⟩]) with ⟨newr, h1, h2, h3⟩
        refine ⟨⟨h, p, keeper, some "FileNotFoundError"⟩ :: newr, ?_, by simp [h2], ?_⟩
        · have hstep : (removeGo false h keeper fs recs (p :: ps)).1 =
            (removeGo false h keeper fs (recs ++ [⟨h, p, keeper, some "FileNotFoundError"⟩]) ps).1 := by
            simp [removeGo, hf]
          rw [hstep, h1, List.append_assoc]
          rfl
        · intro r hr
          rcases List.mem_cons.mp hr with rfl | hr
          · exact ⟨rfl, rfl⟩
          · exact h3 r hr

theorem find?_filter_path_ne (files : List FEntry) (p q : List String) (hpq : p ≠ q) :
    (files.filter (fun x => x.path != q)).find? (fun e => e.path == p) =
      files.find? (fun e => e.path == p) := by
  induction files with
  | nil => rfl
  | cons e rest ih =>
    by_cases he : e.path = q
    · have h1 : (e.path != q) = false := by simp [he]
      have h2 : (e.path == p) = false := by
        rw [he]
        exact beq_eq_false_iff_ne.mpr (fun hh => hpq hh.symm)
      simp [List.filter_cons, h1, List.find?_cons, h2, ih]
    · have h1 : (e.path != q) = true := by simp [he]
      by_cases hp : e.path = p
      · have h2 : (e.path == p) = true := by simp [hp]
        simp only [List.filter_cons, h1, if_true, List.find?_cons, h2]
      · have h2 : (e.path == p) = false := by simp [hp]
        simp only [List.filter_cons, h1, if_true, List.find?_cons, h2, ih]

theorem removeGo_preserve (dry : Bool) (h : List Nat) (keeper : List String) :
    ∀ (ps : List (List String)) (fs : FS) (recs : List RemRec) (q : List String),
      q ∉ ps →
      findFile (removeGo dry h keeper fs recs ps).2 q = findFile fs q ∧
      (removeGo dry h keeper fs recs ps).2.dirs = fs.dirs := by
  intro ps
  induction ps with
  | nil => intro fs recs q _; exact ⟨rfl, rfl⟩
  | cons p ps ih =>
    intro fs recs q hq
    have hqp : q ≠ p := fun hh => hq (hh ▸ List.mem_cons_self p ps)
    have hqps : q ∉ ps := fun hh => hq (List.mem_cons_of_mem p hh)
    cases dry with
    | true =>
      have hstep : removeGo true h keeper fs recs (p :: ps) =
        removeGo true h keeper fs (recs ++ [⟨h, p, keeper, none⟩]) ps := rfl
      rw [hstep]
      exact ih fs _ q hqps
    | false =>
      cases hf : findFile fs p with
      | some e =>
        cases hrm : e.removable with
        | true =>
          have hstep : removeGo false h keeper fs recs (p :: ps) =
              removeGo false h keeper { fs with files := fs.files.filter (fun x => x.path != p) }
                (recs ++ [⟨h, p, keeper, none⟩]) ps := by
            simp [removeGo, hf, hrm]
          rw [hstep]
          rcases ih { fs with files := fs.files.filter (fun x => x.path != p) } _ q hqps with ⟨ha, hb⟩
          refine ⟨?_, hb⟩
          rw [ha]
          exact find?_filter_path_ne fs.files q p hqp
        | false =>
          have hstep : removeGo false h keeper fs recs (p :: ps) =
              removeGo false h keeper fs (recs ++ [⟨h, p, keeper, some "PermissionError"⟩]) ps := by
            simp [removeGo, hf, hrm]
          rw [hstep]
          exact ih fs _ q hqps
      | none =>
        have hstep : removeGo false h keeper fs recs (p :: ps) =
            removeGo false h keeper fs (recs ++ [⟨h, p, keeper, some "FileNotFoundError"⟩]) ps := by
          simp [removeGo, hf]
        rw [hstep]
        exact ih fs _ q hqps

theorem statMtime_preserve {dry : Bool} {h : List Nat} {keeper : List String}
    {ps : List (List String)} {fs : FS} {recs : List RemRec} {q : List String}
    (hq : q ∉ ps) :
    statMtime (removeGo dry h keeper fs recs ps).2 q = statMtime fs q := by
  rcases removeGo_preserve dry h keeper ps fs recs q hq with ⟨ha, hb⟩
  simp only [statMtime, ha, isDirAt, hb]

theorem keyedOf_preserve {dry : Bool} {h : List Nat} {keeper : List String}
    {ps : List (List String)} {fs : FS} {recs : List RemRec} :
    ∀ pl, (∀ q ∈ pl, q ∉ ps) →
      keyedOf (removeGo dry h keeper fs recs ps).2 pl = keyedOf fs pl := by
  intro pl
  induction pl with
  | nil => intro _; rfl
  | cons p' pl' ih =>
    intro hall
    have h1 : statMtime (removeGo dry h keeper fs recs ps).2 p' = statMtime fs p' :=
      statMtime_preserve (hall p' (List.mem_cons_self _ _))
    have h2 := ih (fun q hq => hall q (List.mem_cons_of_mem _ hq))
    simp only [keyedOf, h1, h2]

theorem keeperOf_mem {fs : FS} {keep : String} {g : List Nat × List (List String)}
    {k : List String} (h : keeperOf fs keep g = some k) : k ∈ g.2 := by
  unfold keeperOf at h
  cases hks : keyedOf fs g.2 with
  | none => rw [hks] at h; cases h
  | some ks =>
    rw [hks] at h
    dsimp only at h
    cases hs : sortByMt ks with
    | nil => rw [hs] at h; cases h
    | cons s0 srest =>
      rw [hs] at h
      dsimp only at h
      have hperm : List.Perm (sortByMt ks) ks := sortByMt_perm ks
      have hsnd : ks.map Prod.snd = g.2 := (keyedOf_spec fs g.2 ks hks).1
      have hmem : ∀ x ∈ sortByMt ks, x.2 ∈ g.2 := by
        intro x hx
        rw [← hsnd]
        exact List.mem_map_of_mem Prod.snd (hperm.mem_iff.mp hx)
      by_cases h1 : (keep == "first") = true
      · rw [if_pos h1, Option.some_inj] at h
        exact h ▸ hmem s0 (hs ▸ List.mem_cons_self _ _)
      · rw [if_neg (by simpa using h1)] at h
        by_cases h2 : (keep == "latest") = true
        · rw [if_pos h2, Option.some_inj] at h
          have hlast : (s0 :: srest).getLastD s0 ∈ s0 :: srest := by
            rw [List.getLastD_eq_getLast?]
            cases hgl : (s0 :: srest).getLast? with
            | none => simp at hgl
            | some z => simpa using mem_of_getLastSome hgl
          exact h ▸ hmem _ (hs ▸ hlast)
        · rw [if_neg (by simpa using h2), Option.some_inj] at h
          exact h ▸ hmem s0 (hs ▸ List.mem_cons_self _ _)

theorem keeperOf_preserve {dry : Bool} {h : List Nat} {keeper : List String}
    {ps : List (List String)} {fs : FS} {recs : List RemRec} {keep : String}
    {g : List Nat × List (List String)} (hdisj : ∀ q ∈ g.2, q ∉ ps) :
    keeperOf (removeGo dry h keeper fs recs ps).2 keep g = keeperOf fs keep g := by
  unfold keeperOf
  rw [keyedOf_preserve g.2 hdisj]

theorem getLastD_map_snd : ∀ (l : List (Nat × List String)) (d : Nat × List String),
    (l.getLastD d).2 = (l.map Prod.snd).getLastD d.2
  | [], _ => rfl
  | a :: l, d => by
    rw [List.getLastD_cons, List.map_cons, List.getLastD_cons]
    exact getLastD_map_snd l a

theorem nodup_getLastD_not_dropLast {α : Type} (x : α) (xs : List α)
    (hnd : (x :: xs).Nodup) : (x :: xs).getLastD x ∉ (x :: xs).dropLast := by
  have hne : x :: xs ≠ [] := List.cons_ne_nil _ _
  have h1 : (x :: xs).getLastD x = (x :: xs).getLast hne := by
    rw [List.getLastD_eq_getLast?, List.getLast?_eq_getLast_of_ne_nil hne]
    rfl
  rw [h1]
  have h2 : (x :: xs).dropLast ++ [(x :: xs).getLast hne] = x :: xs :=
    List.dropLast_append_getLast hne
  intro hmem
  have hnd2 : ((x :: xs).dropLast ++ [(x :: xs).getLast hne]).Nodup := by rw [h2]; exact hnd
  rcases List.nodup_append.mp hnd2 with ⟨_, _, hdisj⟩
  exact hdisj hmem (List.mem_singleton_self _)

theorem removeDupGo_spec (keep : String) (dry : Bool) :
    ∀ (dups : List (List Nat × List (List String))) (fs : FS)
      (acc recs : List RemRec) (fs' : FS),
      removeDupGo keep dry fs acc dups = .ok (recs, fs') →
      ((dups.map (fun g => g.2)).join).Nodup →
      ∃ newr, recs = acc ++ newr ∧
        newr.length = (dups.map (fun g => g.2.length - 1)).sum ∧
        (∀ r ∈ newr, ∃ g ∈ dups,
          keeperOf fs keep g = some r.kept ∧ r.removed ∈ g.2 ∧ r.hash = g.1) ∧
        (∀ r ∈ newr, ∀ r' ∈ newr, r.kept ≠ r'.removed) := by
  intro dups
  induction dups with
  | nil =>
    intro fs acc recs fs' hok _
    simp only [removeDupGo, Except.ok.injEq, Prod.mk.injEq] at hok
    exact ⟨[], by simp [hok.1.symm], by simp, by simp, by simp⟩
  | cons g rest ih =>
    intro fs acc recs fs' hok hnd
    obtain ⟨h, pl⟩ := g
    have hndsplit : pl.Nodup ∧ ((rest.map (fun g => g.2)).join).Nodup ∧
        pl.Disjoint ((rest.map (fun g => g.2)).join) := by
      have hnd' : (pl ++ (rest.map (fun g => g.2)).join).Nodup := by simpa using hnd
      exact List.nodup_append.mp hnd'
    obtain ⟨hplnd, hjoinnd, hpldisj⟩ := hndsplit
    simp only [removeDupGo] at hok
    cases hkey : keyedOf fs pl with
    | none => rw [hkey] at hok; cases hok
    | some keyed =>
      rw [hkey] at hok
      dsimp only at hok
      cases hsort : sortByMt keyed with
      | nil => rw [hsort] at hok; cases hok
      | cons s0 srest =>
        rw [hsort] at hok
        dsimp only at hok
        have hperm : List.Perm (sortByMt keyed) keyed := sortByMt_perm keyed
        have hsnd : keyed.map Prod.snd = pl := (keyedOf_spec fs pl keyed hkey).1
        have hmapperm : List.Perm ((s0 :: srest).map Prod.snd) pl := by
          rw [← hsnd, ← hsort]
          exact hperm.map Prod.snd
        have hlen1 : srest.length + 1 = pl.length := by
          have := hmapperm.length_eq
          simpa using this
        have hnodupL : (s0.2 :: srest.map Prod.snd).Nodup := by
          have := hmapperm.nodup_iff.mpr hplnd
          simpa using this
        have main : ∀ (kp : List String) (toRem : List (List String)),
            keeperOf fs keep (h, pl) = some kp →
            toRem.length = pl.length - 1 →
            (∀ q ∈ toRem, q ∈ pl) →
            kp ∉ toRem →
            removeDupGo keep dry (removeGo dry h kp fs [] toRem).2
              (acc ++ (removeGo dry h kp fs [] toRem).1) rest = .ok (recs, fs') →
            ∃ newr, recs = acc ++ newr ∧
              newr.length = (((h, pl) :: rest).map (fun g => g.2.length - 1)).sum ∧
              (∀ r ∈ newr, ∃ g ∈ (h, pl) :: rest,
                keeperOf fs keep g = some r.kept ∧ r.removed ∈ g.2 ∧ r.hash = g.1) ∧
              (∀ r ∈ newr, ∀ r' ∈ newr, r.kept ≠ r'.removed) := by
          intro kp toRem hA hB hC hD hok2
          rcases removeGo_records dry h kp toRem fs [] with ⟨newr0, h0eq, h0map, h0rec⟩
          simp only [List.nil_append] at h0eq
          rcases ih (removeGo dry h kp fs [] toRem).2
            (acc ++ (removeGo dry h kp fs [] toRem).1) recs fs' hok2 hjoinnd with
            ⟨newr1, e1, e2, e3, e4⟩
          have hkpmem : kp ∈ pl := by
            have := keeperOf_mem hA
            simpa using this
          -- convert the IH characterization back to the original snapshot
          have e3' : ∀ r ∈ newr1, ∃ g ∈ rest,
              keeperOf fs keep g = some r.kept ∧ r.removed ∈ g.2 ∧ r.hash = g.1 := by
            intro r hr
            rcases e3 r hr with ⟨g', hg', hk', hrm', hh'⟩
            refine ⟨g', hg', ?_, hrm', hh'⟩
            rw [← hk']
            symm
            apply keeperOf_preserve
            intro q hq hqrem
            exact hpldisj (hC q hqrem)
              (List.mem_join.mpr ⟨g'.2, List.mem_map_of_mem _ hg', hq⟩)
          have hjoin_of_rest : ∀ (x : List String),
              (∃ g' ∈ rest, x ∈ g'.2) → x ∈ (rest.map (fun g => g.2)).join := by
            intro x ⟨g', hg', hx⟩
            exact List.mem_join.mpr ⟨g'.2, List.mem_map_of_mem _ hg', hx⟩
          refine ⟨newr0 ++ newr1, ?_, ?_, ?_, ?_⟩
          · rw [e1, h0eq, List.append_assoc]
          · simp only [List.length_append, List.map_cons, List.sum_cons]
            have h0len : newr0.length = toRem.length := by
              rw [← h0map, List.length_map]
            rw [h0len, hB, e2]
          · intro r hr
            rcases List.mem_append.mp hr with hr0 | hr1
            · refine ⟨(h, pl), List.mem_cons_self _ _, ?_, ?_, (h0rec r hr0).2⟩
              · rw [(h0rec r hr0).1]; exact hA
              · exact hC r.removed (by rw [← h0map]; exact List.mem_map_of_mem _ hr0)
            · rcases e3' r hr1 with ⟨g', hg', hk', hrm', hh'⟩
              exact ⟨g', List.mem_cons_of_mem _ hg', hk', hrm', hh'⟩
          · intro r hr r' hr'
            rcases List.mem_append.mp hr with hr0 | hr1 <;>
              rcases List.mem_append.mp hr' with hr'0 | hr'1
            · rw [(h0rec r hr0).1]
              intro hcontra
              apply hD
              rw [hcontra, ← h0map]
              exact List.mem_map_of_mem _ hr'0
            · rw [(h0rec r hr0).1]
              rcases e3' r' hr'1 with ⟨g', hg', _, hrm', _⟩
              intro hcontra
              exact hpldisj (hcontra ▸ hkpmem) (hjoin_of_rest r'.removed ⟨g', hg', hrm'⟩)
            · rcases e3' r hr1 with ⟨g', hg', hk', _, _⟩
              have hkept : r.kept ∈ g'.2 := by
                have := keeperOf_mem hk'
                simpa using this
              intro hcontra
              have hrm'0 : r'.removed ∈ pl :=
                hC r'.removed (by rw [← h0map]; exact List.mem_map_of_mem _ hr'0)
              exact hpldisj (hcontra ▸ hrm'0) (hjoin_of_rest r.kept ⟨g', hg', hkept⟩)
            · exact e4 r hr1 r' hr'1
        by_cases hk1 : (keep == "first") = true
        · simp only [hk1, if_true] at hok
          refine main s0.2 (srest.map Prod.snd) ?_ ?_ ?_ ?_ hok
          · simp [keeperOf, hkey, hsort, hk1]
          · rw [List.length_map]; omega
          · intro q hq
            exact hmapperm.mem_iff.mp (by simpa using Or.inr hq)
          · exact (List.nodup_cons.mp hnodupL).1
        · by_cases hk2 : (keep == "latest") = true
          · simp only [hk1, if_false, hk2, if_true, Bool.false_eq_true] at hok
            refine main ((s0 :: srest).getLastD s0).2 (((s0 :: srest).dropLast).map Prod.snd)
              ?_ ?_ ?_ ?_ hok
            · simp [keeperOf, hkey, hsort, hk1, hk2]
            · rw [List.length_map, List.length_dropLast]; simp; omega
            · intro q hq
              rcases List.mem_map.mp hq with ⟨x, hx, rfl⟩
              exact hmapperm.mem_iff.mp
                (List.mem_map_of_mem _ (List.dropLast_subset _ hx))
            · have hgoal := nodup_getLastD_not_dropLast s0.2 (srest.map Prod.snd) hnodupL
              intro hcontra
              apply hgoal
              rw [getLastD_map_snd] at hcontra
              rw [List.map_dropLast, List.map_cons] at hcontra
              exact hcontra
          · simp only [hk1, hk2, if_false, Bool.false_eq_true] at hok
            refine main s0.2 (srest.map Prod.snd) ?_ ?_ ?_ ?_ hok
            · simp [keeperOf, hkey, hsort, hk1, hk2]
            · rw [List.length_map]; omega
            · intro q hq
              exact hmapperm.mem_iff.mp (by simpa using Or.inr hq)
            · exact (List.nodup_cons.mp hnodupL).1

/-- C10: a removal run on groups with pairwise-distinct members produces
exactly one record per non-keeper — `size − 1` per group — each record keeps
the selected keeper of its group, and no kept path ever appears as a removed
path; this holds for every keep rule and both dry-run settings. -/
theorem claim10_thm (fs : FS) (dups : List (List Nat × List (List String)))
    (keep : String) (dry : Bool) (recs : List RemRec) (fs' : FS)
    (hok : remove_duplicates fs dups keep dry = .ok (recs, fs'))
    (hnd : ((dups.map (fun g => g.2)).join).Nodup) :
    RemovalBatchSpec fs keep dups recs := by
  rcases removeDupGo_spec keep dry dups fs [] recs fs' hok hnd with ⟨newr, e1, e2, e3, e4⟩
  simp only [List.nil_append] at e1
  subst e1
  exact ⟨e2, e3, e4⟩

/-- C10, witness: `claim10_thm` on two healthy two-file groups under
`keep='first'`. -/
theorem claim10_witness :
    RemovalBatchSpec fxPerm "first"
      [([7], [["root", "p1"], ["root", "p2"]]), ([8], [["root", "q1"], ["root", "q2"]])]
      [⟨[7], ["root", "p2"], ["root", "p1"], none⟩,
       ⟨[8], ["root", "q2"], ["root", "q1"], none⟩] :=
  claim10_thm fxPerm _ "first" true _ _ rfl (by decide)

theorem removeDupGo_largest_eq (dry : Bool) :
    ∀ (dups : List (List Nat × List (List String))) (fs : FS) (acc : List RemRec),
      removeDupGo "largest" dry fs acc dups = removeDupGo "first" dry fs acc dups := by
  intro dups
  induction dups with
  | nil => intro fs acc; rfl
  | cons g rest ih =>
    intro fs acc
    obtain ⟨h, pl⟩ := g
    simp only [removeDupGo]
    cases hkey : keyedOf fs pl with
    | none => rfl
    | some keyed =>
      dsimp only
      cases hsort : sortByMt keyed with
      | nil => rfl
      | cons s0 srest =>
        dsimp only
        simp only [show (("largest" : String) == "first") = false from by decide,
          show (("largest" : String) == "latest") = false from by decide,
          show (("first" : String) == "first") = true from by decide,
          if_true, if_false, Bool.false_eq_true]
        exact ih _ _

theorem remove_first_spec (fs : FS) (h : List Nat) (pl : List (List String))
    (dry : Bool) (recs : List RemRec) (fs' : FS) (ks : List (Nat × List String))
    (hok : remove_duplicates fs [(h, pl)] "first" dry = .ok (recs, fs'))
    (hkey : keyedOf fs pl = some ks) : FirstKeepSpec recs ks := by
  simp only [remove_duplicates, removeDupGo] at hok
  rw [hkey] at hok
  dsimp only at hok
  cases hsort : sortByMt ks with
  | nil => rw [hsort] at hok; cases hok
  | cons s0 srest =>
    rw [hsort] at hok
    dsimp only at hok
    simp only [show (("first" : String) == "first") = true from by decide, if_true] at hok
    rcases removeGo_records dry h s0.2 (srest.map (fun x => x.2)) fs [] with
      ⟨newr, h0eq, h0map, h0rec⟩
    simp only [List.nil_append] at h0eq
    simp only [removeDupGo, Except.ok.injEq, Prod.mk.injEq] at hok
    have hrecs : recs = newr := by rw [← hok.1, h0eq]; simp
    subst hrecs
    refine ⟨sortByMt_sorted ks, sortByMt_perm ks, ?_, ?_⟩
    · rw [h0map, hsort]
      simp
    · intro x hx
      rw [hsort] at hx
      simp only [List.head?_cons, Option.some_inj] at hx
      subst hx
      refine ⟨fun r hr => (h0rec r hr).1, fun y hy => ?_⟩
      have hy' : y ∈ sortByMt ks := (sortByMt_perm ks).mem_iff.mpr hy
      rw [hsort] at hy'
      exact sortedMt_head_min (hsort ▸ sortByMt_sorted ks) y hy'

theorem remove_latest_spec (fs : FS) (h : List Nat) (pl : List (List String))
    (dry : Bool) (recs : List RemRec) (fs' : FS) (ks : List (Nat × List String))
    (hok : remove_duplicates fs [(h, pl)] "latest" dry = .ok (recs, fs'))
    (hkey : keyedOf fs pl = some ks) : LatestKeepSpec recs ks := by
  simp only [remove_duplicates, removeDupGo] at hok
  rw [hkey] at hok
  dsimp only at hok
  cases hsort : sortByMt ks with
  | nil => rw [hsort] at hok; cases hok
  | cons s0 srest =>
    rw [hsort] at hok
    dsimp only at hok
    simp only [show (("latest" : String) == "first") = false from by decide,
      show (("latest" : String) == "latest") = true from by decide,
      if_true, if_false, Bool.false_eq_true] at hok
    rcases removeGo_records dry h ((s0 :: srest).getLastD s0).2
      (((s0 :: srest).dropLast).map (fun x => x.2)) fs [] with ⟨newr, h0eq, h0map, h0rec⟩
    simp only [List.nil_append] at h0eq
    simp only [removeDupGo, Except.ok.injEq, Prod.mk.injEq] at hok
    have hrecs : recs = newr := by rw [← hok.1, h0eq]; simp
    subst hrecs
    constructor
    · rw [h0map, hsort]
      exact (List.map_dropLast _ _).symm ▸ rfl
    · intro x hx
      have hxlast : (s0 :: srest).getLastD s0 = x := by
        rw [hsort] at hx
        rw [List.getLastD_eq_getLast?, hx]
        rfl
      refine ⟨fun r hr => by rw [(h0rec r hr).1, hxlast], fun y hy => ?_⟩
      have hy' : y ∈ sortByMt ks := (sortByMt_perm ks).mem_iff.mpr hy
      exact sortedMt_getLast_max (sortByMt ks) (sortByMt_sorted ks) y hy' x hx

/-- C5: `keep='largest'` runs the literal `keep='first'` arm (the fallback
quirk); `keep='first'` keeps the head of the mtime-ascending ordering of the
group and removes the rest; `keep='latest'` keeps the last element of that
ordering. -/
theorem claim5_thm :
    (∀ (fs : FS) (dups : List (List Nat × List (List String))) (dry : Bool),
      remove_duplicates fs dups "largest" dry = remove_duplicates fs dups "first" dry) ∧
    (∀ (fs : FS) (h : List Nat) (pl : List (List String)) (dry : Bool)
        (recs : List RemRec) (fs' : FS) (ks : List (Nat × List String)),
      remove_duplicates fs [(h, pl)] "first" dry = .ok (recs, fs') →
      keyedOf fs pl = some ks → FirstKeepSpec recs ks) ∧
    (∀ (fs : FS) (h : List Nat) (pl : List (List String)) (dry : Bool)
        (recs : List RemRec) (fs' : FS) (ks : List (Nat × List String)),
      remove_duplicates fs [(h, pl)] "latest" dry = .ok (recs, fs') →
      keyedOf fs pl = some ks → LatestKeepSpec recs ks) :=
  ⟨fun fs dups dry => removeDupGo_largest_eq dry dups fs [],
   remove_first_spec, remove_latest_spec⟩

/-- C5, witness: the three conjuncts of `claim5_thm` on a two-file group. -/
theorem claim5_witness :
    remove_duplicates fxPerm [([7], [["root", "p1"], ["root", "p2"]])] "largest" true =
      remove_duplicates fxPerm [([7], [["root", "p1"], ["root", "p2"]])] "first" true ∧
    FirstKeepSpec [⟨[7], ["root", "p2"], ["root", "p1"], none⟩]
      [(0, ["root", "p1"]), (1, ["root", "p2"])] ∧
    LatestKeepSpec [⟨[7], ["root", "p1"], ["root", "p2"], none⟩]
      [(0, ["root", "p1"]), (1, ["root", "p2"])] :=
  ⟨claim5_thm.1 fxPerm _ true,
   claim5_thm.2.1 fxPerm [7] [["root", "p1"], ["root", "p2"]] true
     [⟨[7], ["root", "p2"], ["root", "p1"], none⟩] fxPerm
     [(0, ["root", "p1"]), (1, ["root", "p2"])] rfl rfl,
   claim5_thm.2.2 fxPerm [7] [["root", "p1"], ["root", "p2"]] true
     [⟨[7], ["root", "p1"], ["root", "p2"], none⟩] fxPerm
     [(0, ["root", "p1"]), (1, ["root", "p2"])] rfl rfl⟩

theorem addGroup_of_not_mem {κ α : Type} [BEq κ] [LawfulBEq κ] (k : κ) (v : α) :
    ∀ m : List (κ × List α), k ∉ m.map Prod.fst → addGroup m k v = m ++ [(k, [v])]
  | [], _ => rfl
  | (k', vs') :: rest, hk => by
    have hne : (k' == k) = false := by
      refine beq_eq_false_iff_ne.mpr (fun hh => ?_)
      exact hk (hh ▸ List.mem_map_of_mem Prod.fst (List.mem_cons_self _ _))
    simp only [addGroup, hne, Bool.false_eq_true, if_false, List.cons_append,
      List.cons.injEq, true_and]
    exact addGroup_of_not_mem k v rest
      (fun hh => hk (List.mem_cons_of_mem _ hh))

theorem addGroup_fst_mem {κ α : Type} [BEq κ] [LawfulBEq κ] (k : κ) (v : α) :
    ∀ m : List (κ × List α), k ∈ m.map Prod.fst →
      (addGroup m k v).map Prod.fst = m.map Prod.fst
  | [], hk => by cases hk
  | (k', vs') :: rest, hk => by
    by_cases hkk : (k' == k) = true
    · simp [addGroup, hkk]
    · have hkk' : (k' == k) = false := by revert hkk; cases k' == k <;> simp
      have hkrest : k ∈ rest.map Prod.fst := by
        rw [List.map_cons] at hk
        rcases List.mem_cons.mp hk with heq | hmem
        · exact absurd heq.symm (beq_eq_false_iff_ne.mp hkk')
        · exact hmem
      simp only [addGroup, hkk', Bool.false_eq_true, if_false, List.map_cons]
      rw [addGroup_fst_mem k v rest hkrest]

theorem addGroup_keys_nodup {κ α : Type} [BEq κ] [LawfulBEq κ] (k : κ) (v : α) :
    ∀ m : List (κ × List α), (m.map Prod.fst).Nodup →
      ((addGroup m k v).map Prod.fst).Nodup := by
  intro m hm
  by_cases hk : k ∈ m.map Prod.fst
  · rw [addGroup_fst_mem k v m hk]; exact hm
  · rw [addGroup_of_not_mem k v m hk]
    simp only [List.map_append, List.map_cons, List.map_nil]
    refine List.Nodup.append hm (List.nodup_singleton k) ?_
    intro a ha hb
    rw [List.mem_singleton] at hb
    exact hk (hb ▸ ha)

theorem addGroup_fst_sub {κ α : Type} [BEq κ] [LawfulBEq κ] (k : κ) (v : α)
    (m : List (κ × List α)) (j : κ) (hj : j ∈ m.map Prod.fst) :
    j ∈ (addGroup m k v).map Prod.fst := by
  by_cases hk : k ∈ m.map Prod.fst
  · rw [addGroup_fst_mem k v m hk]; exact hj
  · rw [addGroup_of_not_mem k v m hk, List.map_append]
    exact List.mem_append_left _ hj

theorem addGroup_fst_self {κ α : Type} [BEq κ] [LawfulBEq κ] (k : κ) (v : α)
    (m : List (κ × List α)) : k ∈ (addGroup m k v).map Prod.fst := by
  by_cases hk : k ∈ m.map Prod.fst
  · rw [addGroup_fst_mem k v m hk]; exact hk
  · rw [addGroup_of_not_mem k v m hk, List.map_append]
    exact List.mem_append_right _ (by simp)

theorem addGroup_mem_upd {κ α : Type} [BEq κ] [LawfulBEq κ] (k : κ) (v : α) :
    ∀ m : List (κ × List α), (m.map Prod.fst).Nodup → k ∈ m.map Prod.fst →
      ∀ kv, kv ∈ addGroup m k v ↔
        (kv ∈ m ∧ kv.1 ≠ k) ∨ (∃ old, (k, old) ∈ m ∧ kv = (k, old ++ [v])) := by
  intro m
  induction m with
  | nil => intro _ hk; cases hk
  | cons hd rest ih =>
    obtain ⟨k', vs'⟩ := hd
    intro hnd hk kv
    rw [List.map_cons] at hnd
    have hk'notin : k' ∉ rest.map Prod.fst := (List.nodup_cons.mp hnd).1
    have hndrest : (rest.map Prod.fst).Nodup := (List.nodup_cons.mp hnd).2
    by_cases hkk : (k' == k) = true
    · have hkeq : k' = k := eq_of_beq hkk
      subst hkeq
      simp only [addGroup, hkk, if_true]
      constructor
      · intro hkv
        rcases List.mem_cons.mp hkv with rfl | hkv
        · exact Or.inr ⟨vs', List.mem_cons_self _ _, rfl⟩
        · have : kv.1 ∈ rest.map Prod.fst := List.mem_map_of_mem _ hkv
          exact Or.inl ⟨List.mem_cons_of_mem _ hkv, fun hh => hk'notin (hh ▸ this)⟩
      · intro hkv
        rcases hkv with ⟨hkv, hne⟩ | ⟨old, hold, rfl⟩
        · rcases List.mem_cons.mp hkv with rfl | hkv
          · exact absurd rfl hne
          · exact List.mem_cons_of_mem _ hkv
        · rcases List.mem_cons.mp hold with heq | hold
          · rw [Prod.mk.injEq] at heq
            rw [heq.2]
            exact List.mem_cons_self _ _
          · exact absurd (List.mem_map_of_mem Prod.fst hold) hk'notin
    · have hkk' : (k' == k) = false := by revert hkk; cases k' == k <;> simp
      have hk'ne : k' ≠ k := beq_eq_false_iff_ne.mp hkk'
      have hkrest : k ∈ rest.map Prod.fst := by
        rw [List.map_cons] at hk
        rcases List.mem_cons.mp hk with heq | hmem
        · exact absurd heq.symm hk'ne
        · exact hmem
      simp only [addGroup, hkk', Bool.false_eq_true, if_false]
      constructor
      · intro hkv
        rcases List.mem_cons.mp hkv with rfl | hkv
        · exact Or.inl ⟨List.mem_cons_self _ _, hk'ne⟩
        · rcases (ih hndrest hkrest kv).mp hkv with ⟨h1, h2⟩ | ⟨old, hold, heq⟩
          · exact Or.inl ⟨List.mem_cons_of_mem _ h1, h2⟩
          · exact Or.inr ⟨old, List.mem_cons_of_mem _ hold, heq⟩
      · intro hkv
        rcases hkv with ⟨hkv, hne⟩ | ⟨old, hold, heq⟩
        · rcases List.mem_cons.mp hkv with rfl | hkv
          · exact List.mem_cons_self _ _
          · exact List.mem_cons_of_mem _ ((ih hndrest hkrest kv).mpr (Or.inl ⟨hkv, hne⟩))
        · rcases List.mem_cons.mp hold with hheq | hold
          · rw [Prod.mk.injEq] at hheq
            exact absurd hheq.1.symm hk'ne
          · exact List.mem_cons_of_mem _ ((ih hndrest hkrest kv).mpr (Or.inr ⟨old, hold, heq⟩))

theorem collectInv_step {κ α : Type} [BEq κ] [LawfulBEq κ] (key : α → Option κ)
    (done : List α) (m : List (κ × List α)) (x : α) (hinv : collectInv key done m) :
    collectInv key (done ++ [x])
      (match key x with | some k => addGroup m k x | none => m) := by
  obtain ⟨hnd, hfil, hcov⟩ := hinv
  cases hkx : key x with
  | none =>
    refine ⟨hnd, ?_, ?_⟩
    · intro kv hkv
      rw [List.filter_append, hfil kv hkv]
      have : List.filter (fun y => key y == some kv.1) [x] = [] := by
        simp [List.filter, hkx]
      rw [this, List.append_nil]
    · intro y hy k hk
      rcases List.mem_append.mp hy with hy | hy
      · exact hcov y hy k hk
      · rw [List.mem_singleton] at hy
        subst hy
        rw [hkx] at hk
        cases hk
  | some k =>
    refine ⟨addGroup_keys_nodup k x m hnd, ?_, ?_⟩
    · intro kv hkv
      by_cases hkm : k ∈ m.map Prod.fst
      · rcases (addGroup_mem_upd k x m hnd hkm kv).mp hkv with ⟨h1, h2⟩ | ⟨old, hold, heq⟩
        · rw [List.filter_append, hfil kv h1]
          have : List.filter (fun y => key y == some kv.1) [x] = [] := by
            have : (key x == some kv.1) = false := by
              rw [hkx]
              exact beq_eq_false_iff_ne.mpr (by simpa using fun hh => h2 hh.symm)
            simp [List.filter, this]
          rw [this, List.append_nil]
        · subst heq
          rw [List.filter_append, ← hfil (k, old) hold]
          have : List.filter (fun y => key y == some k) [x] = [x] := by
            simp [List.filter, hkx]
          rw [this]
      · have hkv2 : kv ∈ m ++ [(k, [x])] := by
          have hkv' : kv ∈ addGroup m k x := hkv
          rw [addGroup_of_not_mem k x m hkm] at hkv'
          exact hkv'
        rcases List.mem_append.mp hkv2 with h1 | h1
        · have hne : kv.1 ≠ k := by
            intro hh
            exact hkm (hh ▸ List.mem_map_of_mem Prod.fst h1)
          rw [List.filter_append, hfil kv h1]
          have : List.filter (fun y => key y == some kv.1) [x] = [] := by
            have : (key x == some kv.1) = false := by
              rw [hkx]
              exact beq_eq_false_iff_ne.mpr (by simpa using fun hh => hne hh.symm)
            simp [List.filter, this]
          rw [this, List.append_nil]
        · rw [List.mem_singleton] at h1
          subst h1
          have hdone : List.filter (fun y => key y == some k) done = [] := by
            rw [List.filter_eq_nil_iff]
            intro y hy hcontra
            exact hkm (hcov y hy k (by simpa using hcontra))
          rw [List.filter_append, hdone]
          have : List.filter (fun y => key y == some k) [x] = [x] := by
            simp [List.filter, hkx]
          rw [this, List.nil_append]
    · intro y hy k' hk'
      rcases List.mem_append.mp hy with hy | hy
      · exact addGroup_fst_sub k x m k' (hcov y hy k' hk')
      · rw [List.mem_singleton] at hy
        rw [hy, hkx, Option.some_inj] at hk'
        rw [← hk']
        exact addGroup_fst_self k x m

theorem collectBy_inv {κ α : Type} [BEq κ] [LawfulBEq κ] (key : α → Option κ)
    (xs : List α) : collectInv key xs (collectBy key xs) := by
  suffices h : ∀ (l : List α) (done : List α) (m : List (κ × List α)),
      collectInv key done m →
      collectInv key (done ++ l)
        (l.foldl (fun m x => match key x with | some k => addGroup m k x | none => m) m) by
    have := h xs [] [] ⟨List.Pairwise.nil, by simp, by simp⟩
    simpa [collectBy] using this
  intro l
  induction l with
  | nil => intro done m hinv; simpa using hinv
  | cons x l' ih =>
    intro done m hinv
    have hstep := collectInv_step key done m x hinv
    have := ih (done ++ [x]) _ hstep
    simpa [List.append_assoc] using this

theorem collectBy_entry_eq {κ α : Type} [BEq κ] [LawfulBEq κ] (key : α → Option κ)
    (xs : List α) {k : κ} {vs : List α} (h : (k, vs) ∈ collectBy key xs) :
    vs = xs.filter (fun x => key x == some k) :=
  (collectBy_inv key xs).2.1 (k, vs) h

theorem collectBy_covers {κ α : Type} [BEq κ] [LawfulBEq κ] (key : α → Option κ)
    (xs : List α) {x : α} {k : κ} (hx : x ∈ xs) (hk : key x = some k) :
    ∃ vs, (k, vs) ∈ collectBy key xs ∧ x ∈ vs := by
  have hcov := (collectBy_inv key xs).2.2 x hx k hk
  rcases List.mem_map.mp hcov with ⟨kv, hkv, hfst⟩
  obtain ⟨k', vs⟩ := kv
  dsimp at hfst
  subst hfst
  refine ⟨vs, hkv, ?_⟩
  rw [collectBy_entry_eq key xs hkv]
  exact List.mem_filter.mpr ⟨hx, by simp [hk]⟩

theorem two_le_length_of_mem_ne {α : Type} {p q : α} :
    ∀ {l : List α}, p ∈ l → q ∈ l → p ≠ q → 2 ≤ l.length := by
  intro l hp hq hne
  cases l with
  | nil => cases hp
  | cons a t =>
    cases t with
    | nil =>
      rw [List.mem_singleton] at hp hq
      exact absurd (hp.trans hq.symm) hne
    | cons b t' => simp [Nat.le_add_left]

theorem foldl_guard_append_mem {β γ : Type} (cond : β → Prop) [DecidablePred cond]
    (f : β → List γ) :
    ∀ (l : List β) (acc : List γ) (z : γ),
      z ∈ l.foldl (fun a b => if cond b then a else a ++ f b) acc ↔
        z ∈ acc ∨ ∃ b ∈ l, ¬cond b ∧ z ∈ f b := by
  intro l
  induction l with
  | nil => intro acc z; simp
  | cons b l' ih =>
    intro acc z
    simp only [List.foldl_cons]
    by_cases hc : cond b
    · rw [if_pos hc, ih]
      constructor
      · rintro (hz | ⟨b', hb', hcb', hzb'⟩)
        · exact Or.inl hz
        · exact Or.inr ⟨b', List.mem_cons_of_mem _ hb', hcb', hzb'⟩
      · rintro (hz | ⟨b', hb', hcb', hzb'⟩)
        · exact Or.inl hz
        · rcases List.mem_cons.mp hb' with rfl | hb'
          · exact absurd hc hcb'
          · exact Or.inr ⟨b', hb', hcb', hzb'⟩
    · rw [if_neg hc, ih]
      constructor
      · rintro (hz | ⟨b', hb', hcb', hzb'⟩)
        · rcases List.mem_append.mp hz with hz | hz
          · exact Or.inl hz
          · exact Or.inr ⟨b, List.mem_cons_self _ _, hc, hz⟩
        · exact Or.inr ⟨b', List.mem_cons_of_mem _ hb', hcb', hzb'⟩
      · rintro (hz | ⟨b', hb', hcb', hzb'⟩)
        · exact Or.inl (List.mem_append_left _ hz)
        · rcases List.mem_cons.mp hb' with rfl | hb'
          · exact Or.inl (List.mem_append_right _ hzb')
          · exact Or.inr ⟨b', hb', hcb', hzb'⟩

theorem claim3_part1 (fs : FS) (root ig : List String)
    (p q : List String) (ep eq' : FEntry)
    (hp : p ∈ scan_files fs root true ig) (hq : q ∈ scan_files fs root true ig)
    (hpq : p ≠ q)
    (hfp : findFile fs p = some ep) (hfq : findFile fs q = some eq')
    (hrp : ep.readable = true) (hrq : eq'.readable = true)
    (hc : ep.content = eq'.content) :
    InSameDupGroup fs root ig p q := by
  have hszp : statSize fs p = some ep.content.length := by
    simp [statSize, hfp]
  have hszq : statSize fs q = some ep.content.length := by
    simp [statSize, hfq, ← hc]
  rcases collectBy_covers (fun r => statSize fs r) (scan_files fs root true ig)
    hp hszp with ⟨vs, hvs, hpvs⟩
  rcases collectBy_covers (fun r => statSize fs r) (scan_files fs root true ig)
    hq hszq with ⟨vs', hvs', hqvs'⟩
  have hveq : vs = vs' := by
    rw [collectBy_entry_eq _ _ hvs, collectBy_entry_eq _ _ hvs']
  subst hveq
  have hvs2 : 2 ≤ vs.length := two_le_length_of_mem_ne hpvs hqvs' hpq
  have hhp : compute_hash fs p = some ep.content := by
    simp [compute_hash, hfp, hrp]
  have hhq : compute_hash fs q = some ep.content := by
    simp [compute_hash, hfq, hrq, ← hc]
  rcases collectBy_covers (fun r => compute_hash fs r) vs hpvs hhp with ⟨ws, hws, hpws⟩
  rcases collectBy_covers (fun r => compute_hash fs r) vs hqvs' hhq with ⟨ws', hws', hqws'⟩
  have hweq : ws = ws' := by
    rw [collectBy_entry_eq _ _ hws, collectBy_entry_eq _ _ hws']
  subst hweq
  have hws2 : 2 ≤ ws.length := two_le_length_of_mem_ne hpws hqws' hpq
  refine ⟨(ep.content, ws), ?_, hpws, hqws'⟩
  exact (foldl_guard_append_mem (fun pr => pr.2.length < 2)
    (fun pr => (collectBy (fun r => compute_hash fs r) pr.2).filter
      (fun g => 1 < g.2.length))
    (collectBy (fun r => statSize fs r) (scan_files fs root true ig))
    [] (ep.content, ws)).mpr
    (Or.inr ⟨(ep.content.length, vs), hvs, by dsimp only; omega,
      List.mem_filter.mpr ⟨hws, by simpa using hws2⟩⟩)

theorem claim3_part2 (fs : FS) (root ig : List String) : DupGroupsSpec fs root ig := by
  intro g hg
  obtain ⟨h', ws⟩ := g
  have hg2 : (h', ws) ∈ List.foldl
      (fun acc pr => if pr.2.length < 2 then acc
        else acc ++ (collectBy (fun r => compute_hash fs r) pr.2).filter
          (fun g => 1 < g.2.length))
      [] (collectBy (fun r => statSize fs r) (scan_files fs root true ig)) := hg
  have hg' := (foldl_guard_append_mem (fun pr => pr.2.length < 2)
    (fun pr => (collectBy (fun r => compute_hash fs r) pr.2).filter
      (fun g => 1 < g.2.length))
    (collectBy (fun r => statSize fs r) (scan_files fs root true ig))
    [] (h', ws)).mp hg2
  rcases hg' with hg0 | ⟨pr, _, _, hzf⟩
  · cases hg0
  · rcases List.mem_filter.mp hzf with ⟨hmem, hlen⟩
    have hws : ws = pr.2.filter (fun r => compute_hash fs r == some h') :=
      collectBy_entry_eq _ _ hmem
    have hmemchar : ∀ r ∈ ws, ∃ e, findFile fs r = some e ∧
        e.readable = true ∧ e.content = h' := by
      intro r hr
      rw [hws] at hr
      rcases List.mem_filter.mp hr with ⟨_, hkey⟩
      have hkey' : compute_hash fs r = some h' := by simpa using hkey
      unfold compute_hash at hkey'
      cases hff : findFile fs r with
      | none => rw [hff] at hkey'; cases hkey'
      | some e =>
        rw [hff] at hkey'
        dsimp only at hkey'
        by_cases hre : e.readable = true
        · rw [if_pos hre, Option.some_inj] at hkey'
          exact ⟨e, rfl, hre, hkey'⟩
        · rw [if_neg hre] at hkey'
          cases hkey'
    refine ⟨by simpa using hlen, hmemchar, ?_⟩
    intro r hr r' hr'
    rcases hmemchar r hr with ⟨e, hfe, _, hce⟩
    rcases hmemchar r' hr' with ⟨e'', hfe', _, hce'⟩
    simp [statSize, hfe, hfe', hce, hce']

/-- C3: two scanned files with identical byte content (both hashable) are
placed in the same duplicate group regardless of name or location, and every
emitted group has at least two members that all share one size and one
digest. -/
theorem claim3_thm :
    (∀ (fs : FS) (root ig p q : List String) (ep eq' : FEntry),
      p ∈ scan_files fs root true ig → q ∈ scan_files fs root true ig → p ≠ q →
      findFile fs p = some ep → findFile fs q = some eq' →
      ep.readable = true → eq'.readable = true → ep.content = eq'.content →
      InSameDupGroup fs root ig p q) ∧
    (∀ (fs : FS) (root ig : List String), DupGroupsSpec fs root ig) :=
  ⟨claim3_part1, claim3_part2⟩

/-- C3, witness: the group membership and the group invariants on the
three-file fixture. -/
theorem claim3_witness :
    ["root", "a.txt"] ∈ scan_files fxDup ["root"] true [] ∧
    InSameDupGroup fxDup ["root"] [] ["root", "a.txt"] ["root", "b.txt"] ∧
    DupGroupsSpec fxDup ["root"] [] :=
  ⟨by decide,
   claim3_thm.1 fxDup ["root"] [] ["root", "a.txt"] ["root", "b.txt"]
     ⟨["root", "a.txt"], [88], 0, true, true⟩ ⟨["root", "b.txt"], [88], 1, true, true⟩
     (by decide) (by decide) (by decide) rfl rfl rfl rfl rfl,
   claim3_thm.2 fxDup ["root"] []⟩

theorem scanLoop_dir_mem (fs : FS) (recursive : Bool) (ig : List String) :
    ∀ (ds : List (List String)) (p : List String),
      p ∈ scanLoop fs recursive ig ds →
      ∃ d ∈ ds, ignoredDir ig d = false ∧ p ∈ filesUnder fs d := by
  intro ds
  induction ds with
  | nil => intro p hp; cases hp
  | cons d ds' ih =>
    intro p hp
    simp only [scanLoop] at hp
    by_cases hig : ignoredDir ig d = true
    · rw [if_pos hig] at hp
      rcases ih p hp with ⟨d', hd', hig', hp'⟩
      exact ⟨d', List.mem_cons_of_mem _ hd', hig', hp'⟩
    · have hig' : ignoredDir ig d = false := by revert hig; cases ignoredDir ig d <;> simp
      rw [hig', if_neg (by simp)] at hp
      rcases List.mem_append.mp hp with hp | hp
      · exact ⟨d, List.mem_cons_self _ _, hig', hp⟩
      · cases recursive with
        | true =>
          simp only [if_true] at hp
          rcases ih p hp with ⟨d', hd', hig2, hp'⟩
          exact ⟨d', List.mem_cons_of_mem _ hd', hig2, hp'⟩
        | false => simp at hp

theorem filesUnder_dropLast {fs : FS} {d p : List String}
    (hp : p ∈ filesUnder fs d) : p.dropLast = d := by
  unfold filesUnder at hp
  rcases List.mem_map.mp hp with ⟨e, he, rfl⟩
  rcases List.mem_filter.mp he with ⟨_, hdl⟩
  exact eq_of_beq hdl

theorem claim9_main (fs : FS) (root : List String) (rec : Bool) (ig : List String)
    (p : List String) (hp : p ∈ scan_files fs root rec ig) :
    ScanRespectsIgnores fs root rec ig p := by
  intro s hs
  rcases scanLoop_dir_mem fs rec ig (walkDirs fs root) p hp with ⟨d, _, hig, hpd⟩
  rw [filesUnder_dropLast hpd]
  unfold ignoredDir at hig
  rcases hres : containsSeq s.data (pathStr d).data with _ | _
  · rfl
  · exfalso
    have : ig.any (fun s' => containsSeq s'.data (pathStr d).data) = true :=
      List.any_eq_true.mpr ⟨s, hs, hres⟩
    rw [this] at hig
    cases hig

theorem organizeStep_shape (mv dry : Bool) (root target : List String) (fs : FS)
    (p : List String) (o? : Option Op) (fs' : FS)
    (h : organizeStep mv dry root target fs p = .ok (o?, fs')) :
    (o? = none ∧ skipCheckPath root p = true ∧ fs' = fs) ∨
    (∃ op, o? = some op ∧ op.src = p ∧ skipCheckPath root p = false) := by
  unfold organizeStep at h
  cases hlast : (p.drop root.length).getLast? with
  | none => rw [hlast] at h; cases h
  | some name =>
    rw [hlast] at h
    dsimp only at h
    have hscp : skipCheckPath root p = skipCheck (p.drop root.length) name := by
      unfold skipCheckPath
      rw [hlast]
    by_cases hskip : skipCheck (p.drop root.length) name = true
    · rw [if_pos hskip] at h
      simp only [Except.ok.injEq, Prod.mk.injEq] at h
      exact Or.inl ⟨h.1.symm, hscp ▸ hskip, h.2.symm⟩
    · have hskip' : skipCheck (p.drop root.length) name = false := by
        revert hskip; cases skipCheck (p.drop root.length) name <;> simp
      rw [hskip', if_neg (by simp)] at h
      cases hmk : safe_mkdir fs (target ++ [extCatOf name]) with
      | none => rw [hmk] at h; cases h
      | some fs1 =>
        rw [hmk] at h
        dsimp only at h
        cases hres : resolveLoop fs1 (target ++ [extCatOf name]) (stemOf name)
            (suffixOf name) p (fuelOf fs1) 1 ((target ++ [extCatOf name]) ++ [name]) with
        | error e => rw [hres] at h; cases h
        | ok pr =>
          rw [hres] at h
          obtain ⟨dest, same⟩ := pr
          cases same with
          | true =>
            dsimp only at h
            simp only [Except.ok.injEq, Prod.mk.injEq] at h
            exact Or.inr ⟨⟨.skipSame, p, dest⟩, h.1.symm, rfl, hscp ▸ hskip'⟩
          | false =>
            dsimp only at h
            cases dry with
            | true =>
              rw [if_pos rfl] at h
              simp only [Except.ok.injEq, Prod.mk.injEq] at h
              exact Or.inr ⟨⟨if mv then .move else .copy, p, dest⟩, h.1.symm, rfl,
                hscp ▸ hskip'⟩
            | false =>
              rw [if_neg (by simp)] at h
              cases hmv : (if mv then moveFile fs1 p dest else copyFile fs1 p dest) with
              | none => rw [hmv] at h; cases h
              | some fs2 =>
                rw [hmv] at h
                simp only [Except.ok.injEq, Prod.mk.injEq] at h
                exact Or.inr ⟨⟨if mv then .move else .copy, p, dest⟩, h.1.symm, rfl,
                  hscp ▸ hskip'⟩

theorem organizeGo_srcs (mv dry : Bool) (root target : List String) :
    ∀ (ps : List (List String)) (fs : FS) (ops : List Op) (fs' : FS),
      organizeGo mv dry root target fs ps = .ok (ops, fs') →
      ops.map Op.src = ps.filter (fun p => !skipCheckPath root p) := by
  intro ps
  induction ps with
  | nil =>
    intro fs ops fs' h
    simp only [organizeGo, Except.ok.injEq, Prod.mk.injEq] at h
    rw [← h.1]
    rfl
  | cons p ps' ih =>
    intro fs ops fs' h
    simp only [organizeGo] at h
    cases hstep : organizeStep mv dry root target fs p with
    | error e => rw [hstep] at h; cases h
    | ok pr =>
      rw [hstep] at h
      obtain ⟨o?, fs1⟩ := pr
      dsimp only at h
      cases hgo : organizeGo mv dry root target fs1 ps' with
      | error e => rw [hgo] at h; cases h
      | ok pr2 =>
        rw [hgo] at h
        obtain ⟨ops1, fs2⟩ := pr2
        dsimp only at h
        simp only [Except.ok.injEq, Prod.mk.injEq] at h
        rcases organizeStep_shape mv dry root target fs p o? fs1 hstep with
          ⟨ho, hskip, _⟩ | ⟨op, ho, hsrc, hskip⟩
        · subst ho
          rw [← h.1]
          simp only [Option.toList_none, List.nil_append]
          rw [ih fs1 ops1 fs2 hgo, List.filter_cons, hskip]
          simp
        · subst ho
          rw [← h.1]
          simp only [Option.toList_some, List.singleton_append, List.map_cons]
          rw [ih fs1 ops1 fs2 hgo, List.filter_cons, hskip, hsrc]
          simp

theorem claim7_main (fs : FS) (root : List String) (tgt? : Option (List String))
    (dry mv : Bool) (ig : List String) (ops : List Op) (fs' : FS) (p : List String)
    (hok : organize_files fs root tgt? dry mv ig = .ok (ops, fs'))
    (hp : p ∈ scan_files fs root true ig) :
    NoActionFor ops p ↔ skipCheckPath root p = true := by
  have hsrc : ops.map Op.src =
      (scan_files fs root true ig).filter (fun q => !skipCheckPath root q) :=
    organizeGo_srcs mv dry root (tgt?.getD root) (scan_files fs root true ig) fs ops fs' hok
  constructor
  · intro hno
    by_contra hsk
    have hsk' : skipCheckPath root p = false := by
      revert hsk; cases skipCheckPath root p <;> simp
    have hpf : p ∈ ops.map Op.src := by
      rw [hsrc]
      exact List.mem_filter.mpr ⟨hp, by simp [hsk']⟩
    rcases List.mem_map.mp hpf with ⟨op, hop, hopsrc⟩
    exact hno op hop hopsrc
  · intro hsk op hop hopsrc
    have : op.src ∈ ops.map Op.src := List.mem_map_of_mem _ hop
    rw [hsrc] at this
    rcases List.mem_filter.mp this with ⟨_, hflt⟩
    rw [hopsrc, hsk] at hflt
    simp at hflt

theorem resolveLoop_char (fs : FS) (folder : List String) (stem sfx : String)
    (src : List String) (dest0 : List String) :
    ∀ (fuel c : Nat) (d : List String) (same : Bool),
      1 ≤ c →
      resolveLoop fs folder stem sfx src fuel c (candFrom folder stem sfx dest0 (c - 1)) =
        .ok (d, same) →
      ∃ k, c - 1 ≤ k ∧ d = candFrom folder stem sfx dest0 k ∧
        (∀ j, c - 1 ≤ j → j < k →
          pathExists fs (candFrom folder stem sfx dest0 j) = true ∧
          is_same_file fs (candFrom folder stem sfx dest0 j) src = some false) ∧
        (if same then
          pathExists fs (candFrom folder stem sfx dest0 k) = true ∧
          is_same_file fs (candFrom folder stem sfx dest0 k) src = some true
        else pathExists fs (candFrom folder stem sfx dest0 k) = false) := by
  intro fuel
  induction fuel with
  | zero => intro c d same _ h; cases h
  | succ fuel ih =>
    intro c d same hc h
    simp only [resolveLoop] at h
    by_cases hex : pathExists fs (candFrom folder stem sfx dest0 (c - 1)) = true
    · rw [if_pos hex] at h
      cases hsm : is_same_file fs (candFrom folder stem sfx dest0 (c - 1)) src with
      | none => rw [hsm] at h; cases h
      | some b =>
        rw [hsm] at h
        cases b with
        | true =>
          dsimp only at h
          simp only [Except.ok.injEq, Prod.mk.injEq] at h
          refine ⟨c - 1, Nat.le_refl _, h.1.symm, fun j hj1 hj2 => absurd hj1 (by omega), ?_⟩
          rw [← h.2]
          simp only [if_true]
          exact ⟨hex, hsm⟩
        | false =>
          dsimp only at h
          have hdest : folder ++ [stem ++ "_" ++ Nat.repr c ++ sfx] =
              candFrom folder stem sfx dest0 ((c + 1) - 1) := by
            unfold candFrom
            rw [if_neg (by omega)]
            rfl
          rw [hdest] at h
          rcases ih (c + 1) d same (by omega) h with ⟨k, hk1, hk2, hk3, hk4⟩
          refine ⟨k, by omega, hk2, ?_, hk4⟩
          intro j hj1 hj2
          by_cases hj : j = c - 1
          · subst hj
            exact ⟨hex, hsm⟩
          · exact hk3 j (by omega) hj2
    · rw [if_neg hex] at h
      simp only [Except.ok.injEq, Prod.mk.injEq] at h
      refine ⟨c - 1, Nat.le_refl _, h.1.symm, fun j hj1 hj2 => absurd hj1 (by omega), ?_⟩
      rw [← h.2]
      simp only [Bool.false_eq_true, if_false]
      revert hex
      cases pathExists fs (candFrom folder stem sfx dest0 (c - 1)) <;> simp

theorem candAt_eq_candFrom (folder : List String) (name : String) (k : Nat) :
    candAt folder name k =
      candFrom folder (stemOf name) (suffixOf name) (folder ++ [name]) k := rfl

theorem claim8_loop (fs : FS) (folder : List String) (name : String)
    (src : List String) (fuel : Nat) (d : List String) (same : Bool)
    (h : resolveLoop fs folder (stemOf name) (suffixOf name) src fuel 1
      (folder ++ [name]) = .ok (d, same)) :
    CollisionResolved fs folder name src d same := by
  have h' : resolveLoop fs folder (stemOf name) (suffixOf name) src fuel 1
      (candFrom folder (stemOf name) (suffixOf name) (folder ++ [name]) (1 - 1)) =
      .ok (d, same) := h
  rcases resolveLoop_char fs folder (stemOf name) (suffixOf name) src (folder ++ [name])
    fuel 1 d same (Nat.le_refl 1) h' with ⟨k, _, hk2, hk3, hk4⟩
  refine ⟨k, ?_, ?_, ?_⟩
  · rw [candAt_eq_candFrom]; exact hk2
  · intro j hj
    rw [candAt_eq_candFrom]
    exact hk3 j (Nat.zero_le j) hj
  · rw [candAt_eq_candFrom]
    exact hk4

theorem claim8_step (mv dry : Bool) (root target : List String) (fs : FS)
    (p : List String) (op : Op) (fs' : FS)
    (h : organizeStep mv dry root target fs p = .ok (some op, fs')) :
    StepUsesLoop mv root target fs p op := by
  unfold organizeStep at h
  cases hlast : (p.drop root.length).getLast? with
  | none => rw [hlast] at h; cases h
  | some name =>
    rw [hlast] at h
    dsimp only at h
    by_cases hskip : skipCheck (p.drop root.length) name = true
    · rw [if_pos hskip] at h
      simp only [Except.ok.injEq, Prod.mk.injEq] at h
      cases h.1
    · have hskip' : skipCheck (p.drop root.length) name = false := by
        revert hskip; cases skipCheck (p.drop root.length) name <;> simp
      rw [hskip', if_neg (by simp)] at h
      cases hmk : safe_mkdir fs (target ++ [extCatOf name]) with
      | none => rw [hmk] at h; cases h
      | some fs1 =>
        rw [hmk] at h
        dsimp only at h
        cases hres : resolveLoop fs1 (target ++ [extCatOf name]) (stemOf name)
            (suffixOf name) p (fuelOf fs1) 1 ((target ++ [extCatOf name]) ++ [name]) with
        | error e => rw [hres] at h; cases h
        | ok pr =>
          rw [hres] at h
          obtain ⟨dest, same⟩ := pr
          cases same with
          | true =>
            dsimp only at h
            simp only [Except.ok.injEq, Prod.mk.injEq, Option.some_inj] at h
            refine ⟨name, fs1, true, hlast, hmk, ?_, ?_, ?_⟩
            · rw [← h.1]; exact hres
            · rw [← h.1]; simp
            · rw [← h.1]
          | false =>
            dsimp only at h
            cases dry with
            | true =>
              rw [if_pos rfl] at h
              simp only [Except.ok.injEq, Prod.mk.injEq, Option.some_inj] at h
              refine ⟨name, fs1, false, hlast, hmk, ?_, ?_, ?_⟩
              · rw [← h.1]; exact hres
              · rw [← h.1]; simp
              · rw [← h.1]
            | false =>
              rw [if_neg (by simp)] at h
              cases hmv : (if mv then moveFile fs1 p dest else copyFile fs1 p dest) with
              | none => rw [hmv] at h; cases h
              | some fs2 =>
                rw [hmv] at h
                simp only [Except.ok.injEq, Prod.mk.injEq, Option.some_inj] at h
                refine ⟨name, fs1, false, hlast, hmk, ?_, ?_, ?_⟩
                · rw [← h.1]; exact hres
                · rw [← h.1]; simp
                · rw [← h.1]

theorem safe_mkdir_files {fs fs1 : FS} {q : List String}
    (h : safe_mkdir fs q = some fs1) : fs1.files = fs.files := by
  unfold safe_mkdir at h
  by_cases hc : (pathAncestors q).any (fun r => (findFile fs r).isSome) = true
  · rw [if_pos hc] at h; cases h
  · rw [if_neg hc] at h
    rw [Option.some_inj] at h
    rw [← h]

theorem organizeStep_dry_files (mv : Bool) (root target : List String) (fs : FS)
    (p : List String) (o? : Option Op) (fs' : FS)
    (h : organizeStep mv true root target fs p = .ok (o?, fs')) :
    fs'.files = fs.files := by
  unfold organizeStep at h
  cases hlast : (p.drop root.length).getLast? with
  | none => rw [hlast] at h; cases h
  | some name =>
    rw [hlast] at h
    dsimp only at h
    by_cases hskip : skipCheck (p.drop root.length) name = true
    · rw [if_pos hskip] at h
      simp only [Except.ok.injEq, Prod.mk.injEq] at h
      rw [← h.2]
    · have hskip' : skipCheck (p.drop root.length) name = false := by
        revert hskip; cases skipCheck (p.drop root.length) name <;> simp
      rw [hskip', if_neg (by simp)] at h
      cases hmk : safe_mkdir fs (target ++ [extCatOf name]) with
      | none => rw [hmk] at h; cases h
      | some fs1 =>
        rw [hmk] at h
        dsimp only at h
        cases hres : resolveLoop fs1 (target ++ [extCatOf name]) (stemOf name)
            (suffixOf name) p (fuelOf fs1) 1 ((target ++ [extCatOf name]) ++ [name]) with
        | error e => rw [hres] at h; cases h
        | ok pr =>
          rw [hres] at h
          obtain ⟨dest, same⟩ := pr
          cases same with
          | true =>
            dsimp only at h
            simp only [Except.ok.injEq, Prod.mk.injEq] at h
            rw [← h.2]
            exact safe_mkdir_files hmk
          | false =>
            dsimp only at h
            rw [if_pos rfl] at h
            simp only [Except.ok.injEq, Prod.mk.injEq] at h
            rw [← h.2]
            exact safe_mkdir_files hmk

theorem organizeGo_dry_files (mv : Bool) (root target : List String) :
    ∀ (ps : List (List String)) (fs : FS) (ops : List Op) (fs' : FS),
      organizeGo mv true root target fs ps = .ok (ops, fs') →
      fs'.files = fs.files := by
  intro ps
  induction ps with
  | nil =>
    intro fs ops fs' h
    simp only [organizeGo, Except.ok.injEq, Prod.mk.injEq] at h
    rw [← h.2]
  | cons p ps' ih =>
    intro fs ops fs' h
    simp only [organizeGo] at h
    cases hstep : organizeStep mv true root target fs p with
    | error e => rw [hstep] at h; cases h
    | ok pr =>
      rw [hstep] at h
      obtain ⟨o?, fs1⟩ := pr
      dsimp only at h
      cases hgo : organizeGo mv true root target fs1 ps' with
      | error e => rw [hgo] at h; cases h
      | ok pr2 =>
        rw [hgo] at h
        obtain ⟨ops1, fs2⟩ := pr2
        dsimp only at h
        simp only [Except.ok.injEq, Prod.mk.injEq] at h
        rw [← h.2, ih fs1 ops1 fs2 hgo]
        exact organizeStep_dry_files mv root target fs p o? fs1 hstep

theorem claim1_dry_organize_files (fs : FS) (root : List String)
    (tgt? : Option (List String)) (mv : Bool) (ig : List String)
    (ops : List Op) (fs' : FS)
    (h : organize_files fs root tgt? true mv ig = .ok (ops, fs')) :
    fs'.files = fs.files :=
  organizeGo_dry_files mv root (tgt?.getD root) (scan_files fs root true ig) fs ops fs' h

theorem removeGo_dry (h : List Nat) (keeper : List String) :
    ∀ (ps : List (List String)) (fs : FS) (recs : List RemRec),
      removeGo true h keeper fs recs ps =
        (recs ++ ps.map (fun p => ⟨h, p, keeper, none⟩), fs) := by
  intro ps
  induction ps with
  | nil => intro fs recs; simp [removeGo]
  | cons p ps' ih =>
    intro fs recs
    have hstep : removeGo true h keeper fs recs (p :: ps') =
        removeGo true h keeper fs (recs ++ [⟨h, p, keeper, none⟩]) ps' := rfl
    rw [hstep, ih, List.append_assoc]
    rfl

theorem removeDupGo_dry_fs (keep : String) :
    ∀ (dups : List (List Nat × List (List String))) (fs : FS)
      (acc recs : List RemRec) (fsE : FS),
      removeDupGo keep true fs acc dups = .ok (recs, fsE) → fsE = fs := by
  intro dups
  induction dups with
  | nil =>
    intro fs acc recs fsE h
    simp only [removeDupGo, Except.ok.injEq, Prod.mk.injEq] at h
    exact h.2.symm
  | cons g rest ih =>
    intro fs acc recs fsE h
    obtain ⟨hh, pl⟩ := g
    simp only [removeDupGo] at h
    cases hkey : keyedOf fs pl with
    | none => rw [hkey] at h; cases h
    | some keyed =>
      rw [hkey] at h
      dsimp only at h
      cases hsort : sortByMt keyed with
      | nil => rw [hsort] at h; cases h
      | cons s0 srest =>
        rw [hsort] at h
        dsimp only at h
        rw [removeGo_dry] at h
        exact ih fs _ recs fsE h

theorem claim1_dry_remove_fs (fs : FS) (dups : List (List Nat × List (List String)))
    (keep : String) (recs : List RemRec) (fsE : FS)
    (h : remove_duplicates fs dups keep true = .ok (recs, fsE)) : fsE = fs :=
  removeDupGo_dry_fs keep dups fs [] recs fsE h

theorem keyedOf_of_present (fs : FS) :
    ∀ pl : List (List String), (∀ p ∈ pl, (findFile fs p).isSome = true) →
      ∃ ks, keyedOf fs pl = some ks := by
  intro pl
  induction pl with
  | nil => intro _; exact ⟨[], rfl⟩
  | cons p ps ih =>
    intro hall
    rcases Option.isSome_iff_exists.mp (hall p (List.mem_cons_self _ _)) with ⟨e, he⟩
    rcases ih (fun q hq => hall q (List.mem_cons_of_mem _ hq)) with ⟨ks, hks⟩
    refine ⟨(e.mtime, p) :: ks, ?_⟩
    simp only [keyedOf, statMtime, he, hks]

theorem removeGo_real_recs (h : List Nat) (keeper : List String) :
    ∀ (ps : List (List String)) (fs : FS) (recs : List RemRec),
      ps.Nodup →
      (∀ p ∈ ps, ∃ e, findFile fs p = some e ∧ e.removable = true) →
      (removeGo false h keeper fs recs ps).1 =
        recs ++ ps.map (fun p => ⟨h, p, keeper, none⟩) := by
  intro ps
  induction ps with
  | nil => intro fs recs _ _; simp [removeGo]
  | cons p ps' ih =>
    intro fs recs hnd hall
    rcases hall p (List.mem_cons_self _ _) with ⟨e, he, hrm⟩
    have hstep : removeGo false h keeper fs recs (p :: ps') =
        removeGo false h keeper { fs with files := fs.files.filter (fun x => x.path != p) }
          (recs ++ [⟨h, p, keeper, none⟩]) ps' := by
      simp [removeGo, he, hrm]
    have htail : ∀ q ∈ ps', ∃ e', findFile
        { fs with files := fs.files.filter (fun x => x.path != p) } q = some e' ∧
        e'.removable = true := by
      intro q hq
      rcases hall q (List.mem_cons_of_mem _ hq) with ⟨e', he', hrm'⟩
      refine ⟨e', ?_, hrm'⟩
      have hne : q ≠ p := fun hh => (List.nodup_cons.mp hnd).1 (hh ▸ hq)
      show (fs.files.filter (fun x => x.path != p)).find? (fun x => x.path == q) = some e'
      rw [find?_filter_path_ne fs.files q p hne]
      exact he'
    have hih := ih { fs with files := fs.files.filter (fun x => x.path != p) }
      (recs ++ [⟨h, p, keeper, none⟩]) (List.nodup_cons.mp hnd).2 htail
    rw [hstep, hih, List.append_assoc]
    rfl

theorem removeDupGo_dry_congr (keep : String) :
    ∀ (dups : List (List Nat × List (List String))) (fs fs2 : FS)
      (acc recs : List RemRec) (fsE : FS),
      (∀ g ∈ dups, keyedOf fs g.2 = keyedOf fs2 g.2) →
      removeDupGo keep true fs acc dups = .ok (recs, fsE) →
      removeDupGo keep true fs2 acc dups = .ok (recs, fs2) := by
  intro dups
  induction dups with
  | nil =>
    intro fs fs2 acc recs fsE hkey h
    simp only [removeDupGo, Except.ok.injEq, Prod.mk.injEq] at h ⊢
    exact ⟨h.1, trivial⟩
  | cons g rest ih =>
    intro fs fs2 acc recs fsE hkeys h
    obtain ⟨hh, pl⟩ := g
    simp only [removeDupGo] at h ⊢
    have hkg : keyedOf fs pl = keyedOf fs2 pl := hkeys (hh, pl) (List.mem_cons_self _ _)
    cases hkey : keyedOf fs pl with
    | none => rw [hkey] at h; cases h
    | some keyed =>
      rw [hkey] at h
      rw [← hkg, hkey]
      dsimp only at h ⊢
      cases hsort : sortByMt keyed with
      | nil => rw [hsort] at h; cases h
      | cons s0 srest =>
        rw [hsort] at h
        dsimp only at h
        dsimp only
        rw [removeGo_dry] at h ⊢
        exact ih fs fs2 _ recs fsE (fun g' hg' => hkeys g' (List.mem_cons_of_mem _ hg')) h

theorem removeDup_dry_real (keep : String) :
    ∀ (dups : List (List Nat × List (List String))) (fs : FS) (acc : List RemRec),
      ((dups.map (fun g => g.2)).join).Nodup →
      (∀ g ∈ dups, g.2 ≠ []) →
      (∀ g ∈ dups, ∀ p ∈ g.2, ∃ e, findFile fs p = some e ∧ e.removable = true) →
      ∃ recs fsr, removeDupGo keep false fs acc dups = .ok (recs, fsr) ∧
        removeDupGo keep true fs acc dups = .ok (recs, fs) := by
  intro dups
  induction dups with
  | nil => intro fs acc _ _ _; exact ⟨acc, fs, rfl, rfl⟩
  | cons g rest ih =>
    intro fs acc hnd hne hok
    obtain ⟨hh, pl⟩ := g
    have hndsplit : pl.Nodup ∧ ((rest.map (fun g => g.2)).join).Nodup ∧
        pl.Disjoint ((rest.map (fun g => g.2)).join) := by
      have hnd' : (pl ++ (rest.map (fun g => g.2)).join).Nodup := by simpa using hnd
      exact List.nodup_append.mp hnd'
    obtain ⟨hplnd, hjoinnd, hpldisj⟩ := hndsplit
    have hpres : ∀ p ∈ pl, (findFile fs p).isSome = true := by
      intro p hp
      rcases hok (hh, pl) (List.mem_cons_self _ _) p hp with ⟨e, he, _⟩
      simp [he]
    rcases keyedOf_of_present fs pl hpres with ⟨keyed, hkey⟩
    have hkeyne : keyed ≠ [] := by
      intro hc
      have := (keyedOf_spec fs pl keyed hkey).1
      rw [hc] at this
      exact (hne (hh, pl) (List.mem_cons_self _ _)) (by simpa using this.symm)
    have hsortne : sortByMt keyed ≠ [] := by
      intro hc
      exact hkeyne (List.Perm.eq_nil (hc ▸ (sortByMt_perm keyed).symm))
    cases hsort : sortByMt keyed with
    | nil => exact absurd hsort hsortne
    | cons s0 srest =>
      -- the selected to-remove list, same in both runs
      simp only [removeDupGo, hkey]
      rw [hsort]
      dsimp only
      have hsub : ∀ x ∈ s0 :: srest, x.2 ∈ pl := by
        intro x hx
        have hx' : x ∈ keyed := (sortByMt_perm keyed).mem_iff.mp (hsort ▸ hx)
        have := (keyedOf_spec fs pl keyed hkey).1
        rw [← this]
        exact List.mem_map_of_mem Prod.snd hx'
      have hsnds : (s0 :: srest).map Prod.snd |>.Nodup := by
        have hperm : List.Perm ((s0 :: srest).map Prod.snd) pl := by
          rw [← (keyedOf_spec fs pl keyed hkey).1, ← hsort]
          exact (sortByMt_perm keyed).map Prod.snd
        exact hperm.nodup_iff.mpr hplnd
      set sel :=
        (if keep == "first" then (s0.2, srest.map (fun x => x.2))
         else if keep == "latest" then
           (((s0 :: srest).getLastD s0).2, ((s0 :: srest).dropLast).map (fun x => x.2))
         else (s0.2, srest.map (fun x => x.2))) with hsel
      have hselsub : ∀ q ∈ sel.2, q ∈ pl := by
        intro q hq
        rw [hsel] at hq
        by_cases hk1 : (keep == "first") = true
        · rw [if_pos hk1] at hq
          rcases List.mem_map.mp hq with ⟨x, hx, rfl⟩
          exact hsub x (List.mem_cons_of_mem _ hx)
        · rw [if_neg (by simpa using hk1)] at hq
          by_cases hk2 : (keep == "latest") = true
          · rw [if_pos hk2] at hq
            rcases List.mem_map.mp hq with ⟨x, hx, rfl⟩
            exact hsub x (List.dropLast_subset _ hx)
          · rw [if_neg (by simpa using hk2)] at hq
            rcases List.mem_map.mp hq with ⟨x, hx, rfl⟩
            exact hsub x (List.mem_cons_of_mem _ hx)
      have hselnd : sel.2.Nodup := by
        rw [hsel]
        by_cases hk1 : (keep == "first") = true
        · rw [if_pos hk1]
          exact (List.nodup_cons.mp (by simpa using hsnds)).2
        · rw [if_neg (by simpa using hk1)]
          by_cases hk2 : (keep == "latest") = true
          · rw [if_pos hk2]
            have : ((s0 :: srest).dropLast).map (fun x => x.2) =
                ((s0 :: srest).map Prod.snd).dropLast := List.map_dropLast _ _
            rw [this]
            exact hsnds.sublist (List.dropLast_sublist _)
          · rw [if_neg (by simpa using hk2)]
            exact (List.nodup_cons.mp (by simpa using hsnds)).2
      -- run the removal pass
      have hselok : ∀ p ∈ sel.2, ∃ e, findFile fs p = some e ∧ e.removable = true :=
        fun p hp => hok (hh, pl) (List.mem_cons_self _ _) p (hselsub p hp)
      have hrecs := removeGo_real_recs hh sel.1 sel.2 fs [] hselnd hselok
      rw [List.nil_append] at hrecs
      -- the recursive call on the mutated snapshot
      have hrest_hyps : ∀ g ∈ rest, ∀ p ∈ g.2,
          ∃ e, findFile (removeGo false hh sel.1 fs [] sel.2).2 p = some e ∧
            e.removable = true := by
        intro g' hg' p hp
        rcases hok g' (List.mem_cons_of_mem _ hg') p hp with ⟨e, he, hrm⟩
        have hnot : p ∉ sel.2 := by
          intro hc
          exact hpldisj (hselsub p hc)
            (List.mem_join.mpr ⟨g'.2, List.mem_map_of_mem _ hg', hp⟩)
        rcases removeGo_preserve false hh sel.1 sel.2 fs [] p hnot with ⟨hfind, _⟩
        exact ⟨e, hfind ▸ he, hrm⟩
      rcases ih (removeGo false hh sel.1 fs [] sel.2).2
        (acc ++ (removeGo false hh sel.1 fs [] sel.2).1) hjoinnd
        (fun g' hg' => hne g' (List.mem_cons_of_mem _ hg')) hrest_hyps with
        ⟨recs, fsr, hreal, hdry1⟩
      refine ⟨recs, fsr, hreal, ?_⟩
      rw [removeGo_dry]
      rw [List.nil_append]
      have hkeyagree : ∀ g' ∈ rest,
          keyedOf (removeGo false hh sel.1 fs [] sel.2).2 g'.2 = keyedOf fs g'.2 := by
        intro g' hg'
        apply keyedOf_preserve
        intro q hq hc
        exact hpldisj (hselsub q hc)
          (List.mem_join.mpr ⟨g'.2, List.mem_map_of_mem _ hg', hq⟩)
      have := removeDupGo_dry_congr keep rest (removeGo false hh sel.1 fs [] sel.2).2 fs
        (acc ++ (removeGo false hh sel.1 fs [] sel.2).1) recs
        (removeGo false hh sel.1 fs [] sel.2).2
        (fun g' hg' => hkeyagree g' hg') hdry1
      rw [hrecs] at this
      exact this

theorem findFile_files_congr {fsa fsb : FS} (h : fsa.files = fsb.files)
    (q : List String) : findFile fsa q = findFile fsb q := by
  unfold findFile
  rw [h]

theorem pathAncestors_length_le {q r : List String} (h : q ∈ pathAncestors r) :
    q.length ≤ r.length := by
  unfold pathAncestors at h
  rcases List.mem_map.mp h with ⟨i, _, rfl⟩
  simp

theorem scan_mem_isSome {fs : FS} {root : List String} {rec : Bool}
    {ig : List String} {p : List String} (hp : p ∈ scan_files fs root rec ig) :
    (findFile fs p).isSome = true := by
  rcases scanLoop_dir_mem fs rec ig (walkDirs fs root) p hp with ⟨d, _, _, hpd⟩
  unfold filesUnder at hpd
  rcases List.mem_map.mp hpd with ⟨e, he, rfl⟩
  rcases List.mem_filter.mp he with ⟨hef, _⟩
  unfold findFile
  rw [Option.isSome_iff_exists]
  have : (List.find? (fun x => x.path == e.path) fs.files).isSome := by
    rw [List.find?_isSome]
    exact ⟨e, hef, by simp⟩
  rcases Option.isSome_iff_exists.mp this with ⟨e', he'⟩
  exact ⟨e', he'⟩

theorem safe_mkdir_ok {fs fs1 : FS} {q : List String}
    (h : safe_mkdir fs q = some fs1) :
    (∀ a ∈ pathAncestors q, (findFile fs a).isSome = false) ∧
    fs1 = { fs with dirs := fs.dirs ++ (pathAncestors q).filter (fun r => !fs.dirs.contains r) } := by
  unfold safe_mkdir at h
  by_cases hc : (pathAncestors q).any (fun r => (findFile fs r).isSome) = true
  · rw [if_pos hc] at h; cases h
  · rw [if_neg hc] at h
    rw [Option.some_inj] at h
    refine ⟨?_, h.symm⟩
    intro a ha
    by_cases hh : (findFile fs a).isSome = true
    · exact absurd (List.any_eq_true.mpr ⟨a, ha, hh⟩) hc
    · revert hh; cases (findFile fs a).isSome <;> simp

theorem safe_mkdir_mk {fs : FS} {q : List String}
    (h : ∀ a ∈ pathAncestors q, (findFile fs a).isSome = false) :
    safe_mkdir fs q =
      some { fs with dirs := fs.dirs ++ (pathAncestors q).filter (fun r => !fs.dirs.contains r) } := by
  unfold safe_mkdir
  rw [if_neg ?_]
  intro hc
  rcases List.any_eq_true.mp hc with ⟨a, ha, hsome⟩
  rw [h a ha] at hsome
  cases hsome

theorem resolveLoop_free (fs : FS) (folder : List String) (stem sfx : String)
    (src dest : List String) (hne : pathExists fs dest = false) :
    ∀ (fuel : Nat), fuel ≠ 0 →
      resolveLoop fs folder stem sfx src fuel 1 dest = .ok (dest, false) := by
  intro fuel hf
  cases fuel with
  | zero => exact absurd rfl hf
  | succ n => simp [resolveLoop, hne]

theorem fuelOf_ne_zero (fs : FS) : fuelOf fs ≠ 0 := by
  simp [fuelOf]

theorem organizeStep_skip (mv dry : Bool) (root target : List String) (fs : FS)
    (p : List String) (name : String)
    (hlast : (p.drop root.length).getLast? = some name)
    (hskip : skipCheck (p.drop root.length) name = true) :
    organizeStep mv dry root target fs p = .ok (none, fs) := by
  unfold organizeStep
  rw [hlast]
  dsimp only
  rw [if_pos hskip]

theorem safe_mkdir_mk2 {fs : FS} {q : List String}
    (h : ∀ a ∈ pathAncestors q, (findFile fs a).isSome = false) :
    safe_mkdir fs q = some (mkdirFS fs q) := safe_mkdir_mk h

theorem mkdirFS_files (fs : FS) (q : List String) : (mkdirFS fs q).files = fs.files := rfl

theorem organizeStep_fresh_dry (mv : Bool) (root target : List String) (fs : FS)
    (p : List String) (name : String)
    (hlast : (p.drop root.length).getLast? = some name)
    (hskip : skipCheck (p.drop root.length) name = false)
    (hmk : ∀ a ∈ pathAncestors (target ++ [extCatOf name]), (findFile fs a).isSome = false)
    (hfree : pathExists (mkdirFS fs (target ++ [extCatOf name]))
      ((target ++ [extCatOf name]) ++ [name]) = false) :
    organizeStep mv true root target fs p =
      .ok (some ⟨if mv then ActKind.move else ActKind.copy, p,
          (target ++ [extCatOf name]) ++ [name]⟩,
        mkdirFS fs (target ++ [extCatOf name])) := by
  unfold organizeStep
  rw [hlast]
  dsimp only
  rw [hskip, if_neg (by simp), safe_mkdir_mk2 hmk]
  dsimp only
  rw [resolveLoop_free _ _ _ _ _ _ hfree _ (fuelOf_ne_zero _)]
  dsimp only
  rw [if_pos rfl]

theorem organizeStep_fresh_real (mv : Bool) (root target : List String) (fs : FS)
    (p : List String) (name : String) (e : FEntry)
    (hlast : (p.drop root.length).getLast? = some name)
    (hskip : skipCheck (p.drop root.length) name = false)
    (hmk : ∀ a ∈ pathAncestors (target ++ [extCatOf name]), (findFile fs a).isSome = false)
    (hfree : pathExists (mkdirFS fs (target ++ [extCatOf name]))
      ((target ++ [extCatOf name]) ++ [name]) = false)
    (hsrc : findFile fs p = some e) :
    organizeStep mv false root target fs p =
      .ok (some ⟨if mv then ActKind.move else ActKind.copy, p,
          (target ++ [extCatOf name]) ++ [name]⟩,
        FS.mk
          ((if mv then fs.files.filter (fun x => x.path != p) else fs.files) ++
            [{ e with path := (target ++ [extCatOf name]) ++ [name] }])
          (mkdirFS fs (target ++ [extCatOf name])).dirs) := by
  unfold organizeStep
  rw [hlast]
  dsimp only
  rw [hskip, if_neg (by simp), safe_mkdir_mk2 hmk]
  dsimp only
  rw [resolveLoop_free _ _ _ _ _ _ hfree _ (fuelOf_ne_zero _)]
  dsimp only
  rw [if_neg (by simp)]
  have hsrc1 : findFile (mkdirFS fs (target ++ [extCatOf name])) p = some e := hsrc
  cases mv with
  | true =>
    have hmv : moveFile (mkdirFS fs (target ++ [extCatOf name])) p
        ((target ++ [extCatOf name]) ++ [name]) =
        some (FS.mk
          (fs.files.filter (fun x => x.path != p) ++
            [{ e with path := (target ++ [extCatOf name]) ++ [name] }])
          (mkdirFS fs (target ++ [extCatOf name])).dirs) := by
      unfold moveFile
      rw [hsrc1]
      rfl
    rw [if_pos rfl, hmv]
    rfl
  | false =>
    have hcp : copyFile (mkdirFS fs (target ++ [extCatOf name])) p
        ((target ++ [extCatOf name]) ++ [name]) =
        some (FS.mk
          (fs.files ++
            [{ e with path := (target ++ [extCatOf name]) ++ [name] }])
          (mkdirFS fs (target ++ [extCatOf name])).dirs) := by
      unfold copyFile
      rw [hsrc1]
      rfl
    rw [if_neg (by simp), hcp]
    rfl

theorem pathExists_parts {fs : FS} {q : List String} (h : pathExists fs q = false) :
    findFile fs q = none ∧ isDirAt fs q = false := by
  unfold pathExists at h
  rcases Bool.or_eq_false_iff.mp h with ⟨h1, h2⟩
  exact ⟨Option.not_isSome_iff_eq_none.mp (by simp [h1]), h2⟩

theorem pathExists_mk_false {fs : FS} {q : List String}
    (h1 : findFile fs q = none) (h2 : isDirAt fs q = false) :
    pathExists fs q = false := by
  unfold pathExists
  rw [h1, h2]
  rfl

theorem isDirAt_false_of_not_mem {fs : FS} {q : List String} (h : q ∉ fs.dirs) :
    isDirAt fs q = false := by
  unfold isDirAt
  by_cases hc : fs.dirs.contains q = true
  · exact absurd (List.elem_iff.mp hc) h
  · revert hc; cases fs.dirs.contains q <;> simp

theorem isDirAt_not_mem_of_false {fs : FS} {q : List String}
    (h : isDirAt fs q = false) : q ∉ fs.dirs := by
  intro hc
  unfold isDirAt at h
  have hcontains : fs.dirs.contains q = true := List.elem_eq_true_of_mem hc
  rw [hcontains] at h
  cases h

theorem organizeStep_mkdir_ok (mv dry : Bool) (root target : List String) (fs : FS)
    (p : List String) (name : String) (o? : Option Op) (fs1 : FS)
    (hlast : (p.drop root.length).getLast? = some name)
    (hskip : skipCheck (p.drop root.length) name = false)
    (h : organizeStep mv dry root target fs p = .ok (o?, fs1)) :
    ∀ a ∈ pathAncestors (target ++ [extCatOf name]), (findFile fs a).isSome = false := by
  unfold organizeStep at h
  rw [hlast] at h
  dsimp only at h
  rw [hskip, if_neg (by simp)] at h
  cases hmk : safe_mkdir fs (target ++ [extCatOf name]) with
  | none => rw [hmk] at h; cases h
  | some fsm => exact (safe_mkdir_ok hmk).1

theorem organizeGo_dry_real (mv : Bool) (root target : List String) (fs : FS) :
    ∀ (rem : List (List String)) (ds : List (List String)) (fsd fsr : FS)
      (ops : List Op) (fsd' : FS),
      rem.Nodup →
      (∀ p ∈ rem, (findFile fs p).isSome = true) →
      (∀ p ∈ rem, skipCheckPath root p = false →
        ∀ d, initDest root target p = some d → pathExists fs d = false) →
      (∀ p ∈ rem, skipCheckPath root p = false →
        ∀ d, initDest root target p = some d → d ∉ ds) →
      (∀ p ∈ rem, ∀ q ∈ rem, p ≠ q → skipCheckPath root p = false →
        skipCheckPath root q = false →
        initDest root target p ≠ initDest root target q) →
      fsd.files = fs.files →
      fsd.dirs = fsr.dirs →
      (∀ dd ∈ fsd.dirs, dd ∈ fs.dirs ∨ dd.length ≤ target.length + 1) →
      (∀ q ∈ rem, findFile fsr q = findFile fs q) →
      (∀ q, (findFile fsr q).isSome = true →
        (findFile fs q).isSome = true ∨ q ∈ ds) →
      (∀ d ∈ ds, pathExists fs d = false ∧ d.length = target.length + 2) →
      organizeGo mv true root target fsd rem = .ok (ops, fsd') →
      ∃ fsr', organizeGo mv false root target fsr rem = .ok (ops, fsr') := by
  intro rem
  induction rem with
  | nil =>
    intro ds fsd fsr ops fsd' _ _ _ _ _ _ _ _ _ _ _ hok
    simp only [organizeGo, Except.ok.injEq, Prod.mk.injEq] at hok
    exact ⟨fsr, by rw [← hok.1]; rfl⟩
  | cons p rem' ih =>
    intro ds fsd fsr ops fsd' hnd hP h3 h4' h4 hA hB hD hE hH hDs hok
    simp only [organizeGo] at hok
    cases hstepd : organizeStep mv true root target fsd p with
    | error e => rw [hstepd] at hok; cases hok
    | ok prd =>
      rw [hstepd] at hok
      obtain ⟨o?, fsd1⟩ := prd
      dsimp only at hok
      cases hgod : organizeGo mv true root target fsd1 rem' with
      | error e => rw [hgod] at hok; cases hok
      | ok prd2 =>
        rw [hgod] at hok
        obtain ⟨ops1, fsd2⟩ := prd2
        dsimp only at hok
        simp only [Except.ok.injEq, Prod.mk.injEq] at hok
        cases hlast : (p.drop root.length).getLast? with
        | none =>
          exfalso
          unfold organizeStep at hstepd
          rw [hlast] at hstepd
          cases hstepd
        | some name =>
          have hscp : skipCheckPath root p = skipCheck (p.drop root.length) name := by
            unfold skipCheckPath
            rw [hlast]
          by_cases hskip : skipCheck (p.drop root.length) name = true
          · have hstep_eq := organizeStep_skip mv true root target fsd p name hlast hskip
            rw [hstep_eq] at hstepd
            simp only [Except.ok.injEq, Prod.mk.injEq] at hstepd
            rcases ih ds fsd fsr ops1 fsd2
              (List.nodup_cons.mp hnd).2
              (fun q hq => hP q (List.mem_cons_of_mem _ hq))
              (fun q hq => h3 q (List.mem_cons_of_mem _ hq))
              (fun q hq => h4' q (List.mem_cons_of_mem _ hq))
              (fun q hq r hr => h4 q (List.mem_cons_of_mem _ hq) r (List.mem_cons_of_mem _ hr))
              hA hB hD
              (fun q hq => hE q (List.mem_cons_of_mem _ hq))
              hH hDs (by rw [hstepd.2]; exact hgod) with ⟨fsr', hreal⟩
            refine ⟨fsr', ?_⟩
            simp only [organizeGo]
            rw [organizeStep_skip mv false root target fsr p name hlast hskip]
            dsimp only
            rw [hreal]
            dsimp only
            rw [← hok.1, ← hstepd.1]
          · have hskip' : skipCheck (p.drop root.length) name = false := by
              revert hskip; cases skipCheck (p.drop root.length) name <;> simp
            have hinit : initDest root target p = some ((target ++ [extCatOf name]) ++ [name]) := by
              unfold initDest
              rw [hlast]
              rfl
            have hfreefs : pathExists fs ((target ++ [extCatOf name]) ++ [name]) = false :=
              h3 p (List.mem_cons_self _ _) (hscp ▸ hskip') _ hinit
            rcases pathExists_parts hfreefs with ⟨hfree1, hfree2⟩
            have hlen0 : ((target ++ [extCatOf name]) ++ [name]).length = target.length + 2 := by
              simp
            have hmkd : ∀ a ∈ pathAncestors (target ++ [extCatOf name]),
                (findFile fsd a).isSome = false :=
              organizeStep_mkdir_ok mv true root target fsd p name o? fsd1 hlast hskip' hstepd
            have hmkfs : ∀ a ∈ pathAncestors (target ++ [extCatOf name]),
                (findFile fs a).isSome = false := by
              intro a ha
              rw [← findFile_files_congr hA a]
              exact hmkd a ha
            have hmkr : ∀ a ∈ pathAncestors (target ++ [extCatOf name]),
                (findFile fsr a).isSome = false := by
              intro a ha
              by_cases hc : (findFile fsr a).isSome = true
              · rcases hH a hc with hc1 | hc2
                · rw [hmkfs a ha] at hc1; cases hc1
                · have := (hDs a hc2).2
                  have hle := pathAncestors_length_le ha
                  simp only [List.length_append, List.length_cons, List.length_nil] at hle
                  omega
              · revert hc; cases (findFile fsr a).isSome <;> simp
            have hdirsbound : ∀ dd ∈ (mkdirFS fsd (target ++ [extCatOf name])).dirs,
                dd ∈ fs.dirs ∨ dd.length ≤ target.length + 1 := by
              intro dd hdd
              rcases List.mem_append.mp hdd with hdd | hdd
              · exact hD dd hdd
              · rcases List.mem_filter.mp hdd with ⟨hdd', _⟩
                right
                have := pathAncestors_length_le hdd'
                simpa using this
            have hfreed : pathExists (mkdirFS fsd (target ++ [extCatOf name]))
                ((target ++ [extCatOf name]) ++ [name]) = false := by
              apply pathExists_mk_false
              · rw [findFile_files_congr (mkdirFS_files fsd _) _,
                  findFile_files_congr hA _]
                exact hfree1
              · apply isDirAt_false_of_not_mem
                intro hc
                rcases hdirsbound _ hc with hc1 | hc1
                · exact (isDirAt_not_mem_of_false hfree2) hc1
                · rw [hlen0] at hc1; omega
            have hfreer : pathExists (mkdirFS fsr (target ++ [extCatOf name]))
                ((target ++ [extCatOf name]) ++ [name]) = false := by
              apply pathExists_mk_false
              · rw [findFile_files_congr (mkdirFS_files fsr _) _]
                by_cases hc : (findFile fsr ((target ++ [extCatOf name]) ++ [name])).isSome = true
                · exfalso
                  rcases hH _ hc with hc1 | hc1
                  · rw [hfree1] at hc1; cases hc1
                  · exact (h4' p (List.mem_cons_self _ _) (hscp ▸ hskip') _ hinit) hc1
                · exact Option.not_isSome_iff_eq_none.mp (by simpa using hc)
              · apply isDirAt_false_of_not_mem
                intro hc
                rcases List.mem_append.mp hc with hc1 | hc1
                · rw [← hB] at hc1
                  rcases hD _ hc1 with hc2 | hc2
                  · exact (isDirAt_not_mem_of_false hfree2) hc2
                  · rw [hlen0] at hc2; omega
                · rcases List.mem_filter.mp hc1 with ⟨hc2, _⟩
                  have := pathAncestors_length_le hc2
                  rw [hlen0] at this
                  simp only [List.length_append, List.length_cons, List.length_nil] at this
                  omega
            have hstepval := organizeStep_fresh_dry mv root target fsd p name hlast hskip' hmkd hfreed
            rw [hstepval] at hstepd
            simp only [Except.ok.injEq, Prod.mk.injEq] at hstepd
            have hEp := hE p (List.mem_cons_self _ _)
            rcases Option.isSome_iff_exists.mp (hP p (List.mem_cons_self _ _)) with ⟨e, he⟩
            have hsrcr : findFile fsr p = some e := by rw [hEp]; exact he
            have hstepr := organizeStep_fresh_real mv root target fsr p name e hlast hskip' hmkr hfreer hsrcr
            have hpnodup : p ∉ rem' := (List.nodup_cons.mp hnd).1
            have hfind2 : ∀ q, q ≠ p → q ≠ (target ++ [extCatOf name]) ++ [name] →
                findFile (FS.mk
                  ((if mv then fsr.files.filter (fun x => x.path != p) else fsr.files) ++
                    [{ e with path := (target ++ [extCatOf name]) ++ [name] }])
                  (mkdirFS fsr (target ++ [extCatOf name])).dirs) q = findFile fsr q := by
              intro q hqp hqd
              show ((if mv then fsr.files.filter (fun (x : FEntry) => x.path != p) else fsr.files) ++
                [{ e with path := (target ++ [extCatOf name]) ++ [name] }]).find?
                  (fun (x : FEntry) => x.path == q) = findFile fsr q
              rw [List.find?_append]
              have hback : List.find? (fun x => x.path == q)
                  [{ e with path := (target ++ [extCatOf name]) ++ [name] }] = none := by
                have hne : (({ e with path := (target ++ [extCatOf name]) ++ [name] } : FEntry).path == q) = false :=
                  beq_eq_false_iff_ne.mpr (fun hh => hqd (by simpa using hh.symm))
                simp only [List.find?, hne]
              rw [hback]
              cases mv with
              | true =>
                rw [if_pos rfl]
                show (List.find? (fun (x : FEntry) => x.path == q)
                  (fsr.files.filter (fun (x : FEntry) => x.path != p))).or none = findFile fsr q
                rw [find?_filter_path_ne fsr.files q p hqp]
                cases hres : findFile fsr q
                · unfold findFile at hres; rw [hres]; rfl
                · unfold findFile at hres; rw [hres]; rfl
              | false =>
                rw [if_neg (by simp)]
                show (List.find? (fun (x : FEntry) => x.path == q) fsr.files).or none = findFile fsr q
                cases hres : findFile fsr q
                · unfold findFile at hres; rw [hres]; rfl
                · unfold findFile at hres; rw [hres]; rfl
            have h4new : ∀ q ∈ rem', skipCheckPath root q = false →
                ∀ d, initDest root target q = some d →
                d ∉ ds ++ [(target ++ [extCatOf name]) ++ [name]] := by
              intro q hq hsq d hd hc
              rcases List.mem_append.mp hc with hc1 | hc1
              · exact (h4' q (List.mem_cons_of_mem _ hq) hsq d hd) hc1
              · rw [List.mem_singleton] at hc1
                have hpq : p ≠ q := fun hh => hpnodup (hh ▸ hq)
                apply h4 p (List.mem_cons_self _ _) q (List.mem_cons_of_mem _ hq) hpq
                  (hscp ▸ hskip') hsq
                rw [hinit, hd, hc1]
            have hBnew : (mkdirFS fsd (target ++ [extCatOf name])).dirs =
                (FS.mk
                  ((if mv then fsr.files.filter (fun x => x.path != p) else fsr.files) ++
                    [{ e with path := (target ++ [extCatOf name]) ++ [name] }])
                  (mkdirFS fsr (target ++ [extCatOf name])).dirs).dirs := by
              show fsd.dirs ++ (pathAncestors (target ++ [extCatOf name])).filter
                  (fun r => !fsd.dirs.contains r) =
                fsr.dirs ++ (pathAncestors (target ++ [extCatOf name])).filter
                  (fun r => !fsr.dirs.contains r)
              rw [hB]
            have hEnew : ∀ q ∈ rem', findFile
                (FS.mk
                  ((if mv then fsr.files.filter (fun x => x.path != p) else fsr.files) ++
                    [{ e with path := (target ++ [extCatOf name]) ++ [name] }])
                  (mkdirFS fsr (target ++ [extCatOf name])).dirs) q = findFile fs q := by
              intro q hq
              have hqp : q ≠ p := fun hh => hpnodup (hh ▸ hq)
              have hqd : q ≠ (target ++ [extCatOf name]) ++ [name] := by
                intro hh
                have hs : (findFile fs q).isSome = true := hP q (List.mem_cons_of_mem _ hq)
                rw [hh, hfree1] at hs
                cases hs
              rw [hfind2 q hqp hqd]
              exact hE q (List.mem_cons_of_mem _ hq)
            have hHnew : ∀ q, (findFile
                (FS.mk
                  ((if mv then fsr.files.filter (fun x => x.path != p) else fsr.files) ++
                    [{ e with path := (target ++ [extCatOf name]) ++ [name] }])
                  (mkdirFS fsr (target ++ [extCatOf name])).dirs) q).isSome = true →
                (findFile fs q).isSome = true ∨
                q ∈ ds ++ [(target ++ [extCatOf name]) ++ [name]] := by
              intro q hq
              by_cases hqd : q = (target ++ [extCatOf name]) ++ [name]
              · exact Or.inr (List.mem_append_right _ (by simp [hqd]))
              · by_cases hqp : q = p
                · subst hqp
                  exact Or.inl (hP q (List.mem_cons_self _ _))
                · rw [hfind2 q hqp hqd] at hq
                  rcases hH q hq with hc | hc
                  · exact Or.inl hc
                  · exact Or.inr (List.mem_append_left _ hc)
            have hDsnew : ∀ d ∈ ds ++ [(target ++ [extCatOf name]) ++ [name]],
                pathExists fs d = false ∧ d.length = target.length + 2 := by
              intro d hd
              rcases List.mem_append.mp hd with hd1 | hd1
              · exact hDs d hd1
              · rw [List.mem_singleton] at hd1
                subst hd1
                exact ⟨hfreefs, hlen0⟩
            rcases ih (ds ++ [(target ++ [extCatOf name]) ++ [name]])
              (mkdirFS fsd (target ++ [extCatOf name]))
              (FS.mk
                ((if mv then fsr.files.filter (fun x => x.path != p) else fsr.files) ++
                  [{ e with path := (target ++ [extCatOf name]) ++ [name] }])
                (mkdirFS fsr (target ++ [extCatOf name])).dirs)
              ops1 fsd2
              (List.nodup_cons.mp hnd).2
              (fun q hq => hP q (List.mem_cons_of_mem _ hq))
              (fun q hq => h3 q (List.mem_cons_of_mem _ hq))
              h4new
              (fun q hq r hr => h4 q (List.mem_cons_of_mem _ hq) r (List.mem_cons_of_mem _ hr))
              (by rw [mkdirFS_files]; exact hA)
              hBnew
              hdirsbound
              hEnew
              hHnew
              hDsnew
              (by rw [hstepd.2]; exact hgod) with ⟨fsr', hreal⟩
            refine ⟨fsr', ?_⟩
            simp only [organizeGo]
            rw [hstepr]
            dsimp only
            rw [hreal]
            dsimp only
            rw [← hok.1, ← hstepd.1]

theorem claim1_organize_dry_real (fs : FS) (root : List String)
    (tgt? : Option (List String)) (mv : Bool) (ig : List String)
    (ops : List Op) (fsd' : FS)
    (hnd : (scan_files fs root true ig).Nodup)
    (hfresh : ∀ p ∈ scan_files fs root true ig, skipCheckPath root p = false →
      ∀ d, initDest root (tgt?.getD root) p = some d → pathExists fs d = false)
    (hdist : ∀ p ∈ scan_files fs root true ig, ∀ q ∈ scan_files fs root true ig,
      p ≠ q → skipCheckPath root p = false → skipCheckPath root q = false →
      initDest root (tgt?.getD root) p ≠ initDest root (tgt?.getD root) q)
    (h : organize_files fs root tgt? true mv ig = .ok (ops, fsd')) :
    ∃ fsr', organize_files fs root tgt? false mv ig = .ok (ops, fsr') := by
  unfold organize_files at h ⊢
  exact organizeGo_dry_real mv root (tgt?.getD root) fs (scan_files fs root true ig)
    [] fs fs ops fsd' hnd (fun p hp => scan_mem_isSome hp) hfresh
    (fun p _ _ d _ => List.not_mem_nil d) hdist rfl rfl
    (fun dd hdd => Or.inl hdd) (fun q _ => rfl) (fun q hq => Or.inl hq)
    (fun d hd => absurd hd (List.not_mem_nil d)) h

theorem claim1_remove_dry_real (fs : FS)
    (dups : List (List Nat × List (List String))) (keep : String)
    (hnd : ((dups.map (fun g => g.2)).join).Nodup)
    (hne : ∀ g ∈ dups, g.2 ≠ [])
    (hok : ∀ g ∈ dups, ∀ p ∈ g.2, ∃ e, findFile fs p = some e ∧ e.removable = true) :
    ∃ recs fsr, remove_duplicates fs dups keep false = .ok (recs, fsr) ∧
      remove_duplicates fs dups keep true = .ok (recs, fs) :=
  removeDup_dry_real keep dups fs [] hnd hne hok

/-- C1, counterexample: dry-run organize mutates the snapshot — it creates
the `txt` directory — and on a snapshot where two scanned files share a
destination filename the dry-run operation list differs from the real one
(the real run bumps the second file to `f_1.txt`, the dry run re-offers the
occupied destination). -/
theorem claim1_cex :
    (fsOf (organize_files fxClash ["root"] none true true []) =
      some (FS.mk fxClash.files
        [["root"], ["root", "a"], ["root", "b"], ["root", "txt"]])) ∧
    opsOf (organize_files fxClash ["root"] none true true []) ≠
      opsOf (organize_files fxClash ["root"] none false true []) := by
  constructor
  · rfl
  · decide

/-- C1, amended: what dry-run actually guarantees. (a) a dry organize run
leaves the file list untouched; (b) a dry `remove_duplicates` run returns the
snapshot unchanged; (c) on groups of present, removable, pairwise-distinct
paths the removal records of a dry run coincide with those of a real run;
(d) the organize operation lists of dry and real runs coincide whenever every
initial destination is fresh and the destinations are pairwise distinct. The
original claim fails: dry-run organize still creates category directories
(src/main.py:90 is not gated by `dry_run`), and on colliding destinations the
two operation lists diverge — see `claim1_cex`. -/
theorem claim1_thm :
    (∀ (fs : FS) (root : List String) (tgt? : Option (List String)) (mv : Bool)
        (ig : List String) (ops : List Op) (fs' : FS),
      organize_files fs root tgt? true mv ig = .ok (ops, fs') →
      fs'.files = fs.files) ∧
    (∀ (fs : FS) (dups : List (List Nat × List (List String))) (keep : String)
        (recs : List RemRec) (fsE : FS),
      remove_duplicates fs dups keep true = .ok (recs, fsE) → fsE = fs) ∧
    (∀ (fs : FS) (dups : List (List Nat × List (List String))) (keep : String),
      ((dups.map (fun g => g.2)).join).Nodup →
      (∀ g ∈ dups, g.2 ≠ []) →
      (∀ g ∈ dups, ∀ p ∈ g.2, ∃ e, findFile fs p = some e ∧ e.removable = true) →
      ∃ recs fsr, remove_duplicates fs dups keep false = .ok (recs, fsr) ∧
        remove_duplicates fs dups keep true = .ok (recs, fs)) ∧
    (∀ (fs : FS) (root : List String) (tgt? : Option (List String)) (mv : Bool)
        (ig : List String) (ops : List Op) (fsd' : FS),
      (scan_files fs root true ig).Nodup →
      (∀ p ∈ scan_files fs root true ig, skipCheckPath root p = false →
        ∀ d, initDest root (tgt?.getD root) p = some d → pathExists fs d = false) →
      (∀ p ∈ scan_files fs root true ig, ∀ q ∈ scan_files fs root true ig,
        p ≠ q → skipCheckPath root p = false → skipCheckPath root q = false →
        initDest root (tgt?.getD root) p ≠ initDest root (tgt?.getD root) q) →
      organize_files fs root tgt? true mv ig = .ok (ops, fsd') →
      ∃ fsr', organize_files fs root tgt? false mv ig = .ok (ops, fsr')) := by
  refine ⟨?_, ?_, ?_, ?_⟩
  · exact claim1_dry_organize_files
  · exact claim1_dry_remove_fs
  · exact claim1_remove_dry_real
  · exact claim1_organize_dry_real

/-- C1, witness: the four conjuncts of `claim1_thm` instantiated on a
one-file snapshot and a singleton duplicate group. -/
theorem claim1_witness :
    ((FS.mk fxW1.files [["root"], ["root", "txt"]]).files = fxW1.files) ∧
    (fxW1 = fxW1) ∧
    (∃ recs fsr,
      remove_duplicates fxW1 [([7], [["root", "x.txt"]])] "first" false = .ok (recs, fsr) ∧
      remove_duplicates fxW1 [([7], [["root", "x.txt"]])] "first" true = .ok (recs, fxW1)) ∧
    (∃ fsr', organize_files fxW1 ["root"] none false true [] =
      .ok ([⟨ActKind.move, ["root", "x.txt"], ["root", "txt", "x.txt"]⟩], fsr')) := by
  obtain ⟨h1, h2, h3, h4⟩ := claim1_thm
  refine ⟨?_, ?_, ?_, ?_⟩
  · exact h1 fxW1 ["root"] none true []
      [⟨ActKind.move, ["root", "x.txt"], ["root", "txt", "x.txt"]⟩]
      (FS.mk fxW1.files [["root"], ["root", "txt"]]) rfl
  · exact h2 fxW1 [([7], [["root", "x.txt"]])] "first" [] fxW1 rfl
  · refine h3 fxW1 [([7], [["root", "x.txt"]])] "first" (by decide) (by decide) ?_
    intro g hg p hp
    rw [List.mem_singleton] at hg
    subst hg
    rw [List.mem_singleton] at hp
    subst hp
    exact ⟨⟨["root", "x.txt"], [5], 0, true, true⟩, rfl, rfl⟩
  · refine h4 fxW1 ["root"] none true []
      [⟨ActKind.move, ["root", "x.txt"], ["root", "txt", "x.txt"]⟩]
      (FS.mk fxW1.files [["root"], ["root", "txt"]]) (by decide) ?_ ?_ rfl
    · intro p hp hs d hd
      have hscan : scan_files fxW1 ["root"] true [] = [["root", "x.txt"]] := rfl
      rw [hscan, List.mem_singleton] at hp
      subst hp
      have h0 : initDest ["root"] ((none : Option (List String)).getD ["root"])
          ["root", "x.txt"] = some ["root", "txt", "x.txt"] := rfl
      rw [h0, Option.some_inj] at hd
      rw [← hd]
      rfl
    · intro p hp q hq hpq _ _
      have hscan : scan_files fxW1 ["root"] true [] = [["root", "x.txt"]] := rfl
      rw [hscan, List.mem_singleton] at hp
      rw [hscan, List.mem_singleton] at hq
      exact absurd (hp.trans hq.symm) hpq

theorem char_toNat_inj {a b : Char} (h : a.toNat = b.toNat) : a = b := by
  rw [← Char.ofNat_toNat a, ← Char.ofNat_toNat b, h]

theorem toNat_ofNat_valid {n : Nat} (h : Nat.isValidChar n) : (Char.ofNat n).toNat = n := by
  unfold Char.ofNat
  rw [dif_pos h]
  rfl

theorem toLower_toNat (c : Char) :
    c.toLower.toNat = if c.toNat ≥ 65 ∧ c.toNat ≤ 90 then c.toNat + 32 else c.toNat := by
  unfold Char.toLower
  by_cases h : c.toNat ≥ 65 ∧ c.toNat ≤ 90
  · rw [if_pos h, if_pos h]
    exact toNat_ofNat_valid (Or.inl (by omega))
  · rw [if_neg h, if_neg h]

theorem toLower_idem (c : Char) : c.toLower.toLower = c.toLower := by
  apply char_toNat_inj
  rw [toLower_toNat, toLower_toNat c]
  by_cases h : c.toNat ≥ 65 ∧ c.toNat ≤ 90
  · rw [if_pos h, if_neg (by omega)]
  · rw [if_neg h, if_neg h]

theorem toLower_dot_iff (c : Char) : c.toLower = '.' ↔ c = '.' := by
  constructor
  · intro h
    have ht : c.toLower.toNat = 46 := by rw [h]; rfl
    rw [toLower_toNat] at ht
    by_cases hc : c.toNat ≥ 65 ∧ c.toNat ≤ 90
    · rw [if_pos hc] at ht; omega
    · rw [if_neg hc] at ht
      apply char_toNat_inj
      rw [ht]; rfl
  · intro h; rw [h]; rfl

theorem strLower_data (s : String) : (strLower s).data = s.data.map Char.toLower := rfl

theorem stripDots_data (s : String) :
    (stripDots s).data = s.data.dropWhile (fun c => c == '.') := rfl

theorem map_toLower_dropWhile (l : List Char) :
    (l.dropWhile (fun c => c == '.')).map Char.toLower =
      (l.map Char.toLower).dropWhile (fun c => c == '.') := by
  induction l with
  | nil => rfl
  | cons c cs ih =>
    simp only [List.map_cons, List.dropWhile_cons]
    by_cases hc : c = '.'
    · subst hc
      rw [if_pos (by rfl), if_pos (by rfl)]
      exact ih
    · have h1 : (c == '.') = false := by simp [hc]
      have h2 : (c.toLower == '.') = false := by
        simp only [beq_eq_false_iff_ne, ne_eq]
        rw [toLower_dot_iff]
        exact hc
      rw [h1, h2]
      simp only [Bool.false_eq_true, if_false, List.map_cons]

theorem strLower_stripDots (s : String) : strLower (stripDots s) = stripDots (strLower s) := by
  apply String.ext
  rw [strLower_data, stripDots_data, stripDots_data, strLower_data]
  exact map_toLower_dropWhile s.data

theorem strLower_idem (s : String) : strLower (strLower s) = strLower s := by
  apply String.ext
  simp only [strLower_data, List.map_map]
  apply List.map_congr_left
  intro c _
  exact toLower_idem c

theorem extKey_lower_fix (name : String) : strLower (extKey name) = extKey name := by
  unfold extKey
  rw [strLower_stripDots, strLower_idem]

theorem lastDotIdx_none_iff (l : List Char) :
    lastDotIdx l = none ↔ ∀ c ∈ l, c ≠ '.' := by
  induction l with
  | nil => simp [lastDotIdx]
  | cons c cs ih =>
    simp only [lastDotIdx]
    cases hcs : lastDotIdx cs with
    | some i =>
      simp only [reduceCtorEq, false_iff, not_forall]
      have : ¬ ∀ c ∈ cs, c ≠ '.' := by
        rw [← ih, hcs]
        simp
      push_neg at this
      rcases this with ⟨d, hd, hdd⟩
      exact ⟨d, List.mem_cons_of_mem _ hd, by simp [hdd]⟩
    | none =>
      by_cases hc : c = '.'
      · subst hc
        rw [if_pos (by rfl)]
        simp
      · rw [if_neg (by simpa using hc)]
        simp only [true_iff, List.mem_cons]
        intro d hd
        rcases hd with hd | hd
        · subst hd; exact hc
        · exact (ih.mp hcs) d hd

theorem lastDotIdx_append (xs ys : List Char) :
    lastDotIdx (xs ++ ys) =
      match lastDotIdx ys with
      | some i => some (xs.length + i)
      | none => lastDotIdx xs := by
  induction xs with
  | nil =>
    cases h : lastDotIdx ys with
    | some i =>
      rw [List.nil_append, h]
      dsimp only
      rw [List.length_nil, Nat.zero_add]
    | none =>
      rw [List.nil_append, h]
      rfl
  | cons c cs ih =>
    have hstep : lastDotIdx ((c :: cs) ++ ys) =
        match lastDotIdx (cs ++ ys) with
        | some i => some (i + 1)
        | none => if c == '.' then some 0 else none := rfl
    rw [hstep, ih]
    cases h : lastDotIdx ys with
    | some i =>
      dsimp only
      rw [Option.some_inj, List.length_cons]
      omega
    | none =>
      dsimp only
      rfl

theorem lastDotIdx_decomp (l : List Char) :
    ∀ i, lastDotIdx l = some i →
      ∃ pre post, l = pre ++ '.' :: post ∧ pre.length = i ∧ ∀ c ∈ post, c ≠ '.' := by
  induction l with
  | nil => intro i h; cases h
  | cons c cs ih =>
    intro i h
    simp only [lastDotIdx] at h
    cases hcs : lastDotIdx cs with
    | some j =>
      rw [hcs] at h
      simp only [Option.some_inj] at h
      rcases ih j hcs with ⟨pre, post, hl, hlen, hdf⟩
      exact ⟨c :: pre, post, by rw [hl]; rfl, by simp [hlen, ← h], hdf⟩
    | none =>
      rw [hcs] at h
      by_cases hc : c = '.'
      · subst hc
        rw [if_pos (by rfl)] at h
        simp only [Option.some_inj] at h
        exact ⟨[], cs, rfl, by simp [← h], (lastDotIdx_none_iff cs).mp hcs⟩
      · rw [if_neg (by simpa using hc)] at h
        cases h

theorem suffix_shape (nm : String) :
    suffixOf nm = "" ∨
      ∃ t, (suffixOf nm).data = '.' :: t ∧ t ≠ [] ∧ ∀ c ∈ t, c ≠ '.' := by
  unfold suffixOf splitName
  cases h : lastDotIdx nm.data with
  | none => exact Or.inl rfl
  | some i =>
    dsimp only
    by_cases hcond : 0 < i ∧ i + 1 < nm.data.length
    · rw [if_pos hcond]
      dsimp only
      rcases lastDotIdx_decomp nm.data i h with ⟨pre, post, hl, hlen, hdf⟩
      refine Or.inr ⟨post, ?_, ?_, hdf⟩
      · show nm.data.drop i = '.' :: post
        rw [hl, ← hlen, List.drop_left]
      · intro hc
        subst hc
        rw [hl] at hcond
        simp only [List.length_append, List.length_cons, List.length_nil, hlen] at hcond
        omega
    · rw [if_neg hcond]
      exact Or.inl rfl

theorem suffixOf_append_ext (σ sfx : String) (hσ : σ.data ≠ [])
    (t : List Char) (hsfx : sfx.data = '.' :: t) (ht : t ≠ [])
    (hdf : ∀ c ∈ t, c ≠ '.') : suffixOf (σ ++ sfx) = sfx := by
  have hdata : (σ ++ sfx).data = σ.data ++ '.' :: t := by
    rw [String.data_append, hsfx]
  have hld : lastDotIdx (σ ++ sfx).data = some σ.data.length := by
    rw [hdata, lastDotIdx_append]
    have h0 : lastDotIdx ('.' :: t) = some 0 := by
      simp only [lastDotIdx]
      rw [(lastDotIdx_none_iff t).mpr hdf]
      rfl
    rw [h0]
    dsimp only
    rw [Nat.add_zero]
  have hlen : (σ ++ sfx).data.length = σ.data.length + 1 + t.length := by
    rw [hdata]
    simp only [List.length_append, List.length_cons]
    omega
  unfold suffixOf splitName
  rw [hld]
  dsimp only
  have hcond : 0 < σ.data.length ∧ σ.data.length + 1 < (σ ++ sfx).data.length := by
    constructor
    · cases hd : σ.data with
      | nil => exact absurd hd hσ
      | cons a as => simp [hd]
    · rw [hlen]
      cases hts : t with
      | nil => exact absurd hts ht
      | cons a as => simp [hts]
  rw [if_pos hcond]
  dsimp only
  apply String.ext
  show (σ ++ sfx).data.drop σ.data.length = sfx.data
  rw [hdata, List.drop_left, hsfx]

theorem digitChar_ne_dot (n : Nat) : Nat.digitChar n ≠ '.' := by
  rcases n with _|_|_|_|_|_|_|_|_|_|_|_|_|_|_|_|m
  iterate 16 first | decide | skip
  unfold Nat.digitChar
  repeat rw [if_neg (by omega)]
  decide

theorem toDigitsCore_ne_dot (b : Nat) :
    ∀ (fuel n : Nat) (ds : List Char), (∀ c ∈ ds, c ≠ '.') →
      ∀ c ∈ Nat.toDigitsCore b fuel n ds, c ≠ '.' := by
  intro fuel
  induction fuel with
  | zero =>
    intro n ds hds c hc
    exact hds c hc
  | succ fuel ih =>
    intro n ds hds c hc
    simp only [Nat.toDigitsCore] at hc
    by_cases hz : n / b = 0
    · rw [if_pos hz] at hc
      rcases List.mem_cons.mp hc with hc | hc
      · rw [hc]; exact digitChar_ne_dot _
      · exact hds c hc
    · rw [if_neg hz] at hc
      refine ih (n / b) ((n % b).digitChar :: ds) ?_ c hc
      intro d hd
      rcases List.mem_cons.mp hd with hd | hd
      · rw [hd]; exact digitChar_ne_dot _
      · exact hds d hd

theorem repr_ne_dot (k : Nat) : ∀ c ∈ (Nat.repr k).data, c ≠ '.' := by
  intro c hc
  have : (Nat.repr k).data = Nat.toDigitsCore 10 (k + 1) k [] := rfl
  rw [this] at hc
  exact toDigitsCore_ne_dot 10 (k + 1) k [] (by intro d hd; cases hd) c hc

theorem stemOf_of_suffix_empty {nm : String} (h : suffixOf nm = "") : stemOf nm = nm := by
  unfold stemOf splitName
  unfold suffixOf splitName at h
  cases hld : lastDotIdx nm.data with
  | none => rfl
  | some i =>
    rw [hld] at h
    dsimp only
    dsimp only at h
    by_cases hcond : 0 < i ∧ i + 1 < nm.data.length
    · rw [if_pos hcond] at h
      dsimp only at h
      have hdrop : nm.data.drop i = [] := congrArg String.data h
      rw [List.drop_eq_nil_iff_le] at hdrop
      omega
    · rw [if_neg hcond]

theorem tailDotFree_spec {nm : String} (h : tailDotFree nm = true) :
    ∀ c ∈ nm.data.drop 1, c ≠ '.' := by
  intro c hc
  have := List.all_eq_true.mp h c hc
  simpa using this

theorem suffixOf_of_tailDotFree {nm : String} (h : tailDotFree nm = true) :
    suffixOf nm = "" := by
  unfold suffixOf splitName
  cases hld : lastDotIdx nm.data with
  | none => rfl
  | some i =>
    dsimp only
    by_cases hcond : 0 < i ∧ i + 1 < nm.data.length
    · exfalso
      rcases lastDotIdx_decomp nm.data i hld with ⟨pre, post, hl, hlen, _⟩
      cases hpre : pre with
      | nil => rw [hpre] at hlen; simp at hlen; omega
      | cons a as =>
        have hmem : '.' ∈ nm.data.drop 1 := by
          rw [hl, hpre]
          show '.' ∈ (a :: (as ++ '.' :: post)).drop 1
          rw [List.drop_one, List.tail_cons]
          exact List.mem_append_right _ (List.mem_cons_self _ _)
        exact tailDotFree_spec h '.' hmem rfl
    · rw [if_neg hcond]

theorem dropOne_append_dotfree {l₁ l₂ : List Char}
    (h1 : ∀ c ∈ l₁.drop 1, c ≠ '.') (h2 : ∀ c ∈ l₂, c ≠ '.') :
    ∀ c ∈ (l₁ ++ l₂).drop 1, c ≠ '.' := by
  cases l₁ with
  | nil =>
    intro c hc
    rw [List.nil_append] at hc
    exact h2 c (List.mem_of_mem_drop hc)
  | cons a as =>
    intro c hc
    rw [List.cons_append, List.drop_one, List.tail_cons] at hc
    rcases List.mem_append.mp hc with hc | hc
    · exact h1 c (by rw [List.drop_one, List.tail_cons]; exact hc)
    · exact h2 c hc

theorem dropWhile_dot_of_dotfree {l : List Char} (h : ∀ c ∈ l, c ≠ '.') :
    l.dropWhile (fun c => c == '.') = l := by
  cases l with
  | nil => rfl
  | cons a as =>
    rw [List.dropWhile_cons, if_neg]
    simp only [beq_iff_eq]
    exact h a (List.mem_cons_self _ _)

theorem map_toLower_dotfree {t : List Char} (hdf : ∀ c ∈ t, c ≠ '.') :
    ∀ c ∈ t.map Char.toLower, c ≠ '.' := by
  intro c hc
  rcases List.mem_map.mp hc with ⟨b, hb, rfl⟩
  intro hcc
  exact hdf b hb ((toLower_dot_iff b).mp hcc)

theorem extKey_data_of_shape {nm : String} {t : List Char}
    (hs : (suffixOf nm).data = '.' :: t) (hdf : ∀ c ∈ t, c ≠ '.') :
    (extKey nm).data = t.map Char.toLower := by
  unfold extKey
  rw [stripDots_data, strLower_data, hs]
  have hmap : ('.' :: t).map Char.toLower = '.' :: t.map Char.toLower := by
    rw [List.map_cons]
    have : Char.toLower '.' = '.' := rfl
    rw [this]
  rw [hmap, List.dropWhile_cons, if_pos (by rfl)]
  exact dropWhile_dot_of_dotfree (map_toLower_dotfree hdf)

theorem extKey_empty_iff (nm : String) : extKey nm = "" ↔ suffixOf nm = "" := by
  constructor
  · intro h
    rcases suffix_shape nm with hs | ⟨t, hs, ht, hdf⟩
    · exact hs
    · exfalso
      have hdata : (extKey nm).data = t.map Char.toLower := extKey_data_of_shape hs hdf
      rw [h] at hdata
      have : t.map Char.toLower = [] := hdata.symm
      rw [List.map_eq_nil_iff] at this
      exact ht this
  · intro h
    unfold extKey
    rw [h]
    rfl

theorem bumpName_eq_append (stem sfx : String) (k : Nat) :
    bumpName stem sfx k = (stem ++ "_" ++ Nat.repr k) ++ sfx := by
  unfold bumpName
  apply String.ext
  simp only [String.data_append, List.append_assoc]

theorem bump_sigma_ne_nil (stem : String) (k : Nat) :
    (stem ++ "_" ++ Nat.repr k).data ≠ [] := by
  simp only [String.data_append]
  intro h
  rcases List.append_eq_nil.mp h with ⟨h1, _⟩
  rcases List.append_eq_nil.mp h1 with ⟨_, h2⟩
  cases h2

theorem suffixOf_bump_of_ext {nm : String} {t : List Char}
    (hs : (suffixOf nm).data = '.' :: t) (ht : t ≠ []) (hdf : ∀ c ∈ t, c ≠ '.')
    (k : Nat) : suffixOf (bumpName (stemOf nm) (suffixOf nm) k) = suffixOf nm := by
  rw [bumpName_eq_append]
  exact suffixOf_append_ext _ _ (bump_sigma_ne_nil _ _) t hs ht hdf

theorem extKey_bump_of_ext {nm : String} (hne : extKey nm ≠ "") (k : Nat) :
    extKey (bumpName (stemOf nm) (suffixOf nm) k) = extKey nm := by
  rcases suffix_shape nm with hs | ⟨t, hs, ht, hdf⟩
  · exact absurd ((extKey_empty_iff nm).mpr hs) hne
  · unfold extKey
    rw [suffixOf_bump_of_ext hs ht hdf k]

theorem bump_noext_props {nm : String} (hek : extKey nm = "")
    (htail : tailDotFree nm = true) (k : Nat) :
    extKey (bumpName (stemOf nm) (suffixOf nm) k) = "" ∧
      tailDotFree (bumpName (stemOf nm) (suffixOf nm) k) = true := by
  have hsfx : suffixOf nm = "" := (extKey_empty_iff nm).mp hek
  have hstem : stemOf nm = nm := stemOf_of_suffix_empty hsfx
  have hdata : (bumpName (stemOf nm) (suffixOf nm) k).data =
      nm.data ++ ('_' :: (Nat.repr k).data) := by
    rw [bumpName_eq_append, hstem, hsfx]
    simp only [String.data_append]
    simp
  have htail2 : tailDotFree (bumpName (stemOf nm) (suffixOf nm) k) = true := by
    unfold tailDotFree
    rw [hdata]
    rw [List.all_eq_true]
    intro c hc
    simp only [bne_iff_ne, ne_eq]
    refine dropOne_append_dotfree (tailDotFree_spec htail) ?_ c hc
    intro d hd
    rcases List.mem_cons.mp hd with hd | hd
    · rw [hd]; decide
    · exact repr_ne_dot k d hd
  refine ⟨?_, htail2⟩
  rw [extKey_empty_iff]
  exact suffixOf_of_tailDotFree htail2

theorem candAt_eq_candName (folder : List String) (nm : String) (k : Nat) :
    candAt folder nm k = folder ++ [candName nm k] := by
  unfold candAt candName
  by_cases hk : k = 0
  · rw [if_pos hk, if_pos hk]
  · rw [if_neg hk, if_neg hk]

theorem extKey_candName {nm : String} (hne : extKey nm ≠ "") (k : Nat) :
    extKey (candName nm k) = extKey nm := by
  unfold candName
  by_cases hk : k = 0
  · rw [if_pos hk]
  · rw [if_neg hk]
    exact extKey_bump_of_ext hne k

theorem candName_noext {nm : String} (hek : extKey nm = "")
    (htail : tailDotFree nm = true) (k : Nat) :
    extKey (candName nm k) = "" ∧ tailDotFree (candName nm k) = true := by
  unfold candName
  by_cases hk : k = 0
  · rw [if_pos hk]; exact ⟨hek, htail⟩
  · rw [if_neg hk]
    exact bump_noext_props hek htail k

theorem okName_elim {nm : String} (h : okName nm = true) :
    extKey nm ≠ "" ∨ (extKey nm = "" ∧ tailDotFree nm = true) := by
  unfold okName at h
  by_cases he : extKey nm = ""
  · right
    refine ⟨he, ?_⟩
    rw [Bool.or_eq_true] at h
    rcases h with h | h
    · rw [bne_iff_ne] at h; exact absurd he h
    · exact h
  · exact Or.inl he

theorem cand_okName {nm : String} (h : okName nm = true) (k : Nat) :
    okName (candName nm k) = true := by
  unfold okName
  rcases okName_elim h with he | ⟨he, ht⟩
  · rw [Bool.or_eq_true]
    left
    rw [bne_iff_ne]
    rw [extKey_candName he k]
    exact he
  · rw [Bool.or_eq_true]
    right
    exact (candName_noext he ht k).2

theorem drop_append_left (root x : List String) : (root ++ x).drop root.length = x :=
  List.drop_left root x

theorem cand_anchored {root : List String} {nm : String} (hok : okName nm = true)
    (k : Nat) : AnchoredPath root (candAt (root ++ [extCatOf nm]) nm k) := by
  rw [candAt_eq_candName]
  have hpath : (root ++ [extCatOf nm]) ++ [candName nm k] =
      root ++ [extCatOf nm, candName nm k] := by
    rw [List.append_assoc]
    rfl
  rw [hpath]
  have hdrop : ((root ++ [extCatOf nm, candName nm k]).drop root.length) =
      [extCatOf nm, candName nm k] := drop_append_left root _
  refine ⟨candName nm k, ?_, ?_⟩
  · rw [hdrop]
    rfl
  · rcases okName_elim hok with he | ⟨he, ht⟩
    · left
      rw [hdrop]
      show (strLower (extCatOf nm) == extKey (candName nm k)) = true
      rw [extKey_candName he k]
      unfold extCatOf
      rw [if_neg he, extKey_lower_fix]
      exact beq_self_eq_true _
    · right
      have hcat : extCatOf (candName nm k) = extCatOf nm := by
        unfold extCatOf
        rw [(candName_noext he ht k).1, he]
      rw [hcat]

theorem is_same_self {fs : FS} {p : List String} (h : (findFile fs p).isSome = true) :
    is_same_file fs p p ≠ some false := by
  rcases Option.isSome_iff_exists.mp h with ⟨e, he⟩
  unfold is_same_file
  have hsz : statSize fs p = some e.content.length := by
    unfold statSize
    rw [he]
  rw [hsz]
  dsimp only
  rw [if_neg (by simp)]
  unfold compute_hash
  rw [he]
  dsimp only
  cases e.readable with
  | true => simp
  | false => simp

theorem organizeStep_cases (root : List String) (fs : FS) (p : List String)
    (o? : Option Op) (fs' : FS)
    (h : organizeStep true false root root fs p = .ok (o?, fs')) :
    (∃ nm, (p.drop root.length).getLast? = some nm ∧
      skipCheck (p.drop root.length) nm = true ∧ o? = none ∧ fs' = fs) ∨
    (∃ nm k, (p.drop root.length).getLast? = some nm ∧
      skipCheck (p.drop root.length) nm = false ∧
      (∀ i < k, pathExists (mkdirFS fs (root ++ [extCatOf nm]))
          (candAt (root ++ [extCatOf nm]) nm i) = true ∧
        is_same_file (mkdirFS fs (root ++ [extCatOf nm]))
          (candAt (root ++ [extCatOf nm]) nm i) p = some false) ∧
      ((o? = some ⟨ActKind.skipSame, p, candAt (root ++ [extCatOf nm]) nm k⟩ ∧
        fs' = mkdirFS fs (root ++ [extCatOf nm]) ∧
        pathExists (mkdirFS fs (root ++ [extCatOf nm]))
          (candAt (root ++ [extCatOf nm]) nm k) = true ∧
        is_same_file (mkdirFS fs (root ++ [extCatOf nm]))
          (candAt (root ++ [extCatOf nm]) nm k) p = some true) ∨
       (o? = some ⟨ActKind.move, p, candAt (root ++ [extCatOf nm]) nm k⟩ ∧
        pathExists (mkdirFS fs (root ++ [extCatOf nm]))
          (candAt (root ++ [extCatOf nm]) nm k) = false ∧
        ∃ e, findFile fs p = some e ∧
          fs' = FS.mk (fs.files.filter (fun x => x.path != p) ++
              [{ e with path := candAt (root ++ [extCatOf nm]) nm k }])
            (mkdirFS fs (root ++ [extCatOf nm])).dirs))) := by
  unfold organizeStep at h
  cases hlast : (p.drop root.length).getLast? with
  | none => rw [hlast] at h; cases h
  | some nm =>
    rw [hlast] at h
    dsimp only at h
    by_cases hskip : skipCheck (p.drop root.length) nm = true
    · rw [if_pos hskip] at h
      simp only [Except.ok.injEq, Prod.mk.injEq] at h
      exact Or.inl ⟨nm, rfl, hskip, h.1.symm, h.2.symm⟩
    · have hskip' : skipCheck (p.drop root.length) nm = false := by
        revert hskip; cases skipCheck (p.drop root.length) nm <;> simp
      rw [hskip', if_neg (by simp)] at h
      cases hmk : safe_mkdir fs (root ++ [extCatOf nm]) with
      | none => rw [hmk] at h; cases h
      | some fs1 =>
        rw [hmk] at h
        have hfs1 : fs1 = mkdirFS fs (root ++ [extCatOf nm]) := (safe_mkdir_ok hmk).2
        subst hfs1
        dsimp only at h
        cases hres : resolveLoop (mkdirFS fs (root ++ [extCatOf nm]))
            (root ++ [extCatOf nm]) (stemOf nm) (suffixOf nm) p
            (fuelOf (mkdirFS fs (root ++ [extCatOf nm]))) 1
            ((root ++ [extCatOf nm]) ++ [nm]) with
        | error e => rw [hres] at h; cases h
        | ok pr =>
          rw [hres] at h
          obtain ⟨dest, same⟩ := pr
          have hchar := claim8_loop (mkdirFS fs (root ++ [extCatOf nm]))
            (root ++ [extCatOf nm]) nm p _ dest same hres
          rcases hchar with ⟨k, hk1, hk2, hk3⟩
          cases same with
          | true =>
            dsimp only at h
            simp only [Except.ok.injEq, Prod.mk.injEq] at h
            simp only [if_true] at hk3
            refine Or.inr ⟨nm, k, rfl, hskip', hk2, Or.inl ⟨?_, h.2.symm, hk3.1, hk3.2⟩⟩
            rw [← h.1, hk1]
          | false =>
            dsimp only at h
            rw [if_neg (by simp)] at h
            rw [if_pos (show (true : Bool) = true from rfl)] at h
            cases hmv : moveFile (mkdirFS fs (root ++ [extCatOf nm])) p dest with
            | none => rw [hmv] at h; cases h
            | some fs2 =>
              rw [hmv] at h
              simp only [Except.ok.injEq, Prod.mk.injEq] at h
              simp only [Bool.false_eq_true, if_false] at hk3
              unfold moveFile at hmv
              cases hsrc : findFile (mkdirFS fs (root ++ [extCatOf nm])) p with
              | none => rw [hsrc] at hmv; cases hmv
              | some e =>
                rw [hsrc] at hmv
                rw [Option.some_inj] at hmv
                refine Or.inr ⟨nm, k, rfl, hskip', hk2, Or.inr ⟨?_, hk3, e, hsrc, ?_⟩⟩
                · rw [← h.1, hk1]
                  rfl
                · rw [← h.2, ← hmv, ← hk1]
                  rfl

theorem isDirAt_mkdirFS_mono {fs : FS} {q d : List String}
    (h : isDirAt fs d = true) : isDirAt (mkdirFS fs q) d = true := by
  unfold isDirAt at h ⊢
  have hm : d ∈ fs.dirs := List.mem_of_elem_eq_true h
  exact List.elem_eq_true_of_mem (List.mem_append_left _ hm)

theorem pathExists_pres {fs fs' : FS} {a : List String}
    (hfa : findFile fs' a = findFile fs a)
    (hda : isDirAt fs a = true → isDirAt fs' a = true)
    (hpa : pathExists fs a = true) : pathExists fs' a = true := by
  unfold pathExists at hpa ⊢
  rw [Bool.or_eq_true] at hpa ⊢
  rcases hpa with hpa | hpa
  · left; rw [hfa]; exact hpa
  · right; exact hda hpa

theorem statSize_pres {fs fs' : FS} {a : List String}
    (hfa : findFile fs' a = findFile fs a)
    (hda : isDirAt fs a = true → isDirAt fs' a = true)
    (hpa : pathExists fs a = true) : statSize fs' a = statSize fs a := by
  unfold statSize
  rw [hfa]
  cases hf : findFile fs a with
  | some e => rfl
  | none =>
    dsimp only
    unfold pathExists at hpa
    rw [hf] at hpa
    simp only [Option.isSome_none, Bool.false_or] at hpa
    rw [hpa, hda hpa]

theorem is_same_pres {fs fs' : FS} {a b : List String}
    (hfa : findFile fs' a = findFile fs a) (hfb : findFile fs' b = findFile fs b)
    (hda : isDirAt fs a = true → isDirAt fs' a = true)
    (hdb : isDirAt fs b = true → isDirAt fs' b = true)
    (hpa : pathExists fs a = true) (hpb : pathExists fs b = true) :
    is_same_file fs' a b = is_same_file fs a b := by
  have hha : compute_hash fs' a = compute_hash fs a := by
    unfold compute_hash
    rw [hfa]
  have hhb : compute_hash fs' b = compute_hash fs b := by
    unfold compute_hash
    rw [hfb]
  unfold is_same_file
  rw [statSize_pres hfa hda hpa, statSize_pres hfb hdb hpb, hha, hhb]

theorem StuckAt_trans {fs fs' : FS} {folder : List String} {nm : String}
    {src : List String}
    (hff : ∀ q, pathExists fs q = true → (q = src ∨ ∃ i, q = candAt folder nm i) →
      findFile fs' q = findFile fs q)
    (hdir : ∀ d, isDirAt fs d = true → isDirAt fs' d = true)
    (hsrc : pathExists fs src = true)
    (h : StuckAt fs folder nm src) : StuckAt fs' folder nm src := by
  obtain ⟨j, hj1, hj2, hj3⟩ := h
  have hfsrc : findFile fs' src = findFile fs src := hff src hsrc (Or.inl rfl)
  refine ⟨j, ?_, ?_, ?_⟩
  · intro i hi
    have hPE := (hj1 i hi).1
    have hf := hff _ hPE (Or.inr ⟨i, rfl⟩)
    exact ⟨pathExists_pres hf (hdir _) hPE,
      by rw [is_same_pres hf hfsrc (hdir _) (hdir _) hPE hsrc]; exact (hj1 i hi).2⟩
  · have hf := hff _ hj2 (Or.inr ⟨j, rfl⟩)
    exact pathExists_pres hf (hdir _) hj2
  · have hf := hff _ hj2 (Or.inr ⟨j, rfl⟩)
    rw [is_same_pres hf hfsrc (hdir _) (hdir _) hj2 hsrc]
    exact hj3

theorem stuck_no_free {fs1 : FS} {folder : List String} {nm : String}
    {src : List String} (hst : StuckAt fs1 folder nm src) {k : Nat}
    (hlt : ∀ i < k, pathExists fs1 (candAt folder nm i) = true ∧
      is_same_file fs1 (candAt folder nm i) src = some false)
    (hfree : pathExists fs1 (candAt folder nm k) = false) : False := by
  obtain ⟨j, hj1, hj2, hj3⟩ := hst
  rcases Nat.lt_trichotomy k j with hlt' | heq | hgt
  · have := (hj1 k hlt').1
    rw [hfree] at this
    cases this
  · subst heq
    rw [hfree] at hj2
    cases hj2
  · exact hj3 (hlt j hgt).2

theorem skipCheckPath_of_last {root p : List String} {nm : String}
    (hlast : (p.drop root.length).getLast? = some nm) :
    skipCheckPath root p = skipCheck (p.drop root.length) nm := by
  unfold skipCheckPath
  rw [hlast]

theorem anchored_step (root : List String) (fs : FS) (p : List String)
    (o? : Option Op) (fs' : FS)
    (hanch : AnchoredPath root p) (hsrc : (findFile fs p).isSome = true)
    (h : organizeStep true false root root fs p = .ok (o?, fs')) :
    fs'.files = fs.files ∧ (o? = none ∨ ∃ d, o? = some ⟨ActKind.skipSame, p, d⟩) := by
  rcases organizeStep_cases root fs p o? fs' h with
    ⟨nm, hlast, hskip, ho, hfs⟩ | ⟨nm, k, hlast, hskip, hk2, hbr⟩
  · exact ⟨by rw [hfs], Or.inl ho⟩
  · rcases hanch with ⟨nm', hlast', hdisj⟩
    rw [hlast, Option.some_inj] at hlast'
    subst hlast'
    rcases hdisj with hsk | hp
    · rw [hsk] at hskip
      cases hskip
    · have hcand0 : candAt (root ++ [extCatOf nm]) nm 0 = p := by
        unfold candAt
        rw [if_pos rfl, hp, List.append_assoc]
        rfl
      have hsrc1 : (findFile (mkdirFS fs (root ++ [extCatOf nm])) p).isSome = true := hsrc
      rcases hbr with ⟨ho, hfs, _, _⟩ | ⟨ho, hkfree, e, hsrcE, hfs⟩
      · exact ⟨by rw [hfs]; rfl, Or.inr ⟨_, ho⟩⟩
      · exfalso
        cases k with
        | zero =>
          rw [hcand0] at hkfree
          unfold pathExists at hkfree
          rw [hsrc1] at hkfree
          cases hkfree
        | succ k' =>
          have h0 := (hk2 0 (Nat.succ_pos k')).2
          rw [hcand0] at h0
          exact is_same_self hsrc1 h0

theorem stuck_step (root : List String) (fs : FS) (p : List String)
    (o? : Option Op) (fs' : FS)
    (hstuck : StuckSelf root fs p) (hsrc : (findFile fs p).isSome = true)
    (h : organizeStep true false root root fs p = .ok (o?, fs')) :
    fs'.files = fs.files ∧ (o? = none ∨ ∃ d, o? = some ⟨ActKind.skipSame, p, d⟩) := by
  rcases organizeStep_cases root fs p o? fs' h with
    ⟨nm, hlast, hskip, ho, hfs⟩ | ⟨nm, k, hlast, hskip, hk2, hbr⟩
  · exact ⟨by rw [hfs], Or.inl ho⟩
  · obtain ⟨nm', hlast', hok', hstAt⟩ := hstuck
    rw [hlast, Option.some_inj] at hlast'
    subst hlast'
    have hpsrc : pathExists fs p = true := by
      unfold pathExists
      rw [hsrc]
      rfl
    have hstAt1 : StuckAt (mkdirFS fs (root ++ [extCatOf nm])) (root ++ [extCatOf nm])
        nm p := by
      refine StuckAt_trans ?_ (fun d => isDirAt_mkdirFS_mono) hpsrc hstAt
      intro q _ _
      rfl
    rcases hbr with ⟨ho, hfs, _, _⟩ | ⟨ho, hkfree, e, hsrcE, hfs⟩
    · exact ⟨by rw [hfs]; rfl, Or.inr ⟨_, ho⟩⟩
    · exact (stuck_no_free hstAt1 hk2 hkfree).elim

theorem run2_go (root : List String) (ig : List String) (fs1 : FS) :
    ∀ (rem : List (List String)) (fs : FS) (ops : List Op) (fsE : FS),
      organizeGo true false root root fs rem = .ok (ops, fsE) →
      (∀ p ∈ rem, (findFile fs1 p).isSome = true) →
      (∀ p ∈ rem, skipCheckPath root p = true ∨ StuckSelf root fs1 p) →
      fs.files = fs1.files →
      (∀ d, isDirAt fs1 d = true → isDirAt fs d = true) →
      ∀ op ∈ ops, op.act = ActKind.skipSame := by
  intro rem
  induction rem with
  | nil =>
    intro fs ops fsE h _ _ _ _ op hop
    simp only [organizeGo, Except.ok.injEq, Prod.mk.injEq] at h
    rw [← h.1] at hop
    cases hop
  | cons p rem' ih =>
    intro fs ops fsE h hex hdone hfiles hdirs op hop
    simp only [organizeGo] at h
    cases hstep : organizeStep true false root root fs p with
    | error e => rw [hstep] at h; cases h
    | ok pr =>
      rw [hstep] at h
      obtain ⟨o?, fsn⟩ := pr
      dsimp only at h
      cases hgo : organizeGo true false root root fsn rem' with
      | error e => rw [hgo] at h; cases h
      | ok pr2 =>
        rw [hgo] at h
        obtain ⟨ops1, fs2⟩ := pr2
        dsimp only at h
        simp only [Except.ok.injEq, Prod.mk.injEq] at h
        have hsrcp : (findFile fs p).isSome = true := by
          rw [findFile_files_congr hfiles]
          exact hex p (List.mem_cons_self _ _)
        have hstepgood : fsn.files = fs.files ∧
            (o? = none ∨ ∃ d, o? = some ⟨ActKind.skipSame, p, d⟩) := by
          rcases hdone p (List.mem_cons_self _ _) with hsk | hstuck
          · rcases organizeStep_cases root fs p o? fsn hstep with
              ⟨nm, hlast, _, ho, hfs⟩ | ⟨nm, k, hlast, hskipF, _, _⟩
            · exact ⟨by rw [hfs], Or.inl ho⟩
            · rw [skipCheckPath_of_last hlast, hskipF] at hsk
              cases hsk
          · have hstuckfs : StuckSelf root fs p := by
              obtain ⟨nm, hlast, hok, hstAt⟩ := hstuck
              refine ⟨nm, hlast, hok, ?_⟩
              refine StuckAt_trans (fun q _ _ => findFile_files_congr hfiles q)
                hdirs ?_ hstAt
              unfold pathExists
              rw [hex p (List.mem_cons_self _ _)]
              rfl
            exact stuck_step root fs p o? fsn hstuckfs hsrcp hstep
        rcases hstepgood with ⟨hfilesn, hops⟩
        have hrest : ∀ op ∈ ops1, op.act = ActKind.skipSame := by
          refine ih fsn ops1 fs2 hgo
            (fun q hq => hex q (List.mem_cons_of_mem _ hq))
            (fun q hq => hdone q (List.mem_cons_of_mem _ hq))
            (by rw [hfilesn, hfiles]) ?_
          intro d hd
          rcases organizeStep_cases root fs p o? fsn hstep with
            ⟨_, _, _, _, hfs⟩ | ⟨nm, k, _, _, _, hbr⟩
          · rw [hfs]; exact hdirs d hd
          · rcases hbr with ⟨_, hfs, _, _⟩ | ⟨_, _, e, _, hfs⟩
            · rw [hfs]
              exact isDirAt_mkdirFS_mono (hdirs d hd)
            · rw [hfs]
              show isDirAt (mkdirFS fs (root ++ [extCatOf nm])) d = true
              exact isDirAt_mkdirFS_mono (hdirs d hd)
        rw [← h.1] at hop
        rcases List.mem_append.mp hop with hop | hop
        · rcases hops with ho | ⟨d, ho⟩
          · rw [ho] at hop
            cases hop
          · rw [ho] at hop
            rcases List.mem_singleton.mp hop with rfl
            rfl
        · exact hrest op hop

theorem findFile_isSome_of_mem {fs : FS} {e : FEntry} (h : e ∈ fs.files) :
    (findFile fs e.path).isSome = true := by
  unfold findFile
  rw [List.find?_isSome]
  exact ⟨e, h, by simp⟩

theorem pathExists_mkdirFS_mono {fs : FS} {x q : List String}
    (h : pathExists fs q = true) : pathExists (mkdirFS fs x) q = true := by
  refine pathExists_pres (show findFile (mkdirFS fs x) q = findFile fs q from rfl) ?_ h
  exact fun hd => isDirAt_mkdirFS_mono hd

theorem find?_none_filter {files : List FEntry} {q : List String}
    (h : files.find? (fun e => e.path == q) = none) (pred : FEntry → Bool) :
    (files.filter pred).find? (fun e => e.path == q) = none := by
  rw [List.find?_eq_none] at h ⊢
  intro x hx
  exact h x (List.mem_of_mem_filter hx)

theorem findFile_move_pres {fs fsn : FS} {p dest : List String} {e : FEntry}
    (hfsn : fsn.files = fs.files.filter (fun x => x.path != p) ++
      [{ e with path := dest }])
    {q : List String} (hqp : q ≠ p) (hqd : q ≠ dest) :
    findFile fsn q = findFile fs q := by
  unfold findFile
  rw [hfsn, List.find?_append]
  have hback : List.find? (fun x => x.path == q) [{ e with path := dest }] = none := by
    have hne : (({ e with path := dest } : FEntry).path == q) = false := by
      simp only [beq_eq_false_iff_ne, ne_eq]
      intro hh
      exact hqd (hh.symm)
    simp only [List.find?, hne]
  rw [hback]
  rw [find?_filter_path_ne fs.files q p (fun hh => hqp hh)]
  cases hres : fs.files.find? (fun x => x.path == q) with
  | some x => rfl
  | none => rfl

theorem findFile_move_new {fs fsn : FS} {p dest : List String} {e : FEntry}
    (hfsn : fsn.files = fs.files.filter (fun x => x.path != p) ++
      [{ e with path := dest }])
    (hfresh : findFile fs dest = none) :
    findFile fsn dest = some { e with path := dest } := by
  unfold findFile
  rw [hfsn, List.find?_append]
  have hfront : (fs.files.filter (fun x => x.path != p)).find?
      (fun x => x.path == dest) = none :=
    find?_none_filter hfresh _
  rw [hfront]
  simp only [Option.none_or, List.find?]
  rw [show (({ e with path := dest } : FEntry).path == dest) = true from by simp]

theorem mem_filter_path {files : List FEntry} {p : List String} {e : FEntry}
    (h : e ∈ files.filter (fun x => x.path != p)) : e ∈ files ∧ e.path ≠ p := by
  rcases List.mem_filter.mp h with ⟨h1, h2⟩
  rw [bne_iff_ne] at h2
  exact ⟨h1, h2⟩

theorem pathExists_of_mem {fs : FS} {e : FEntry} (h : e ∈ fs.files) :
    pathExists fs e.path = true := by
  unfold pathExists
  rw [findFile_isSome_of_mem h]
  rfl

theorem getLast_append_pair (root : List String) (a b : String) :
    (root ++ [a, b]).getLast? = some b := by
  have : root ++ [a, b] = (root ++ [a]) ++ [b] := by
    rw [List.append_assoc]
    rfl
  rw [this, List.getLast?_concat]

theorem run1_main (root ig : List String) :
    ∀ (rem : List (List String)) (fs : FS) (ops : List Op) (fs' : FS),
      organizeGo true false root root fs rem = .ok (ops, fs') →
      rem.Nodup →
      (∀ p ∈ rem, ∀ nm, (p.drop root.length).getLast? = some nm → okName nm = true) →
      (∀ p ∈ rem, (findFile fs p).isSome = true) →
      (∀ e ∈ fs.files, e.path ∈ rem ∨ DoneE root rem fs e.path ∨
        UnscannedP root ig e.path) →
      ∀ e ∈ fs'.files, DoneE root [] fs' e.path ∨ UnscannedP root ig e.path := by
  intro rem
  induction rem with
  | nil =>
    intro fs ops fs' h _ _ _ hinv e he
    simp only [organizeGo, Except.ok.injEq, Prod.mk.injEq] at h
    rw [← h.2] at he ⊢
    rcases hinv e he with hmem | hD | hU
    · cases hmem
    · exact Or.inl hD
    · exact Or.inr hU
  | cons p rem' ih =>
    intro fs ops fs' h hnd hnames hex hinv
    simp only [organizeGo] at h
    cases hstep : organizeStep true false root root fs p with
    | error e0 => rw [hstep] at h; cases h
    | ok pr =>
      rw [hstep] at h
      obtain ⟨o?, fsn⟩ := pr
      dsimp only at h
      cases hgo : organizeGo true false root root fsn rem' with
      | error e0 => rw [hgo] at h; cases h
      | ok pr2 =>
        rw [hgo] at h
        obtain ⟨ops1, fs2⟩ := pr2
        dsimp only at h
        simp only [Except.ok.injEq, Prod.mk.injEq] at h
        have hpnotin : p ∉ rem' := (List.nodup_cons.mp hnd).1
        rw [← h.2]
        rcases organizeStep_cases root fs p o? fsn hstep with
          ⟨nm, hlast, hskipT, ho, hfsn⟩ | ⟨nm, k, hlast, hskipF, hk2, hbr⟩
        · -- already-organized skip: state unchanged
          subst hfsn
          refine ih _ ops1 fs2 hgo (List.nodup_cons.mp hnd).2
            (fun q hq => hnames q (List.mem_cons_of_mem _ hq))
            (fun q hq => hex q (List.mem_cons_of_mem _ hq)) ?_
          intro e2 he2
          rcases hinv e2 he2 with hmem | hD | hU
          · rcases List.mem_cons.mp hmem with hep | hmem'
            · refine Or.inr (Or.inl (Or.inl ?_))
              rw [hep, skipCheckPath_of_last hlast]
              exact hskipT
            · exact Or.inl hmem'
          · rcases hD with hD | ⟨hni, hss⟩
            · exact Or.inr (Or.inl (Or.inl hD))
            · exact Or.inr (Or.inl (Or.inr
                ⟨fun hc => hni (List.mem_cons_of_mem _ hc), hss⟩))
          · exact Or.inr (Or.inr hU)
        · rcases hbr with ⟨ho, hfsn, hkE, hkS⟩ | ⟨ho, hkfree, eM, hsrcE, hfsn⟩
          · -- collision loop found identical content: skip_same, files unchanged
            subst hfsn
            refine ih (mkdirFS fs (root ++ [extCatOf nm])) ops1 fs2 hgo
              (List.nodup_cons.mp hnd).2
              (fun q hq => hnames q (List.mem_cons_of_mem _ hq))
              (fun q hq => hex q (List.mem_cons_of_mem _ hq)) ?_
            intro e2 he2
            have he2f : e2 ∈ fs.files := he2
            rcases hinv e2 he2f with hmem | hD | hU
            · rcases List.mem_cons.mp hmem with hep | hmem'
              · refine Or.inr (Or.inl (Or.inr ⟨?_, ?_⟩))
                · rw [hep]; exact hpnotin
                · rw [hep]
                  refine ⟨nm, hlast, hnames p (List.mem_cons_self _ _) nm hlast,
                    k, hk2, hkE, ?_⟩
                  rw [hkS]
                  simp
              · exact Or.inl hmem'
            · rcases hD with hD | ⟨hni, hss⟩
              · exact Or.inr (Or.inl (Or.inl hD))
              · refine Or.inr (Or.inl (Or.inr
                  ⟨fun hc => hni (List.mem_cons_of_mem _ hc), ?_⟩))
                obtain ⟨nm₂, hlast₂, hok₂, hstAt₂⟩ := hss
                refine ⟨nm₂, hlast₂, hok₂, ?_⟩
                refine StuckAt_trans ?_ (fun d hd => isDirAt_mkdirFS_mono hd)
                  (pathExists_of_mem he2f) hstAt₂
                intro q _ _
                rfl
            · exact Or.inr (Or.inr hU)
          · -- genuine move to a fresh numbered destination
            subst hfsn
            have hokp : okName nm = true := hnames p (List.mem_cons_self _ _) nm hlast
            have hnotanch : ¬ AnchoredPath root p := by
              intro hanch
              rcases (anchored_step root fs p o? _ hanch
                  (hex p (List.mem_cons_self _ _)) hstep).2 with h0 | ⟨d, h0⟩
              · rw [ho] at h0; cases h0
              · rw [ho, Option.some_inj] at h0
                cases h0
            have hfiles : (FS.mk (fs.files.filter (fun x => x.path != p) ++
                [{ eM with path := candAt (root ++ [extCatOf nm]) nm k }])
                (mkdirFS fs (root ++ [extCatOf nm])).dirs).files =
              fs.files.filter (fun x => x.path != p) ++
                [{ eM with path := candAt (root ++ [extCatOf nm]) nm k }] := rfl
            have hfreshfs : findFile fs (candAt (root ++ [extCatOf nm]) nm k) = none := by
              have hkf2 : pathExists fs (candAt (root ++ [extCatOf nm]) nm k) = false := by
                cases hpe : pathExists fs (candAt (root ++ [extCatOf nm]) nm k) with
                | false => rfl
                | true =>
                  rw [pathExists_mkdirFS_mono hpe] at hkfree
                  cases hkfree
              unfold pathExists at hkf2
              rw [Bool.or_eq_false_iff] at hkf2
              rcases Option.not_isSome_iff_eq_none.mp (by rw [hkf2.1]; simp) with hnone
              exact hnone
            have hfreshPE : pathExists fs (candAt (root ++ [extCatOf nm]) nm k) = false := by
              cases hpe : pathExists fs (candAt (root ++ [extCatOf nm]) nm k) with
              | false => rfl
              | true =>
                rw [pathExists_mkdirFS_mono hpe] at hkfree
                cases hkfree
            have hdirn : ∀ d, isDirAt fs d = true →
                isDirAt (FS.mk (fs.files.filter (fun x => x.path != p) ++
                  [{ eM with path := candAt (root ++ [extCatOf nm]) nm k }])
                  (mkdirFS fs (root ++ [extCatOf nm])).dirs) d = true := by
              intro d hd
              show isDirAt (mkdirFS fs (root ++ [extCatOf nm])) d = true
              exact isDirAt_mkdirFS_mono hd
            refine ih _ ops1 fs2 hgo (List.nodup_cons.mp hnd).2
              (fun q hq => hnames q (List.mem_cons_of_mem _ hq)) ?_ ?_
            · intro q hq
              have hqp : q ≠ p := fun hc => hpnotin (hc ▸ hq)
              have hqd : q ≠ candAt (root ++ [extCatOf nm]) nm k := by
                intro hc
                have := hex q (List.mem_cons_of_mem _ hq)
                rw [hc, hfreshfs] at this
                cases this
              rw [findFile_move_pres hfiles hqp hqd]
              exact hex q (List.mem_cons_of_mem _ hq)
            · intro e2 he2
              rw [hfiles] at he2
              rcases List.mem_append.mp he2 with he2f | he2n
              · rcases mem_filter_path he2f with ⟨he2m, he2p⟩
                rcases hinv e2 he2m with hmem | hD | hU
                · rcases List.mem_cons.mp hmem with hep | hmem'
                  · exact absurd hep he2p
                  · exact Or.inl hmem'
                · rcases hD with hD | ⟨hni, hss⟩
                  · exact Or.inr (Or.inl (Or.inl hD))
                  · refine Or.inr (Or.inl (Or.inr
                      ⟨fun hc => hni (List.mem_cons_of_mem _ hc), ?_⟩))
                    obtain ⟨nm₂, hlast₂, hok₂, hstAt₂⟩ := hss
                    refine ⟨nm₂, hlast₂, hok₂, ?_⟩
                    refine StuckAt_trans ?_ hdirn (pathExists_of_mem he2m) hstAt₂
                    intro q hqPE hqc
                    have hqd : q ≠ candAt (root ++ [extCatOf nm]) nm k := by
                      intro hc
                      rw [hc, hfreshPE] at hqPE
                      cases hqPE
                    have hqp : q ≠ p := by
                      rcases hqc with hqs | ⟨i, hqi⟩
                      · rw [hqs]; exact he2p
                      · intro hc
                        apply hnotanch
                        rw [← hc, hqi]
                        exact cand_anchored hok₂ i
                    exact findFile_move_pres hfiles hqp hqd
                · exact Or.inr (Or.inr hU)
              · rw [List.mem_singleton] at he2n
                subst he2n
                have hpath : ({ eM with path := candAt (root ++ [extCatOf nm]) nm k} :
                    FEntry).path = candAt (root ++ [extCatOf nm]) nm k := rfl
                rw [hpath]
                have hfnew : findFile (FS.mk (fs.files.filter (fun x => x.path != p) ++
                    [{ eM with path := candAt (root ++ [extCatOf nm]) nm k }])
                    (mkdirFS fs (root ++ [extCatOf nm])).dirs)
                    (candAt (root ++ [extCatOf nm]) nm k) =
                    some { eM with path := candAt (root ++ [extCatOf nm]) nm k } :=
                  findFile_move_new hfiles hfreshfs
                rcases @cand_anchored root nm hokp k with ⟨nm₂, hlast₂, hd₂⟩
                rcases hd₂ with hskC | hselfF
                · refine Or.inr (Or.inl (Or.inl ?_))
                  rw [skipCheckPath_of_last hlast₂]
                  exact hskC
                · have hnm₂ : nm₂ = candName nm k := by
                    have h1 : (candAt (root ++ [extCatOf nm]) nm k).getLast? =
                        some (candName nm k) := by
                      rw [candAt_eq_candName, List.getLast?_concat]
                    have h2 : (candAt (root ++ [extCatOf nm]) nm k).getLast? =
                        some nm₂ := by
                      rw [hselfF, getLast_append_pair]
                    rw [h1, Option.some_inj] at h2
                    exact h2.symm
                  refine Or.inr (Or.inl (Or.inr ⟨?_, ?_⟩))
                  · intro hc
                    have := hex _ (List.mem_cons_of_mem _ hc)
                    rw [hfreshfs] at this
                    cases this
                  · refine ⟨nm₂, hlast₂, by rw [hnm₂]; exact cand_okName hokp k,
                      0, by omega, ?_, ?_⟩
                    · have hcand0 : candAt (root ++ [extCatOf nm₂]) nm₂ 0 =
                          candAt (root ++ [extCatOf nm]) nm k := by
                        unfold candAt
                        rw [if_pos rfl, List.append_assoc]
                        exact hselfF.symm
                      rw [hcand0]
                      unfold pathExists
                      rw [hfnew]
                      rfl
                    · have hcand0 : candAt (root ++ [extCatOf nm₂]) nm₂ 0 =
                          candAt (root ++ [extCatOf nm]) nm k := by
                        unfold candAt
                        rw [if_pos rfl, List.append_assoc]
                        exact hselfF.symm
                      rw [hcand0]
                      apply is_same_self
                      rw [hfnew]
                      rfl

theorem segsLead_refl (l : List String) : segsLead l l = true := by
  induction l with
  | nil => rfl
  | cons a as ih => simp [segsLead, ih]

theorem mem_filesUnder {fs : FS} {e : FEntry} (he : e ∈ fs.files) :
    e.path ∈ filesUnder fs e.path.dropLast := by
  unfold filesUnder
  refine List.mem_map_of_mem _ (List.mem_filter.mpr ⟨he, ?_⟩)
  simp

theorem mem_walkDirs {fs : FS} {root d : List String}
    (hd : d ∈ fs.dirs) (hlead : segsLead root d = true) :
    d ∈ walkDirs fs root := by
  unfold walkDirs
  by_cases hdr : d = root
  · subst hdr
    rw [if_pos (List.elem_eq_true_of_mem hd)]
    exact List.mem_append_left _ (List.mem_singleton.mpr rfl)
  · refine List.mem_append_right _ (List.mem_filter.mpr ⟨hd, ?_⟩)
    rw [Bool.and_eq_true]
    exact ⟨hlead, by simpa using hdr⟩

theorem scanLoop_complete (fs : FS) (ig : List String) :
    ∀ (ds : List (List String)) (d : List String) (p : List String),
      d ∈ ds → ignoredDir ig d = false → p ∈ filesUnder fs d →
      p ∈ scanLoop fs true ig ds := by
  intro ds
  induction ds with
  | nil => intro d p hd _ _; cases hd
  | cons d0 ds' ih =>
    intro d p hd hig hp
    simp only [scanLoop]
    rcases List.mem_cons.mp hd with hd0 | hd'
    · subst hd0
      rw [hig]
      rw [if_neg (by simp)]
      exact List.mem_append_left _ hp
    · by_cases hig0 : ignoredDir ig d0 = true
      · rw [if_pos hig0]
        exact ih d p hd' hig hp
      · have hig0' : ignoredDir ig d0 = false := by
          revert hig0; cases ignoredDir ig d0 <;> simp
        rw [hig0', if_neg (by simp)]
        refine List.mem_append_right _ ?_
        simp only [if_true]
        exact ih d p hd' hig hp

theorem scan_complete {fs : FS} {root ig : List String} {e : FEntry}
    (he : e ∈ fs.files) (hpp : e.path.dropLast ∈ fs.dirs)
    (hig : ignoredDir ig e.path.dropLast = false)
    (hlead : segsLead root e.path.dropLast = true) :
    e.path ∈ scan_files fs root true ig := by
  unfold scan_files
  exact scanLoop_complete fs ig (walkDirs fs root) e.path.dropLast e.path
    (mem_walkDirs hpp hlead) hig (mem_filesUnder he)

theorem walkDirs_lead {fs : FS} {root d : List String} (hd : d ∈ walkDirs fs root) :
    segsLead root d = true := by
  unfold walkDirs at hd
  rcases List.mem_append.mp hd with hd | hd
  · by_cases hc : fs.dirs.contains root = true
    · rw [if_pos hc] at hd
      rw [List.mem_singleton.mp hd]
      exact segsLead_refl root
    · rw [if_neg hc] at hd
      cases hd
  · rcases List.mem_filter.mp hd with ⟨_, hpred⟩
    rw [Bool.and_eq_true] at hpred
    exact hpred.1

theorem scanned_not_unscanned {fs : FS} {root ig : List String} {p : List String}
    (hp : p ∈ scan_files fs root true ig) : ¬ UnscannedP root ig p := by
  rcases scanLoop_dir_mem fs true ig (walkDirs fs root) p hp with ⟨d, hdw, hig, hpd⟩
  have hdl : p.dropLast = d := filesUnder_dropLast hpd
  intro hU
  rcases hU with hU | hU
  · rw [hdl, hig] at hU
    cases hU
  · rw [hdl, walkDirs_lead hdw] at hU
    cases hU

theorem organize_twice_skipSame (fs0 : FS) (root ig : List String)
    (ops1 ops2 : List Op) (fs1 fs2 : FS)
    (hpp : ∀ e ∈ fs0.files, e.path.dropLast ∈ fs0.dirs)
    (hnd : (scan_files fs0 root true ig).Nodup)
    (hok : ∀ p ∈ scan_files fs0 root true ig, ∀ nm,
      (p.drop root.length).getLast? = some nm → okName nm = true)
    (h1 : organize_files fs0 root none false true ig = .ok (ops1, fs1))
    (h2 : organize_files fs1 root none false true ig = .ok (ops2, fs2)) :
    ∀ op ∈ ops2, op.act = ActKind.skipSame := by
  have hinv1 : ∀ e ∈ fs1.files, DoneE root [] fs1 e.path ∨ UnscannedP root ig e.path := by
    refine run1_main root ig (scan_files fs0 root true ig) fs0 ops1 fs1 h1 hnd hok
      (fun p hp => scan_mem_isSome hp) ?_
    intro e he
    by_cases hU : UnscannedP root ig e.path
    · exact Or.inr (Or.inr hU)
    · left
      have hig : ignoredDir ig e.path.dropLast = false := by
        cases hr : ignoredDir ig e.path.dropLast with
        | false => rfl
        | true => exact absurd (Or.inl hr) hU
      have hlead : segsLead root e.path.dropLast = true := by
        cases hr : segsLead root e.path.dropLast with
        | true => rfl
        | false => exact absurd (Or.inr hr) hU
      exact scan_complete he (hpp e he) hig hlead
  refine run2_go root ig fs1 (scan_files fs1 root true ig) fs1 ops2 fs2 h2
    (fun p hp => scan_mem_isSome hp) ?_ rfl (fun d hd => hd)
  intro p hp
  have hsome := scan_mem_isSome hp
  rcases Option.isSome_iff_exists.mp hsome with ⟨e, he⟩
  have hfind : fs1.files.find? (fun x => x.path == p) = some e := he
  have hmem : e ∈ fs1.files := List.mem_of_find?_eq_some hfind
  have hpath : e.path = p := by
    have := List.find?_some hfind
    exact eq_of_beq this
  rcases hinv1 e hmem with hD | hU
  · rw [hpath] at hD
    rcases hD with hD | ⟨_, hss⟩
    · exact Or.inl hD
    · exact Or.inr hss
  · rw [hpath] at hU
    exact absurd hU (scanned_not_unscanned hp)

/-- C6, counterexample: with the trailing-dot name `a.` the first organize
run moves `no_ext/a._1` into a new `_1` category folder, and the second run
then emits a genuine Move for `a.` — not only SkipSame actions. -/
theorem claim6_cex :
    fsOf (organize_files fxDot ["root"] none false true []) = some fxDot1 ∧
    opsOf (organize_files fxDot1 ["root"] none false true []) =
      some [⟨ActKind.move, ["root", "a."], ["root", "no_ext", "a._1"]⟩,
            ⟨ActKind.skipSame, ["root", "no_ext", "a."], ["root", "no_ext", "a."]⟩] ∧
    ¬ ∀ op ∈ [(⟨ActKind.move, ["root", "a."], ["root", "no_ext", "a._1"]⟩ : Op),
            ⟨ActKind.skipSame, ["root", "no_ext", "a."], ["root", "no_ext", "a."]⟩],
        op.act = ActKind.skipSame := by
  refine ⟨rfl, rfl, ?_⟩
  intro hall
  have := hall ⟨ActKind.move, ["root", "a."], ["root", "no_ext", "a._1"]⟩
    (List.mem_cons_self _ _)
  cases this

/-- C6, amended: on a snapshot whose scanned filenames are well formed —
non-empty extension key, or no dot past the first character — and whose
scan list has no duplicates and whose files sit in recorded directories,
running organize with move=true twice emits only SkipSame actions on the
second run. The unrestricted claim fails for names like `a.` whose numbered
variant `a._1` acquires the extension `_1` — see `claim6_cex`. -/
theorem claim6_thm (fs0 : FS) (root ig : List String)
    (ops1 ops2 : List Op) (fs1 fs2 : FS)
    (hpp : ∀ e ∈ fs0.files, e.path.dropLast ∈ fs0.dirs)
    (hnd : (scan_files fs0 root true ig).Nodup)
    (hok : ∀ p ∈ scan_files fs0 root true ig, ∀ nm,
      (p.drop root.length).getLast? = some nm → okName nm = true)
    (h1 : organize_files fs0 root none false true ig = .ok (ops1, fs1))
    (h2 : organize_files fs1 root none false true ig = .ok (ops2, fs2)) :
    ∀ op ∈ ops2, op.act = ActKind.skipSame :=
  organize_twice_skipSame fs0 root ig ops1 ops2 fs1 fs2 hpp hnd hok h1 h2

/-- C6, witness: `claim6_thm` applied to a two-file snapshot whose second
run consists of one SkipSame action. -/
theorem claim6_witness :
    (([⟨ActKind.skipSame, ["root", "b", "f.txt"], ["root", "txt", "f.txt"]⟩] :
        List Op).all (fun op => op.act == ActKind.skipSame)) = true := by
  have h := claim6_thm fxW6 ["root"] []
    [⟨ActKind.move, ["root", "a", "f.txt"], ["root", "txt", "f.txt"]⟩,
     ⟨ActKind.skipSame, ["root", "b", "f.txt"], ["root", "txt", "f.txt"]⟩]
    [⟨ActKind.skipSame, ["root", "b", "f.txt"], ["root", "txt", "f.txt"]⟩]
    fxW6b fxW6b (by decide) (by decide) ?_ rfl rfl
  · refine List.all_eq_true.mpr ?_
    intro op hop
    rw [beq_iff_eq]
    exact h op hop
  · intro p hp nm hnm
    have hscan : scan_files fxW6 ["root"] true [] =
        [["root", "a", "f.txt"], ["root", "b", "f.txt"]] := rfl
    rw [hscan] at hp
    rcases List.mem_cons.mp hp with hp1 | hp2
    · subst hp1
      have : (some "f.txt" : Option String) = some nm := hnm
      rw [Option.some_inj] at this
      rw [← this]
      decide
    · rcases List.mem_singleton.mp hp2 with rfl
      have : (some "f.txt" : Option String) = some nm := hnm
      rw [Option.some_inj] at this
      rw [← this]
      decide

/-- C7, counterexample: for an extensionless file inside `no_ext/` the
spec's predicate — first segment equals the extension category with its
`no_ext` fallback — says skip, but the code compares against the raw empty
key and emits an action for the file. -/
theorem claim7_cex :
    specSkip ["no_ext", "data"] "data" = true ∧
    opsOf (organize_files fxNoExt ["root"] none false true []) =
      some [⟨ActKind.skipSame, ["root", "no_ext", "data"], ["root", "no_ext", "data"]⟩] ∧
    ¬ NoActionFor
        [⟨ActKind.skipSame, ["root", "no_ext", "data"], ["root", "no_ext", "data"]⟩]
        ["root", "no_ext", "data"] := by
  refine ⟨by decide, rfl, ?_⟩
  intro hno
  exact hno ⟨ActKind.skipSame, ["root", "no_ext", "data"], ["root", "no_ext", "data"]⟩
    (List.mem_cons_self _ _) rfl

/-- C7, amended: organize emits no action for a scanned file exactly when
its path relative to root has at least two segments and the lower-cased
first segment equals the raw extension key — the suffix lower-cased with
dots stripped, with no `no_ext` fallback (src/main.py:86 uses
`f.suffix.lower().lstrip('.')`, never the `no_ext` category). -/
theorem claim7_thm (fs : FS) (root : List String) (tgt? : Option (List String))
    (dry mv : Bool) (ig : List String) (ops : List Op) (fs' : FS) (p : List String)
    (hok : organize_files fs root tgt? dry mv ig = .ok (ops, fs'))
    (hp : p ∈ scan_files fs root true ig) :
    NoActionFor ops p ↔ skipCheckPath root p = true :=
  claim7_main fs root tgt? dry mv ig ops fs' p hok hp

/-- C7, witness: the equivalence of `claim7_thm` evaluated on the
`no_ext/data` fixture, where the skip test is false and an action exists. -/
theorem claim7_witness :
    (NoActionFor
        [⟨ActKind.skipSame, ["root", "no_ext", "data"], ["root", "no_ext", "data"]⟩]
        ["root", "no_ext", "data"] ↔
      skipCheckPath ["root"] ["root", "no_ext", "data"] = true) :=
  claim7_thm fxNoExt ["root"] none false true []
    [⟨ActKind.skipSame, ["root", "no_ext", "data"], ["root", "no_ext", "data"]⟩]
    fxNoExt ["root", "no_ext", "data"] rfl (by decide)

/-- C8: the collision loop stops at the first candidate, in the order
`name`, `stem_1.ext`, `stem_2.ext`, …, that is free (Move/Copy) or
content-identical (SkipSame); every earlier candidate existed with different
content, so the numbered suffixes grow strictly from 1 and are never reused;
and every recorded operation of `organize_files` is produced by one such
loop run. -/
theorem claim8_thm :
    (∀ (fs : FS) (folder : List String) (name : String) (src : List String)
        (fuel : Nat) (d : List String) (same : Bool),
      resolveLoop fs folder (stemOf name) (suffixOf name) src fuel 1
        (folder ++ [name]) = .ok (d, same) →
      CollisionResolved fs folder name src d same) ∧
    (∀ (mv dry : Bool) (root target : List String) (fs : FS) (p : List String)
        (op : Op) (fs' : FS),
      organizeStep mv dry root target fs p = .ok (some op, fs') →
      StepUsesLoop mv root target fs p op) :=
  ⟨claim8_loop, claim8_step⟩

/-- C8, witness: a collision that bumps `f.txt` to `f_1.txt`, both as a
bare loop run and as a full `organizeStep`. -/
theorem claim8_witness :
    CollisionResolved fxC8 ["root", "txt"] "f.txt" ["root", "x", "f.txt"]
      ["root", "txt", "f_1.txt"] false ∧
    StepUsesLoop true ["root"] ["root"] fxC8 ["root", "x", "f.txt"]
      ⟨ActKind.move, ["root", "x", "f.txt"], ["root", "txt", "f_1.txt"]⟩ :=
  ⟨claim8_thm.1 fxC8 ["root", "txt"] "f.txt" ["root", "x", "f.txt"] 7
      ["root", "txt", "f_1.txt"] false rfl,
   claim8_thm.2 true false ["root"] ["root"] fxC8 ["root", "x", "f.txt"]
      ⟨ActKind.move, ["root", "x", "f.txt"], ["root", "txt", "f_1.txt"]⟩
      (FS.mk
        [⟨["root", "txt", "f.txt"], [1], 0, true, true⟩,
         ⟨["root", "txt", "f_1.txt"], [2, 2], 1, true, true⟩]
        [["root"], ["root", "txt"], ["root", "x"]]) rfl⟩

/-- C9: no scanned file lies in a directory whose rendered path contains an
ignore pattern as a substring; concretely, ignoring `lib` also excludes the
files under `library_docs`, while an empty ignore list scans them. -/
theorem claim9_thm :
    (∀ (fs : FS) (root : List String) (rec : Bool) (ig : List String)
        (p : List String),
      p ∈ scan_files fs root rec ig → ScanRespectsIgnores fs root rec ig p) ∧
    scan_files fxLib ["root"] true ["lib"] = [["root", "keep", "data.txt"]] ∧
    scan_files fxLib ["root"] true [] =
      [["root", "library_docs", "doc.txt"], ["root", "keep", "data.txt"]] :=
  ⟨claim9_main, rfl, rfl⟩

/-- C9, witness: the substring guarantee for the one path the ignore list
lets through on the `library_docs` fixture. -/
theorem claim9_witness :
    ScanRespectsIgnores fxLib ["root"] true ["lib"] ["root", "keep", "data.txt"] :=
  claim9_thm.1 fxLib ["root"] true ["lib"] ["root", "keep", "data.txt"] (by decide)
